import Mathlib

/-!
# graph-search: a shallow embedding of `Frontier.h` and `GraphSearch.h`

The development follows the two headers of the repository.

* `Frontier` embeds the abstract class `Frontier<NodeType>` with its two
  subclasses `DepthFirstFrontier` (a `std::stack`) and `BreadthFirstFrontier`
  (a `std::queue`).  Both containers are lists whose head is the element that
  `next()` returns.
* `Problem` holds the pure virtual methods `actions` and `result` together
  with the enumerator `ActionsType::start_state`.
* `Members` holds the two private data members `solution_found` and `nodes`.
* `search`, `solution` and `path` embed the member functions of the same name.
  Loops take a budget of iterations (`fuel`); a `std::vector` is a list and
  `emplace_back` appends at its end; a `std::unordered_set` is a list used
  only through membership (`count`) and `insert`.  Indices are natural
  numbers: every `int` stored by the code is `0` or `nodes.size() - 1` taken
  right after an `emplace_back`, and the history is taken to stay within the
  range of `int`.
* `actions` and `result` are total functions: a subclass whose methods throw
  is outside the embedding.
-/

namespace graphsearch

/-- Outcome of running a piece of the program under a loop budget. -/
inductive Run (α : Type) where
  /-- The code ran to its end and produced a value. -/
  | done (a : α)
  /-- The code executed a `throw`. -/
  | thrown
  /-- The loop budget was used up before the loop ended. -/
  | outOfFuel
  /-- The code reached undefined behaviour: `top`/`front`/`pop` on an empty
  container or a vector read outside `[0, size)`. -/
  | fault
deriving DecidableEq, Repr

/-- Record `Problem::Node`: a state, the index of its parent in
`Problem::nodes`, and the action that produced it. -/
structure Node (S A : Type) where
  state : S
  parent_index : Nat
  action : A
deriving DecidableEq, Repr

/-- Class `Frontier<NodeType>` with its two subclasses.  The list is the
private member `container`; its head is `container.top()` for the stack and
`container.front()` for the queue. -/
inductive Frontier (N : Type) where
  | DepthFirstFrontier (container : List N)
  | BreadthFirstFrontier (container : List N)
deriving DecidableEq, Repr

namespace Frontier

variable {N : Type}

/-- The private member `container`, in retrieval order. -/
def container : Frontier N → List N
  | DepthFirstFrontier c => c
  | BreadthFirstFrontier c => c

/-- Method `add`: `container.push(node)`; a stack pushes on top, a queue at
the back. -/
def add : Frontier N → N → Frontier N
  | DepthFirstFrontier c, node => DepthFirstFrontier (node :: c)
  | BreadthFirstFrontier c, node => BreadthFirstFrontier (c ++ [node])

/-- Method `next`: `container.top()` / `container.front()`; `none` stands for
the undefined behaviour of either call on an empty container. -/
def next : Frontier N → Option N
  | DepthFirstFrontier c => c.head?
  | BreadthFirstFrontier c => c.head?

/-- Method `pop`: `container.pop()`; `none` stands for the undefined
behaviour of the call on an empty container. -/
def pop : Frontier N → Option (Frontier N)
  | DepthFirstFrontier [] => none
  | DepthFirstFrontier (_ :: c) => some (DepthFirstFrontier c)
  | BreadthFirstFrontier [] => none
  | BreadthFirstFrontier (_ :: c) => some (BreadthFirstFrontier c)

/-- Method `isEmpty`: `container.empty()`. -/
def isEmpty : Frontier N → Bool
  | DepthFirstFrontier c => c.isEmpty
  | BreadthFirstFrontier c => c.isEmpty

end Frontier

/-- The part of class `Problem` a subclass supplies: the pure virtual methods
`actions` and `result`, and the enumerator `ActionsType::start_state`. -/
structure Problem (S A : Type) where
  start_state : A
  actions : S → List A
  result : S → A → S

/-- The private data members of class `Problem`. -/
structure Members (S A : Type) where
  solution_found : Bool
  nodes : List (Node S A)
deriving DecidableEq, Repr

/-- A newly constructed object: `solution_found{false}` and an empty
`nodes`. -/
def Members.fresh {S A : Type} : Members S A := ⟨false, []⟩

/-- The local variables of `search` that live across loop iterations,
together with the member `nodes`. -/
structure LoopState (S A : Type) where
  nodes : List (Node S A)
  explored : List S
  frontier : Frontier (Node S A)
deriving DecidableEq, Repr

/-- What one pass through the `while` of `search` does. -/
inductive Step (S A : Type) where
  /-- The function returned `b`, leaving `nodes` behind. -/
  | exit (b : Bool) (nodes : List (Node S A))
  /-- The loop body ran to its end. -/
  | iterate (st : LoopState S A)
  /-- A frontier method was called on an empty container. -/
  | fault

section Engine

variable {S A : Type} [DecidableEq S] [DecidableEq A]

/-- Method `expand`: one successor node per available action, in the order of
`actions`. -/
def expand (P : Problem S A) (state : S) (parent_index : Nat) : List (Node S A) :=
  (P.actions state).map fun the_action =>
    { state := P.result state the_action, parent_index := parent_index, action := the_action }

/-- The `for (const Node& successor : successors)` loop of `search`: a
successor whose state is not in `explored` is added to the frontier, and
`explored.insert(current_node.state)` is executed. -/
def addSuccessors (current_state : S) :
    List (Node S A) → Frontier (Node S A) → List S → Frontier (Node S A) × List S
  | [], frontier, explored => (frontier, explored)
  | successor :: rest, frontier, explored =>
    if successor.state ∈ explored then
      addSuccessors current_state rest frontier explored
    else
      addSuccessors current_state rest (frontier.add successor)
        (List.insert current_state explored)

/-- One evaluation of the loop condition of `search` followed, when the
frontier is not empty, by one execution of the loop body. -/
def searchStep (P : Problem S A) (goal_states : List S) (st : LoopState S A) : Step S A :=
  if st.frontier.isEmpty then Step.exit false st.nodes
  else
    match st.frontier.next with
    | none => Step.fault
    | some current_node =>
      let nodes := st.nodes ++ [current_node]
      let current_index := nodes.length - 1
      if current_node.state ∈ goal_states then Step.exit true nodes
      else
        let successors := expand P current_node.state current_index
        match st.frontier.pop with
        | none => Step.fault
        | some frontier =>
          let r := addSuccessors current_node.state successors frontier st.explored
          Step.iterate { nodes := nodes, explored := r.2, frontier := r.1 }

/-- The `while` loop of `search` with its two `return` statements; `fuel` is
the number of complete loop bodies that may run. -/
def searchLoop (P : Problem S A) (goal_states : List S) :
    Nat → LoopState S A → Run (Bool × List (Node S A))
  | fuel, st =>
    match searchStep P goal_states st with
    | Step.exit b nodes => Run.done (b, nodes)
    | Step.fault => Run.fault
    | Step.iterate st' =>
      match fuel with
      | 0 => Run.outOfFuel
      | fuel + 1 => searchLoop P goal_states fuel st'

/-- The loop state of `search` after `n` complete loop bodies, when the loop
runs that long. -/
def loopStateAfter (P : Problem S A) (goal_states : List S) :
    Nat → LoopState S A → Option (LoopState S A)
  | 0, st => some st
  | n + 1, st =>
    match searchStep P goal_states st with
    | Step.iterate st' => loopStateAfter P goal_states n st'
    | _ => none

/-- The state in which `search` enters its loop: `nodes` cleared, the start
node on the frontier and `initial_state` in `explored`. -/
def searchInit (P : Problem S A) (initial_state : S) (frontier : Frontier (Node S A)) :
    LoopState S A :=
  { nodes := []
    explored := List.insert initial_state []
    frontier := frontier.add
      { state := initial_state, parent_index := 0, action := P.start_state } }

/-- Method `search`.  The members are cleared first (`nodes.clear()`,
`solution_found = false`); `solution_found` becomes true only on the
`return true` path. -/
def search (P : Problem S A) (initial_state : S) (goal_states : List S)
    (frontier : Frontier (Node S A)) (fuel : Nat) (m : Members S A) :
    Run (Bool × Members S A) :=
  let cleared : Members S A := { m with nodes := [], solution_found := false }
  match searchLoop P goal_states fuel
      { searchInit P initial_state frontier with nodes := cleared.nodes } with
  | Run.done (b, nodes) => Run.done (b, { solution_found := b, nodes := nodes })
  | Run.thrown => Run.thrown
  | Run.outOfFuel => Run.outOfFuel
  | Run.fault => Run.fault

/-- Method `searchDepthFirst`: `search` with a new `DepthFirstFrontier`. -/
def searchDepthFirst (P : Problem S A) (initial_state : S) (goal_states : List S)
    (fuel : Nat) (m : Members S A) : Run (Bool × Members S A) :=
  search P initial_state goal_states (Frontier.DepthFirstFrontier []) fuel m

/-- Method `searchBreadthFirst`: `search` with a new `BreadthFirstFrontier`. -/
def searchBreadthFirst (P : Problem S A) (initial_state : S) (goal_states : List S)
    (fuel : Nat) (m : Members S A) : Run (Bool × Members S A) :=
  search P initial_state goal_states (Frontier.BreadthFirstFrontier []) fuel m

/-- The `while (nodes[index].action != ActionsType::start_state)` loop of
`solution`, followed by `std::reverse`. -/
def solutionWalk (start_state : A) (nodes : List (Node S A)) :
    Nat → Nat → List A → Run (List A)
  | fuel, index, the_solution =>
    match nodes[index]? with
    | none => Run.fault
    | some n =>
      if n.action ≠ start_state then
        match fuel with
        | 0 => Run.outOfFuel
        | fuel + 1 =>
          solutionWalk start_state nodes fuel n.parent_index (the_solution ++ [n.action])
      else Run.done the_solution.reverse

/-- Method `solution`: throws unless `solution_found`, else walks back from
the last node. -/
def solution (P : Problem S A) (m : Members S A) (fuel : Nat) : Run (List A) :=
  if !m.solution_found then Run.thrown
  else solutionWalk P.start_state m.nodes fuel (m.nodes.length - 1) []

/-- The `while (index > 0)` loop of `path`, followed by the push of
`nodes[0].state` and `std::reverse`. -/
def pathWalk (nodes : List (Node S A)) : Nat → Nat → List S → Run (List S)
  | fuel, index, the_path =>
    if index > 0 then
      match fuel with
      | 0 => Run.outOfFuel
      | fuel + 1 =>
        match nodes[index]? with
        | none => Run.fault
        | some n => pathWalk nodes fuel n.parent_index (the_path ++ [n.state])
    else
      match nodes[0]? with
      | none => Run.fault
      | some n => Run.done (the_path ++ [n.state]).reverse

/-- Method `path`: throws unless `solution_found`, else walks back from the
last node. -/
def path (m : Members S A) (fuel : Nat) : Run (List S) :=
  if !m.solution_found then Run.thrown
  else pathWalk m.nodes fuel (m.nodes.length - 1) []

end Engine

/-! ## The sample problems of `GraphSearchTests` -/

/-- Enumeration `TestActions` of `GraphSearchTests.h`. -/
inductive TestActions where
  | start_state
  | left
  | right
  | up
  | down
deriving DecidableEq, Repr

/-- Class `SimpleProblem`: the chain 1-2-3-4-5.  The `default` branch of
`result` throws in the source; it is not reached for an action that `actions`
lists, and the embedding returns the state unchanged there. -/
def SimpleProblem : Problem Int TestActions where
  start_state := TestActions.start_state
  actions := fun state =>
    if state = 1 then [TestActions.right]
    else if state = 5 then [TestActions.left]
    else [TestActions.right, TestActions.left]
  result := fun state action =>
    match action with
    | TestActions.right => state + 1
    | TestActions.left => state - 1
    | _ => state

/-- Class `SimpleCyclesProblem`: the grid of 11 states with cycles.  The
`default` branches throw in the source; they are not reached from the states
1 to 11 with the actions that `actions` lists, and the embedding returns no
action, respectively the state unchanged, there. -/
def SimpleCyclesProblem : Problem Int TestActions where
  start_state := TestActions.start_state
  actions := fun state =>
    if state = 1 then [TestActions.down, TestActions.right]
    else if state = 2 ∨ state = 6 ∨ state = 9 ∨ state = 11 then
      [TestActions.left, TestActions.right]
    else if state = 3 ∨ state = 7 then [TestActions.down, TestActions.left]
    else if state = 4 then [TestActions.down, TestActions.up]
    else if state = 5 ∨ state = 8 then
      [TestActions.down, TestActions.up, TestActions.right]
    else if state = 10 then [TestActions.up, TestActions.left]
    else []
  result := fun state action =>
    if state = 1 then
      match action with
      | TestActions.right => 2
      | TestActions.down => 4
      | _ => state
    else if state = 2 then
      match action with
      | TestActions.left => 1
      | TestActions.right => 3
      | _ => state
    else if state = 3 then
      match action with
      | TestActions.left => 2
      | TestActions.down => 5
      | _ => state
    else if state = 4 then
      match action with
      | TestActions.up => 1
      | TestActions.down => 8
      | _ => state
    else if state = 5 then
      match action with
      | TestActions.right => 6
      | TestActions.down => 10
      | TestActions.up => 3
      | _ => state
    else if state = 6 then
      match action with
      | TestActions.left => 5
      | TestActions.right => 7
      | _ => state
    else if state = 7 then
      match action with
      | TestActions.left => 6
      | TestActions.down => 11
      | _ => state
    else if state = 8 then
      match action with
      | TestActions.right => 9
      | TestActions.down => 11
      | TestActions.up => 4
      | _ => state
    else if state = 9 then
      match action with
      | TestActions.right => 10
      | TestActions.left => 8
      | _ => state
    else if state = 10 then
      match action with
      | TestActions.left => 9
      | TestActions.up => 5
      | _ => state
    else if state = 11 then
      match action with
      | TestActions.right => 7
      | TestActions.left => 8
      | _ => state
    else state

/-! ## Vocabulary of the specification -/

section Vocabulary

variable {S A : Type}

/-- The action sequence `as` is legal from `s`: each action is listed by
`actions` at the state in which it is taken. -/
def Legal (P : Problem S A) : S → List A → Prop
  | _, [] => True
  | s, a :: as => a ∈ P.actions s ∧ Legal P (P.result s a) as

/-- The state reached from `s` by taking the actions `as` in order. -/
def run (P : Problem S A) : S → List A → S
  | s, [] => s
  | s, a :: as => run P (P.result s a) as

/-- The states visited from `s` while taking the actions `as` in order,
`s` included. -/
def replay (P : Problem S A) : S → List A → List S
  | s, [] => [s]
  | s, a :: as => s :: replay P (P.result s a) as

/-- The state `t` is reachable from `s` by zero or more legal actions. -/
def Reachable (P : Problem S A) (s t : S) : Prop :=
  ∃ as : List A, Legal P s as ∧ run P s as = t

/-- The start node that `search` puts on the frontier. -/
def rootNode (P : Problem S A) (initial_state : S) : Node S A :=
  { state := initial_state, parent_index := 0, action := P.start_state }

/-- The node `n` is a successor, by a legal action, of the node stored at
its `parent_index` in `nodes`. -/
def IsChild (P : Problem S A) (nodes : List (Node S A)) (n : Node S A) : Prop :=
  ∃ p, nodes[n.parent_index]? = some p ∧ n.action ∈ P.actions p.state ∧
    n.state = P.result p.state n.action

/-- The successors that the `for` loop of `search` adds to the frontier, in
the order in which it adds them. -/
def keptSuccessors [DecidableEq S] (current_state : S) :
    List (Node S A) → List S → List (Node S A)
  | [], _ => []
  | successor :: rest, explored =>
    if successor.state ∈ explored then keptSuccessors current_state rest explored
    else successor :: keptSuccessors current_state rest (List.insert current_state explored)

/-- The expansion history `nodes` is well formed: entry 0 is the start node
and every later entry is a legal successor of a strictly earlier entry. -/
structure HistOK (P : Problem S A) (initial_state : S) (nodes : List (Node S A)) : Prop where
  root : nodes[0]? = some (rootNode P initial_state)
  hist : ∀ i n, 0 < i → nodes[i]? = some n → n.parent_index < i ∧ IsChild P nodes n

/-- Following `parent_index` from entry `i` of `nodes` down to entry 0 meets
the states `ss` and the actions `as`, both listed from the start node. -/
inductive Trace (nodes : List (Node S A)) : Nat → List S → List A → Prop where
  | root (n : Node S A) : nodes[0]? = some n → Trace nodes 0 [n.state] []
  | child (i : Nat) (n : Node S A) (ss : List S) (as : List A) : 0 < i →
      nodes[i]? = some n → Trace nodes n.parent_index ss as →
      Trace nodes i (ss ++ [n.state]) (as ++ [n.action])

/-- The facts about the loop state of `search` that hold whenever the loop
condition is evaluated, for a search started at `initial_state` on an empty
frontier. -/
structure Inv (P : Problem S A) (initial_state : S) (goal_states : List S)
    (st : LoopState S A) : Prop where
  root : (st.nodes = [] ∧ st.frontier.container = [rootNode P initial_state]) ∨
    st.nodes[0]? = some (rootNode P initial_state)
  hist : ∀ i n, 0 < i → st.nodes[i]? = some n → n.parent_index < i ∧ IsChild P st.nodes n
  front : st.nodes ≠ [] → ∀ f ∈ st.frontier.container, IsChild P st.nodes f
  nongoal : ∀ n ∈ st.nodes, n.state ∉ goal_states
  explored_sub : ∀ s ∈ st.explored, s = initial_state ∨ ∃ n ∈ st.nodes, n.state = s
  closed : ∀ n ∈ st.nodes, ∀ a ∈ P.actions n.state,
    (∃ n' ∈ st.nodes, n'.state = P.result n.state a) ∨
    (∃ f ∈ st.frontier.container, f.state = P.result n.state a)
  explored_nodup : st.explored.Nodup
  init_explored : initial_state ∈ st.explored
  reach_nodes : ∀ n ∈ st.nodes, Reachable P initial_state n.state
  reach_front : ∀ f ∈ st.frontier.container, Reachable P initial_state f.state

/-- The facts about the loop state that hold, besides `Inv`, when the
frontier is a `BreadthFirstFrontier`: parent indices never decrease along the
history followed by the queue, and every successor of an expanded entry `i`
is the state of an entry that is not later than `i` or has parent `i`, or of
a queued node with parent `i`. -/
structure BInv (P : Problem S A) (st : LoopState S A) : Prop where
  bfs : ∃ c, st.frontier = Frontier.BreadthFirstFrontier c
  sorted : ((st.nodes ++ st.frontier.container).map Node.parent_index).Pairwise (· ≤ ·)
  near : ∀ i n a, st.nodes[i]? = some n → a ∈ P.actions n.state →
    (∃ j n', st.nodes[j]? = some n' ∧ n'.state = P.result n.state a ∧
      (j ≤ i ∨ n'.parent_index = i)) ∨
    (∃ f ∈ st.frontier.container, f.state = P.result n.state a ∧ f.parent_index = i)

/-- Entry `i` of `nodes` lies `d` parent links from entry 0. -/
def HasDepth (nodes : List (Node S A)) (i d : Nat) : Prop :=
  ∃ ss as, Trace nodes i ss as ∧ as.length = d

/-- Entry `i` of `nodes` carries a state that an earlier entry carries too. -/
def Revisit (nodes : List (Node S A)) (i : Nat) : Prop :=
  ∃ j n n', j < i ∧ nodes[j]? = some n ∧ nodes[i]? = some n' ∧ n'.state = n.state

/-- In `nodes`, an entry whose parent carries an already examined state
carries an already examined state itself. -/
def RevisitClosed (nodes : List (Node S A)) : Prop :=
  ∀ j n, 0 < j → nodes[j]? = some n → Revisit nodes n.parent_index → Revisit nodes j

/-- The facts about the loop state that hold, besides `Inv`, when the
frontier is a `DepthFirstFrontier`.  `below`: no node under a stack node `f`
has a parent with the state of `f`.  `parent_explored`: the parent of a
stack node has its state in the explored set.  `near`: a successor state of
an examined entry `i` is explored, or examined, or carried by a stack node
with parent `i`.  `twin`: a stack node whose parent carries an already
examined state carries an examined state. -/
structure DInv (P : Problem S A) (st : LoopState S A) : Prop where
  dfs : ∃ c, st.frontier = Frontier.DepthFirstFrontier c
  below : st.frontier.container.Pairwise
    (fun f c => ∀ n, st.nodes[c.parent_index]? = some n → n.state ≠ f.state)
  parent_explored : ∀ f ∈ st.frontier.container, ∀ n,
    st.nodes[f.parent_index]? = some n → n.state ∈ st.explored
  near : ∀ i y a, st.nodes[i]? = some y → a ∈ P.actions y.state →
    P.result y.state a ∈ st.explored ∨
    (∃ c ∈ st.nodes, c.state = P.result y.state a) ∨
    (∃ c ∈ st.frontier.container, c.parent_index = i ∧ c.state = P.result y.state a)
  twin : ∀ f ∈ st.frontier.container, Revisit st.nodes f.parent_index →
    ∃ n ∈ st.nodes, n.state = f.state
  closed : RevisitClosed st.nodes

/-- The facts about the loop state that hold, besides `Inv` and `BInv`, when
the frontier is a `BreadthFirstFrontier`: a queued node whose parent carries
an already examined state carries a state that is examined or carried by a
queued node with a smaller parent index. -/
structure RInv (st : LoopState S A) : Prop where
  twin : ∀ f ∈ st.frontier.container, Revisit st.nodes f.parent_index →
    (∃ n ∈ st.nodes, n.state = f.state) ∨
    (∃ t ∈ st.frontier.container, t.state = f.state ∧ t.parent_index < f.parent_index)
  closed : RevisitClosed st.nodes

end Vocabulary

section FrontierVocabulary

variable {N : Type}

/-- The call `frontier->next()` as a run of the program: the node returned
on a non-empty frontier; on an empty one the source executes no `throw`, it
calls `top()`/`front()` of an empty container, which is undefined. -/
def Frontier.nextRun (f : Frontier N) : Run N :=
  match f.next with
  | some node => Run.done node
  | none => Run.fault

/-- The call `frontier->pop()` as a run of the program: the frontier left
behind on a non-empty frontier; on an empty one the source executes no
`throw`, it calls `pop()` of an empty container, which is undefined. -/
def Frontier.popRun (f : Frontier N) : Run (Frontier N) :=
  match f.pop with
  | some f' => Run.done f'
  | none => Run.fault

/-- Draining a frontier: while `isEmpty()` is false take `next()` and call
`pop()`; the result lists the nodes taken, in the order taken. -/
def drain : Nat → Frontier N → Run (List N)
  | fuel, f =>
    if f.isEmpty then Run.done []
    else
      match fuel with
      | 0 => Run.outOfFuel
      | fuel + 1 =>
        match f.next, f.pop with
        | some node, some f' =>
          match drain fuel f' with
          | Run.done nodes => Run.done (node :: nodes)
          | r => r
        | _, _ => Run.fault

/-- One call made on a frontier by a client: `add(node)` or `pop()`. -/
inductive FrontierOp (N : Type) where
  | add (node : N)
  | pop
deriving DecidableEq, Repr

/-- Whether the call is an `add`. -/
def FrontierOp.isAdd : FrontierOp N → Bool
  | FrontierOp.add _ => true
  | FrontierOp.pop => false

/-- Whether the call is a `pop`. -/
def FrontierOp.isPop : FrontierOp N → Bool
  | FrontierOp.add _ => false
  | FrontierOp.pop => true

/-- The frontier after a sequence of `add` and `pop` calls; `none` when some
`pop` is applied to an empty frontier. -/
def applyOps : Frontier N → List (FrontierOp N) → Option (Frontier N)
  | f, [] => some f
  | f, FrontierOp.add node :: ops => applyOps (f.add node) ops
  | f, FrontierOp.pop :: ops =>
    match f.pop with
    | none => none
    | some f' => applyOps f' ops

end FrontierVocabulary

/-- Structure `SimpleStruct` of `FrontierTests.h`. -/
structure SimpleStruct where
  x : Int
deriving DecidableEq, Repr

end graphsearch

/-! ## Lemmas on the frontier and on one loop iteration -/

namespace graphsearch

section Lemmas

variable {S A : Type} [DecidableEq S]

theorem Frontier_container_add_mem {N : Type} (f : Frontier N) (x y : N) :
    y ∈ (f.add x).container ↔ y = x ∨ y ∈ f.container := by
  cases f <;> simp [Frontier.add, Frontier.container, or_comm]

theorem Frontier_container_foldl_add_mem {N : Type} (ks : List N) (f : Frontier N) (y : N) :
    y ∈ (ks.foldl Frontier.add f).container ↔ y ∈ ks ∨ y ∈ f.container := by
  induction ks generalizing f with
  | nil => simp
  | cons k ks ih =>
    simp only [List.foldl_cons, ih, Frontier_container_add_mem, List.mem_cons]
    tauto

theorem Frontier_container_foldl_add_dfs {N : Type} (ks c : List N) :
    ks.foldl Frontier.add (Frontier.DepthFirstFrontier c) =
      Frontier.DepthFirstFrontier (ks.reverse ++ c) := by
  induction ks generalizing c with
  | nil => simp
  | cons k ks ih => simp [Frontier.add, ih]

theorem Frontier_container_foldl_add_bfs {N : Type} (ks c : List N) :
    ks.foldl Frontier.add (Frontier.BreadthFirstFrontier c) =
      Frontier.BreadthFirstFrontier (c ++ ks) := by
  induction ks generalizing c with
  | nil => simp
  | cons k ks ih => simp [Frontier.add, ih]

theorem Frontier_isEmpty_iff {N : Type} (f : Frontier N) :
    f.isEmpty = true ↔ f.container = [] := by
  cases f <;> simp [Frontier.isEmpty, Frontier.container, List.isEmpty_iff]

theorem Frontier_next_pop_of_cons {N : Type} (f : Frontier N) (x : N) (rest : List N)
    (h : f.container = x :: rest) :
    f.next = some x ∧ ∃ f', f.pop = some f' ∧ f'.container = rest ∧
      (∀ c, f = Frontier.DepthFirstFrontier c → f' = Frontier.DepthFirstFrontier rest) ∧
      (∀ c, f = Frontier.BreadthFirstFrontier c → f' = Frontier.BreadthFirstFrontier rest) := by
  cases f with
  | DepthFirstFrontier c =>
    simp only [Frontier.container] at h
    subst h
    simp [Frontier.next, Frontier.pop, Frontier.container]
  | BreadthFirstFrontier c =>
    simp only [Frontier.container] at h
    subst h
    simp [Frontier.next, Frontier.pop, Frontier.container]

/-- The explored set after the `for` loop: `current_state` has been inserted
exactly when some successor was added. -/
theorem addSuccessors_eq (current_state : S) (succs : List (Node S A))
    (f : Frontier (Node S A)) (e : List S) :
    addSuccessors current_state succs f e =
      ((keptSuccessors current_state succs e).foldl Frontier.add f,
        if (keptSuccessors current_state succs e).isEmpty then e
        else List.insert current_state e) := by
  induction succs generalizing f e with
  | nil => simp [addSuccessors, keptSuccessors]
  | cons s rest ih =>
    by_cases h : s.state ∈ e
    · have hk : keptSuccessors current_state (s :: rest) e =
          keptSuccessors current_state rest e := by
        simp [keptSuccessors, h]
      rw [hk]
      simp [addSuccessors, h, ih]
    · have hk : keptSuccessors current_state (s :: rest) e =
          s :: keptSuccessors current_state rest (List.insert current_state e) := by
        simp [keptSuccessors, h]
      rw [hk]
      simp only [addSuccessors, h, if_false, ih, List.foldl_cons]
      have hi : List.insert current_state (List.insert current_state e) =
          List.insert current_state e := by
        apply List.insert_of_mem
        exact List.mem_insert_self _ _
      split <;> simp [hi]

theorem keptSuccessors_sublist (current_state : S) (succs : List (Node S A)) (e : List S) :
    (keptSuccessors current_state succs e).Sublist succs := by
  induction succs generalizing e with
  | nil => simp [keptSuccessors]
  | cons s rest ih =>
    by_cases h : s.state ∈ e
    · simp only [keptSuccessors, h, if_true]
      exact (ih e).cons _
    · simp only [keptSuccessors, h, if_false]
      exact (ih _).cons₂ _

theorem keptSuccessors_not_explored (current_state : S) (succs : List (Node S A)) (e : List S)
    (k : Node S A) (hk : k ∈ keptSuccessors current_state succs e) : k.state ∉ e := by
  induction succs generalizing e with
  | nil => simp [keptSuccessors] at hk
  | cons s rest ih =>
    by_cases h : s.state ∈ e
    · simp only [keptSuccessors, h, if_true] at hk
      exact ih e hk
    · simp only [keptSuccessors, h, if_false, List.mem_cons] at hk
      rcases hk with rfl | hk
      · exact h
      · intro hke
        exact ih _ hk (List.mem_insert_of_mem hke)

theorem keptSuccessors_or_explored (current_state : S) (succs : List (Node S A)) (e : List S)
    (s : Node S A) (hs : s ∈ succs) :
    s ∈ keptSuccessors current_state succs e ∨ s.state ∈ e ∨ s.state = current_state := by
  induction succs generalizing e with
  | nil => simp at hs
  | cons t rest ih =>
    by_cases h : t.state ∈ e
    · simp only [keptSuccessors, h, if_true]
      rcases List.mem_cons.mp hs with rfl | hs
      · exact Or.inr (Or.inl h)
      · exact ih e hs
    · simp only [keptSuccessors, h, if_false, List.mem_cons]
      rcases List.mem_cons.mp hs with rfl | hs
      · exact Or.inl (Or.inl rfl)
      · rcases ih (List.insert current_state e) hs with h1 | h1 | h1
        · exact Or.inl (Or.inr h1)
        · rcases List.mem_insert_iff.mp h1 with h2 | h2
          · exact Or.inr (Or.inr h2)
          · exact Or.inr (Or.inl h2)
        · exact Or.inr (Or.inr h1)

/-- What a completed loop body does to the loop state. -/
theorem searchStep_continue (P : Problem S A) (goal_states : List S) (st st' : LoopState S A)
    (h : searchStep P goal_states st = Step.iterate st') :
    ∃ x rest f', st.frontier.container = x :: rest ∧ x.state ∉ goal_states ∧
      st.frontier.pop = some f' ∧ f'.container = rest ∧
      st'.nodes = st.nodes ++ [x] ∧
      st'.frontier = (keptSuccessors x.state (expand P x.state st.nodes.length)
        st.explored).foldl Frontier.add f' ∧
      st'.explored = (if (keptSuccessors x.state (expand P x.state st.nodes.length)
        st.explored).isEmpty then st.explored else List.insert x.state st.explored) := by
  unfold searchStep at h
  split at h
  · exact absurd h (by simp)
  · rename_i hne
    have hc : st.frontier.container ≠ [] := fun hc =>
      hne ((Frontier_isEmpty_iff _).mpr hc)
    obtain ⟨x, rest, hxr⟩ := List.exists_cons_of_ne_nil hc
    obtain ⟨hnext, f', hpop, hf', -, -⟩ := Frontier_next_pop_of_cons _ x rest hxr
    simp only [hnext, hpop] at h
    split at h
    · exact absurd h (by simp)
    · rename_i hg
      simp only [Step.iterate.injEq] at h
      subst h
      refine ⟨x, rest, f', hxr, hg, hpop, hf', rfl, ?_, ?_⟩
      · simp [addSuccessors_eq]
      · simp [addSuccessors_eq]

theorem searchStep_exit_true (P : Problem S A) (goal_states : List S) (st : LoopState S A)
    (nodes : List (Node S A)) (h : searchStep P goal_states st = Step.exit true nodes) :
    ∃ x rest, st.frontier.container = x :: rest ∧ x.state ∈ goal_states ∧
      nodes = st.nodes ++ [x] := by
  unfold searchStep at h
  split at h
  · simp at h
  · rename_i hne
    have hc : st.frontier.container ≠ [] := fun hc =>
      hne ((Frontier_isEmpty_iff _).mpr hc)
    obtain ⟨x, rest, hxr⟩ := List.exists_cons_of_ne_nil hc
    obtain ⟨hnext, f', hpop, hf', -, -⟩ := Frontier_next_pop_of_cons _ x rest hxr
    simp only [hnext, hpop] at h
    split at h
    · rename_i hg
      simp only [Step.exit.injEq, true_and] at h
      exact ⟨x, rest, hxr, hg, h.symm⟩
    · simp at h

theorem searchStep_exit_false (P : Problem S A) (goal_states : List S) (st : LoopState S A)
    (nodes : List (Node S A)) (h : searchStep P goal_states st = Step.exit false nodes) :
    st.frontier.container = [] ∧ nodes = st.nodes := by
  unfold searchStep at h
  split at h
  · rename_i he
    simp only [Step.exit.injEq, true_and] at h
    exact ⟨(Frontier_isEmpty_iff _).mp he, h.symm⟩
  · rename_i hne
    have hc : st.frontier.container ≠ [] := fun hc =>
      hne ((Frontier_isEmpty_iff _).mpr hc)
    obtain ⟨x, rest, hxr⟩ := List.exists_cons_of_ne_nil hc
    obtain ⟨hnext, f', hpop, hf', -, -⟩ := Frontier_next_pop_of_cons _ x rest hxr
    simp only [hnext, hpop] at h
    split at h <;> simp at h

theorem searchStep_ne_fault (P : Problem S A) (goal_states : List S) (st : LoopState S A) :
    searchStep P goal_states st ≠ Step.fault := by
  unfold searchStep
  split
  · simp
  · rename_i hne
    have hc : st.frontier.container ≠ [] := fun hc =>
      hne ((Frontier_isEmpty_iff _).mpr hc)
    obtain ⟨x, rest, hxr⟩ := List.exists_cons_of_ne_nil hc
    obtain ⟨hnext, f', hpop, hf', -, -⟩ := Frontier_next_pop_of_cons _ x rest hxr
    simp only [hnext, hpop]
    split <;> simp

/-! ## Reachability -/

omit [DecidableEq S] in
theorem Legal_append (P : Problem S A) (s : S) (as bs : List A) :
    Legal P s (as ++ bs) ↔ Legal P s as ∧ Legal P (run P s as) bs := by
  induction as generalizing s with
  | nil => simp [Legal, run]
  | cons a as ih => simp [Legal, run, ih, and_assoc]

omit [DecidableEq S] in
theorem run_append (P : Problem S A) (s : S) (as bs : List A) :
    run P s (as ++ bs) = run P (run P s as) bs := by
  induction as generalizing s with
  | nil => simp [run]
  | cons a as ih => simp [run, ih]

omit [DecidableEq S] in
theorem Reachable_refl (P : Problem S A) (s : S) : Reachable P s s :=
  ⟨[], trivial, rfl⟩

omit [DecidableEq S] in
theorem Reachable_step (P : Problem S A) {s t : S} {a : A} (h : Reachable P s t)
    (ha : a ∈ P.actions t) : Reachable P s (P.result t a) := by
  obtain ⟨as, hl, hr⟩ := h
  refine ⟨as ++ [a], ?_, ?_⟩
  · rw [Legal_append]
    exact ⟨hl, by simpa [Legal, hr] using ha⟩
  · rw [run_append, hr]
    rfl

/-! ## The loop invariant -/

omit [DecidableEq S] in
theorem IsChild_append (P : Problem S A) {nodes : List (Node S A)} {n : Node S A}
    (h : IsChild P nodes n) (more : List (Node S A)) : IsChild P (nodes ++ more) n := by
  obtain ⟨p, hp, ha, hs⟩ := h
  refine ⟨p, ?_, ha, hs⟩
  have hlt : n.parent_index < nodes.length := by
    rcases List.getElem?_eq_some_iff.mp hp with ⟨hlt, -⟩
    exact hlt
  rw [List.getElem?_append_left hlt]
  exact hp

omit [DecidableEq S] in
theorem mem_expand (P : Problem S A) (state : S) (parent_index : Nat) (k : Node S A) :
    k ∈ expand P state parent_index ↔
      ∃ a ∈ P.actions state, k = ⟨P.result state a, parent_index, a⟩ := by
  simp only [expand, List.mem_map]
  constructor
  · rintro ⟨a, ha, rfl⟩
    exact ⟨a, ha, rfl⟩
  · rintro ⟨a, ha, rfl⟩
    exact ⟨a, ha, rfl⟩

theorem Inv_init (P : Problem S A) (initial_state : S) (goal_states : List S)
    (frontier : Frontier (Node S A)) (hf : frontier.container = []) :
    Inv P initial_state goal_states (searchInit P initial_state frontier) := by
  have hc : (searchInit P initial_state frontier).frontier.container =
      [rootNode P initial_state] := by
    cases frontier <;> simp_all [searchInit, Frontier.add, Frontier.container, rootNode]
  refine ⟨Or.inl ⟨rfl, hc⟩, ?_, ?_, ?_, ?_, ?_, ?_, ?_, ?_, ?_⟩
  · intro i n _ h
    simp [searchInit] at h
  · intro h
    exact absurd rfl h
  · intro n hn
    simp [searchInit] at hn
  · intro s hs
    left
    simpa [searchInit] using hs
  · intro n hn
    simp [searchInit] at hn
  · simp [searchInit]
  · simp [searchInit]
  · intro n hn
    simp [searchInit] at hn
  · intro f hfm
    rw [hc] at hfm
    simp only [List.mem_singleton] at hfm
    subst hfm
    exact Reachable_refl P _

omit [DecidableEq S] in
/-- Appending the node taken from the frontier keeps the history well
formed. -/
theorem Inv_histOK_snoc (P : Problem S A) (initial_state : S) (goal_states : List S)
    (st : LoopState S A) (hinv : Inv P initial_state goal_states st) (x : Node S A)
    (rest : List (Node S A)) (hxr : st.frontier.container = x :: rest) :
    HistOK P initial_state (st.nodes ++ [x]) := by
  have hlast : (st.nodes ++ [x])[st.nodes.length]? = some x := by simp
  have hxmem : x ∈ st.frontier.container := by rw [hxr]; exact List.mem_cons_self _ _
  constructor
  · rcases hinv.root with ⟨hn, hc⟩ | hr
    · rw [hxr] at hc
      simp only [List.cons.injEq] at hc
      rw [hn, hc.1]
      rfl
    · have hlt : 0 < st.nodes.length := by
        rcases List.getElem?_eq_some_iff.mp hr with ⟨hlt, -⟩
        exact hlt
      rw [List.getElem?_append_left hlt]
      exact hr
  · intro i n hi hn
    by_cases hlt : i < st.nodes.length
    · rw [List.getElem?_append_left hlt] at hn
      obtain ⟨h1, h2⟩ := hinv.hist i n hi hn
      exact ⟨h1, IsChild_append P h2 _⟩
    · have hlen : i < (st.nodes ++ [x]).length := by
        rcases List.getElem?_eq_some_iff.mp hn with ⟨hlt2, -⟩
        exact hlt2
      simp only [List.length_append, List.length_singleton] at hlen
      have hieq : i = st.nodes.length := by omega
      subst hieq
      rw [hlast] at hn
      cases hn
      have hne : st.nodes ≠ [] := by
        intro hnil
        rw [hnil] at hi
        simp at hi
      have hch := hinv.front hne x hxmem
      refine ⟨?_, IsChild_append P hch _⟩
      obtain ⟨p, hp, -, -⟩ := hch
      rcases List.getElem?_eq_some_iff.mp hp with ⟨hlt2, -⟩
      exact hlt2

theorem Inv_step (P : Problem S A) (initial_state : S) (goal_states : List S)
    (st st' : LoopState S A) (hinv : Inv P initial_state goal_states st)
    (h : searchStep P goal_states st = Step.iterate st') :
    Inv P initial_state goal_states st' := by
  obtain ⟨x, rest, f', hxr, hg, -, hf', hnodes, hfr, hex⟩ :=
    searchStep_continue P goal_states st st' h
  have hmemF : ∀ y, y ∈ st'.frontier.container ↔
      y ∈ keptSuccessors x.state (expand P x.state st.nodes.length) st.explored ∨
        y ∈ rest := by
    intro y
    rw [hfr, Frontier_container_foldl_add_mem, hf']
  have hlast : (st.nodes ++ [x])[st.nodes.length]? = some x := by simp
  have hkept : ∀ k ∈ keptSuccessors x.state (expand P x.state st.nodes.length) st.explored,
      ∃ a ∈ P.actions x.state, k = ⟨P.result x.state a, st.nodes.length, a⟩ := by
    intro k hk
    exact (mem_expand P _ _ k).mp ((keptSuccessors_sublist _ _ _).subset hk)
  have hxmem : x ∈ st.frontier.container := by rw [hxr]; exact List.mem_cons_self _ _
  have hok : HistOK P initial_state (st.nodes ++ [x]) :=
    Inv_histOK_snoc P initial_state goal_states st hinv x rest hxr
  have hroot : st'.nodes[0]? = some (rootNode P initial_state) := by
    rw [hnodes]
    exact hok.root
  have hrootmem : rootNode P initial_state ∈ st'.nodes := List.getElem?_mem hroot
  refine ⟨Or.inr hroot, ?_, ?_, ?_, ?_, ?_, ?_, ?_, ?_, ?_⟩
  · intro i n hi hn
    rw [hnodes] at hn ⊢
    exact hok.hist i n hi hn
  · intro _ f hfm
    rw [hnodes]
    rcases (hmemF f).mp hfm with hk | hr
    · obtain ⟨a, ha, rfl⟩ := hkept f hk
      exact ⟨x, hlast, ha, rfl⟩
    · by_cases hne : st.nodes = []
      · rcases hinv.root with ⟨-, hc⟩ | hr0
        · rw [hxr] at hc
          simp only [List.cons.injEq] at hc
          rw [hc.2] at hr
          simp at hr
        · rw [hne] at hr0
          simp at hr0
      · exact IsChild_append P (hinv.front hne f (by rw [hxr]; exact List.mem_cons_of_mem _ hr)) _
  · intro n hn
    rw [hnodes, List.mem_append, List.mem_singleton] at hn
    rcases hn with hn | rfl
    · exact hinv.nongoal n hn
    · exact hg
  · intro s hs
    rw [hex] at hs
    have hs' : s ∈ st.explored ∨ s = x.state := by
      split at hs
      · exact Or.inl hs
      · rcases List.mem_insert_iff.mp hs with h1 | h1
        · exact Or.inr h1
        · exact Or.inl h1
    rcases hs' with hs' | rfl
    · rcases hinv.explored_sub s hs' with h1 | ⟨n, hn, h1⟩
      · exact Or.inl h1
      · exact Or.inr ⟨n, by rw [hnodes]; exact List.mem_append_left _ hn, h1⟩
    · exact Or.inr ⟨x, by rw [hnodes]; simp, rfl⟩
  · intro n hn a ha
    rw [hnodes, List.mem_append, List.mem_singleton] at hn
    rcases hn with hn | rfl
    · rcases hinv.closed n hn a ha with ⟨n', hn', h1⟩ | ⟨f, hfm, h1⟩
      · exact Or.inl ⟨n', by rw [hnodes]; exact List.mem_append_left _ hn', h1⟩
      · rw [hxr] at hfm
        rcases List.mem_cons.mp hfm with rfl | hfm
        · exact Or.inl ⟨f, by rw [hnodes]; simp, h1⟩
        · exact Or.inr ⟨f, (hmemF f).mpr (Or.inr hfm), h1⟩
    · have hs : (⟨P.result n.state a, st.nodes.length, a⟩ : Node S A) ∈
          expand P n.state st.nodes.length := (mem_expand P _ _ _).mpr ⟨a, ha, rfl⟩
      rcases keptSuccessors_or_explored n.state _ st.explored _ hs with h1 | h1 | h1
      · exact Or.inr ⟨_, (hmemF _).mpr (Or.inl h1), rfl⟩
      · rcases hinv.explored_sub _ h1 with h2 | ⟨n', hn', h2⟩
        · exact Or.inl ⟨rootNode P initial_state, hrootmem, h2.symm⟩
        · exact Or.inl ⟨n', by rw [hnodes]; exact List.mem_append_left _ hn', h2⟩
      · exact Or.inl ⟨n, by rw [hnodes]; simp, h1.symm⟩
  · rw [hex]
    split
    · exact hinv.explored_nodup
    · exact hinv.explored_nodup.insert
  · rw [hex]
    split
    · exact hinv.init_explored
    · exact List.mem_insert_of_mem hinv.init_explored
  · intro n hn
    rw [hnodes, List.mem_append, List.mem_singleton] at hn
    rcases hn with hn | rfl
    · exact hinv.reach_nodes n hn
    · exact hinv.reach_front n hxmem
  · intro f hfm
    rcases (hmemF f).mp hfm with hk | hr
    · obtain ⟨a, ha, rfl⟩ := hkept f hk
      exact Reachable_step P (hinv.reach_front x hxmem) ha
    · exact hinv.reach_front f (by rw [hxr]; exact List.mem_cons_of_mem _ hr)

/-- A property of the loop state that every completed loop body preserves
holds in the state from which `search` returns. -/
theorem searchLoop_done (P : Problem S A) (goal_states : List S) (J : LoopState S A → Prop)
    (hJ : ∀ st st', J st → searchStep P goal_states st = Step.iterate st' → J st')
    (fuel : Nat) (st : LoopState S A) (b : Bool) (nodes : List (Node S A)) (h0 : J st)
    (h : searchLoop P goal_states fuel st = Run.done (b, nodes)) :
    ∃ st', J st' ∧ searchStep P goal_states st' = Step.exit b nodes := by
  induction fuel generalizing st with
  | zero =>
    unfold searchLoop at h
    split at h
    · rename_i b' nodes' heq
      simp only [Run.done.injEq, Prod.mk.injEq] at h
      obtain ⟨rfl, rfl⟩ := h
      exact ⟨st, h0, heq⟩
    · simp at h
    · simp at h
  | succ fuel ih =>
    unfold searchLoop at h
    split at h
    · rename_i b' nodes' heq
      simp only [Run.done.injEq, Prod.mk.injEq] at h
      obtain ⟨rfl, rfl⟩ := h
      exact ⟨st, h0, heq⟩
    · simp at h
    · rename_i st' heq
      exact ih st' (hJ st st' h0 heq) h

/-! ## The backward walks of `solution` and `path` -/

omit [DecidableEq S] in
theorem replay_append (P : Problem S A) (s : S) (as : List A) (a : A) :
    replay P s (as ++ [a]) = replay P s as ++ [P.result (run P s as) a] := by
  induction as generalizing s with
  | nil => simp [replay, run]
  | cons b as ih => simp [replay, run, ih]

omit [DecidableEq S] in
theorem replay_length (P : Problem S A) (s : S) (as : List A) :
    (replay P s as).length = as.length + 1 := by
  induction as generalizing s with
  | nil => simp [replay]
  | cons b as ih => simp [replay, ih]

omit [DecidableEq S] in
theorem replay_head (P : Problem S A) (s : S) (as : List A) :
    (replay P s as).head? = some s := by
  cases as <;> simp [replay]

omit [DecidableEq S] in
theorem replay_getLast (P : Problem S A) (s : S) (as : List A) :
    (replay P s as).getLast? = some (run P s as) := by
  induction as generalizing s with
  | nil => simp [replay, run]
  | cons b as ih =>
    have hne : replay P (P.result s b) as ≠ [] := by
      intro h
      have := replay_length P (P.result s b) as
      rw [h] at this
      simp at this
    obtain ⟨y, ys, hy⟩ := List.exists_cons_of_ne_nil hne
    have := ih (P.result s b)
    simp only [replay, run]
    rw [hy] at this ⊢
    simpa [List.getLast?_cons_cons] using this

omit [DecidableEq S] in
/-- Consecutive states of a replay are connected by the action at the same
position, and that action is legal there. -/
theorem replay_getElem (P : Problem S A) (s : S) (as : List A) (hl : Legal P s as) (i : Nat)
    (hi : i < as.length) :
    ∃ x y a, (replay P s as)[i]? = some x ∧ (replay P s as)[i + 1]? = some y ∧
      as[i]? = some a ∧ a ∈ P.actions x ∧ P.result x a = y := by
  induction as generalizing s i with
  | nil => simp at hi
  | cons b as ih =>
    cases i with
    | zero =>
      refine ⟨s, P.result s b, b, by simp [replay], ?_, by simp, hl.1, rfl⟩
      have := replay_head P (P.result s b) as
      simp only [replay, List.getElem?_cons_succ]
      rw [← List.head?_eq_getElem?]
      exact this
    | succ i =>
      have hi' : i < as.length := by simpa using hi
      obtain ⟨x, y, a, h1, h2, h3, h4, h5⟩ := ih (P.result s b) hl.2 i hi'
      exact ⟨x, y, a, by simpa [replay] using h1, by simpa [replay] using h2,
        by simpa using h3, h4, h5⟩

omit [DecidableEq S] in
theorem Trace_exists (P : Problem S A) (initial_state : S) (nodes : List (Node S A))
    (hok : HistOK P initial_state nodes) (i : Nat) (hi : i < nodes.length) :
    ∃ ss as, Trace nodes i ss as := by
  induction i using Nat.strong_induction_on with
  | _ i ih =>
    by_cases h0 : i = 0
    · subst h0
      exact ⟨_, _, Trace.root _ hok.root⟩
    · have hpos : 0 < i := Nat.pos_of_ne_zero h0
      have hn : nodes[i]? = some nodes[i] := List.getElem?_eq_getElem hi
      obtain ⟨hlt, -⟩ := hok.hist i _ hpos hn
      obtain ⟨ss, as, ht⟩ := ih _ hlt (by omega)
      exact ⟨_, _, Trace.child i _ ss as hpos hn ht⟩

omit [DecidableEq S] in
theorem Trace_length_le (P : Problem S A) (initial_state : S) (nodes : List (Node S A))
    (hok : HistOK P initial_state nodes) (i : Nat) (ss : List S) (as : List A)
    (ht : Trace nodes i ss as) : as.length ≤ i := by
  induction ht with
  | root n _ => simp
  | child i n ss as hpos hn _ ih =>
    obtain ⟨hlt, -⟩ := hok.hist i n hpos hn
    simp only [List.length_append, List.length_singleton]
    omega

omit [DecidableEq S] in
theorem Trace_spec (P : Problem S A) (initial_state : S) (nodes : List (Node S A))
    (hok : HistOK P initial_state nodes) (i : Nat) (ss : List S) (as : List A)
    (ht : Trace nodes i ss as) :
    ∃ n, nodes[i]? = some n ∧ ss = replay P initial_state as ∧ Legal P initial_state as ∧
      run P initial_state as = n.state := by
  induction ht with
  | root n hn =>
    refine ⟨n, hn, ?_, trivial, ?_⟩
    · have := hok.root
      rw [hn] at this
      cases this
      rfl
    · have := hok.root
      rw [hn] at this
      cases this
      rfl
  | child i n ss as hpos hn _ ih =>
    obtain ⟨p, hp, hss, hl, hr⟩ := ih
    obtain ⟨-, q, hq, ha, hs⟩ := hok.hist i n hpos hn
    rw [hp] at hq
    cases hq
    refine ⟨n, hn, ?_, ?_, ?_⟩
    · rw [replay_append, hr, ← hs, hss]
    · rw [Legal_append]
      exact ⟨hl, by simpa [Legal, hr] using ha⟩
    · rw [run_append, hr, hs]
      rfl

omit [DecidableEq S] in
theorem Trace_pathWalk (nodes : List (Node S A)) (i : Nat) (ss : List S) (as : List A)
    (ht : Trace nodes i ss as) (fuel : Nat) (the_path : List S) (hfuel : as.length ≤ fuel) :
    pathWalk nodes fuel i the_path = Run.done (ss ++ the_path.reverse) := by
  induction ht generalizing fuel the_path with
  | root n hn =>
    unfold graphsearch.pathWalk
    simp [hn]
  | child i n ss as hpos hn _ ih =>
    simp only [List.length_append, List.length_singleton] at hfuel
    obtain ⟨fuel', rfl⟩ : ∃ fuel', fuel = fuel' + 1 := ⟨fuel - 1, by omega⟩
    unfold graphsearch.pathWalk
    simp only [hpos, if_true, hn]
    rw [ih fuel' _ (by omega)]
    simp

omit [DecidableEq S] in
theorem Trace_solutionWalk [DecidableEq A] (start_state : A) (nodes : List (Node S A))
    (h0 : ∀ n, nodes[0]? = some n → n.action = start_state)
    (h1 : ∀ i n, 0 < i → nodes[i]? = some n → n.action ≠ start_state)
    (i : Nat) (ss : List S) (as : List A)
    (ht : Trace nodes i ss as) (fuel : Nat) (the_solution : List A)
    (hfuel : as.length ≤ fuel) :
    solutionWalk start_state nodes fuel i the_solution =
      Run.done (as ++ the_solution.reverse) := by
  induction ht generalizing fuel the_solution with
  | root n hn =>
    unfold graphsearch.solutionWalk
    simp [hn, h0 n hn]
  | child i n ss as hpos hn _ ih =>
    simp only [List.length_append, List.length_singleton] at hfuel
    obtain ⟨fuel', rfl⟩ : ∃ fuel', fuel = fuel' + 1 := ⟨fuel - 1, by omega⟩
    unfold graphsearch.solutionWalk
    simp only [hn, h1 i n hpos hn, ne_eq, not_false_eq_true, if_true]
    rw [ih fuel' _ (by omega)]
    simp

/-! ## What `search` leaves behind -/

theorem search_done_iff (P : Problem S A) (initial_state : S) (goal_states : List S)
    (frontier : Frontier (Node S A)) (fuel : Nat) (m m' : Members S A) (b : Bool) :
    search P initial_state goal_states frontier fuel m = Run.done (b, m') ↔
      ∃ nodes, searchLoop P goal_states fuel (searchInit P initial_state frontier) =
        Run.done (b, nodes) ∧ m' = ⟨b, nodes⟩ := by
  unfold search
  have hst : ({ searchInit P initial_state frontier with
      nodes := ({ m with nodes := [], solution_found := false } : Members S A).nodes } :
        LoopState S A) = searchInit P initial_state frontier := rfl
  simp only [hst]
  cases hloop : searchLoop P goal_states fuel (searchInit P initial_state frontier) with
  | done r =>
    obtain ⟨b', nodes'⟩ := r
    simp only [Run.done.injEq, Prod.mk.injEq]
    constructor
    · rintro ⟨rfl, rfl⟩
      exact ⟨nodes', ⟨rfl, rfl⟩, rfl⟩
    · rintro ⟨nodes, ⟨rfl, rfl⟩, rfl⟩
      exact ⟨rfl, rfl⟩
  | thrown => simp
  | outOfFuel => simp
  | fault => simp

/-- The state of the loop at the moment `search` returns true. -/
theorem search_true_final (P : Problem S A) (initial_state : S) (goal_states : List S)
    (frontier : Frontier (Node S A)) (hfr : frontier.container = []) (fuel : Nat)
    (m m' : Members S A)
    (h : search P initial_state goal_states frontier fuel m = Run.done (true, m')) :
    m'.solution_found = true ∧ HistOK P initial_state m'.nodes ∧
      ∃ st x rest, Inv P initial_state goal_states st ∧
        st.frontier.container = x :: rest ∧ x.state ∈ goal_states ∧
        m'.nodes = st.nodes ++ [x] := by
  obtain ⟨nodes, hloop, rfl⟩ := (search_done_iff P initial_state goal_states frontier fuel m m'
    true).mp h
  obtain ⟨st, hinv, hstep⟩ := searchLoop_done P goal_states (Inv P initial_state goal_states)
    (fun st st' => Inv_step P initial_state goal_states st st') fuel _ true nodes
    (Inv_init P initial_state goal_states frontier hfr) hloop
  obtain ⟨x, rest, hxr, hg, rfl⟩ := searchStep_exit_true P goal_states st nodes hstep
  exact ⟨rfl, Inv_histOK_snoc P initial_state goal_states st hinv x rest hxr,
    st, x, rest, hinv, hxr, hg, rfl⟩

/-- After a successful search the last history entry is reached from entry 0
by a legal action sequence that ends in a goal state. -/
theorem search_true_trace (P : Problem S A) (initial_state : S) (goal_states : List S)
    (frontier : Frontier (Node S A)) (hfr : frontier.container = []) (fuel : Nat)
    (m m' : Members S A)
    (h : search P initial_state goal_states frontier fuel m = Run.done (true, m')) :
    ∃ as, Legal P initial_state as ∧ run P initial_state as ∈ goal_states ∧
      as.length < m'.nodes.length ∧
      Trace m'.nodes (m'.nodes.length - 1) (replay P initial_state as) as := by
  obtain ⟨-, hok, st, x, rest, -, -, hg, hnodes⟩ :=
    search_true_final P initial_state goal_states frontier hfr fuel m m' h
  have hlen : m'.nodes.length = st.nodes.length + 1 := by simp [hnodes]
  have hi : m'.nodes.length - 1 < m'.nodes.length := by omega
  obtain ⟨ss, as, ht⟩ := Trace_exists P initial_state m'.nodes hok _ hi
  obtain ⟨n, hn, hss, hl, hr⟩ := Trace_spec P initial_state m'.nodes hok _ ss as ht
  have hle := Trace_length_le P initial_state m'.nodes hok _ ss as ht
  have hnx : n = x := by
    have : m'.nodes[m'.nodes.length - 1]? = some x := by
      rw [hnodes]
      simp
    rw [this] at hn
    cases hn
    rfl
  subst hnx
  subst hss
  exact ⟨as, hl, by rw [hr]; exact hg, by omega, ht⟩

omit [DecidableEq S] in
/-- With no `start_state` among the real actions, only entry 0 of a well
formed history carries `start_state`. -/
theorem HistOK_action_ne (P : Problem S A) (initial_state : S) (nodes : List (Node S A))
    (hok : HistOK P initial_state nodes) (hact : ∀ s, P.start_state ∉ P.actions s) :
    (∀ n, nodes[0]? = some n → n.action = P.start_state) ∧
      ∀ i n, 0 < i → nodes[i]? = some n → n.action ≠ P.start_state := by
  constructor
  · intro n hn
    rw [hok.root] at hn
    cases hn
    rfl
  · intro i n hi hn heq
    obtain ⟨-, p, -, ha, -⟩ := hok.hist i n hi hn
    rw [heq] at ha
    exact hact _ ha

/-- After a successful search `path` returns the replay of a legal action
sequence ending in a goal state, and `solution` returns that sequence when
`start_state` is no real action. -/
theorem search_true_walks [DecidableEq A] (P : Problem S A) (initial_state : S)
    (goal_states : List S) (frontier : Frontier (Node S A)) (hfr : frontier.container = [])
    (fuel : Nat) (m m' : Members S A)
    (h : search P initial_state goal_states frontier fuel m = Run.done (true, m')) :
    ∃ as, Legal P initial_state as ∧ run P initial_state as ∈ goal_states ∧
      (∀ k, m'.nodes.length ≤ k → path m' k = Run.done (replay P initial_state as)) ∧
      ((∀ s, P.start_state ∉ P.actions s) →
        ∀ k, m'.nodes.length ≤ k → solution P m' k = Run.done as) := by
  obtain ⟨as, hl, hg, hlen, ht⟩ :=
    search_true_trace P initial_state goal_states frontier hfr fuel m m' h
  obtain ⟨hsf, hok, -⟩ := search_true_final P initial_state goal_states frontier hfr fuel m m' h
  refine ⟨as, hl, hg, ?_, ?_⟩
  · intro k hk
    unfold path
    simp only [hsf, Bool.not_true, Bool.false_eq_true, if_false]
    rw [Trace_pathWalk m'.nodes _ _ _ ht k [] (by omega)]
    simp
  · intro hact k hk
    obtain ⟨h0, h1⟩ := HistOK_action_ne P initial_state m'.nodes hok hact
    unfold solution
    simp only [hsf, Bool.not_true, Bool.false_eq_true, if_false]
    rw [Trace_solutionWalk P.start_state m'.nodes h0 h1 _ _ _ ht k [] (by omega)]
    simp

omit [DecidableEq S] in
theorem solutionWalk_ne_thrown [DecidableEq A] (start_state : A) (nodes : List (Node S A))
    (fuel index : Nat) (the_solution : List A) :
    solutionWalk start_state nodes fuel index the_solution ≠ Run.thrown := by
  induction fuel generalizing index the_solution with
  | zero =>
    unfold solutionWalk
    split
    · simp
    · split <;> simp
  | succ fuel ih =>
    unfold solutionWalk
    split
    · simp
    · split
      · exact ih _ _
      · simp

omit [DecidableEq S] in
theorem pathWalk_ne_thrown (nodes : List (Node S A)) (fuel index : Nat) (the_path : List S) :
    pathWalk nodes fuel index the_path ≠ Run.thrown := by
  induction fuel generalizing index the_path with
  | zero =>
    unfold pathWalk
    split
    · simp
    · split <;> simp
  | succ fuel ih =>
    unfold pathWalk
    split
    · dsimp only
      split
      · simp
      · exact ih _ _
    · split <;> simp

omit [DecidableEq S] in
/-- On a well formed history the walk of `solution` ends, whether or not
`start_state` occurs as a real action. -/
theorem solutionWalk_done [DecidableEq A] (P : Problem S A) (initial_state : S)
    (nodes : List (Node S A)) (hok : HistOK P initial_state nodes) (index : Nat)
    (hi : index < nodes.length) (fuel : Nat) (hfuel : index ≤ fuel) (the_solution : List A) :
    ∃ sol, solutionWalk P.start_state nodes fuel index the_solution = Run.done sol := by
  induction index using Nat.strong_induction_on generalizing fuel the_solution with
  | _ index ih =>
    have hn : nodes[index]? = some nodes[index] := List.getElem?_eq_getElem hi
    unfold solutionWalk
    simp only [hn]
    by_cases ha : nodes[index].action = P.start_state
    · simp [ha]
    · simp only [ne_eq, ha, not_false_eq_true, if_true]
      have hpos : 0 < index := by
        rcases Nat.eq_zero_or_pos index with h0 | h0
        · exfalso
          subst h0
          have hr := hok.root
          rw [hn] at hr
          have hr' := Option.some.inj hr
          exact ha (by rw [hr']; rfl)
        · exact h0
      obtain ⟨hlt, -⟩ := hok.hist index _ hpos hn
      obtain ⟨fuel', rfl⟩ : ∃ fuel', fuel = fuel' + 1 := ⟨fuel - 1, by omega⟩
      exact ih _ hlt (by omega) fuel' (by omega) _

/-! ## Termination of the search loop -/

omit [DecidableEq S] in
theorem Frontier_container_foldl_add_perm {N : Type} (ks : List N) (f : Frontier N) :
    ((ks.foldl Frontier.add f).container).Perm (ks ++ f.container) := by
  cases f with
  | DepthFirstFrontier c =>
    rw [Frontier_container_foldl_add_dfs]
    exact (List.reverse_perm ks).append_right c
  | BreadthFirstFrontier c =>
    rw [Frontier_container_foldl_add_bfs]
    exact List.perm_append_comm

theorem searchLoop_exit (P : Problem S A) (goal_states : List S) (fuel : Nat)
    (st : LoopState S A) (b : Bool) (nodes : List (Node S A))
    (h : searchStep P goal_states st = Step.exit b nodes) :
    searchLoop P goal_states fuel st = Run.done (b, nodes) := by
  unfold searchLoop
  simp [h]

theorem searchLoop_continue (P : Problem S A) (goal_states : List S) (fuel : Nat)
    (st st' : LoopState S A) (h : searchStep P goal_states st = Step.iterate st') :
    searchLoop P goal_states (fuel + 1) st = searchLoop P goal_states fuel st' := by
  conv_lhs => unfold searchLoop
  simp [h]

/-- A loop that ends within `fuel` iterations ends with the same result
under any larger budget. -/
theorem searchLoop_mono (P : Problem S A) (goal_states : List S) (fuel : Nat)
    (st : LoopState S A) (r : Bool × List (Node S A))
    (h : searchLoop P goal_states fuel st = Run.done r) (fuel' : Nat) (hle : fuel ≤ fuel') :
    searchLoop P goal_states fuel' st = Run.done r := by
  induction fuel generalizing st fuel' with
  | zero =>
    cases hstep : searchStep P goal_states st with
    | exit b nodes =>
      rw [searchLoop_exit P goal_states _ st b nodes hstep] at h ⊢
      exact h
    | iterate st' =>
      unfold searchLoop at h
      simp [hstep] at h
    | fault =>
      unfold searchLoop at h
      simp [hstep] at h
  | succ fuel ih =>
    cases hstep : searchStep P goal_states st with
    | exit b nodes =>
      rw [searchLoop_exit P goal_states _ st b nodes hstep] at h ⊢
      exact h
    | iterate st' =>
      obtain ⟨fuel'', rfl⟩ : ∃ fuel'', fuel' = fuel'' + 1 := ⟨fuel' - 1, by omega⟩
      rw [searchLoop_continue P goal_states _ st st' hstep] at h ⊢
      exact ih st' h fuel'' (by omega)
    | fault =>
      unfold searchLoop at h
      simp [hstep] at h

omit [DecidableEq S] in
/-- Every state in the explored set is reachable. -/
theorem Inv_explored_reachable (P : Problem S A) (initial_state : S) (goal_states : List S)
    (st : LoopState S A) (hinv : Inv P initial_state goal_states st) (s : S)
    (hs : s ∈ st.explored) : Reachable P initial_state s := by
  rcases hinv.explored_sub s hs with rfl | ⟨n, hn, rfl⟩
  · exact Reachable_refl P _
  · exact hinv.reach_nodes n hn

/-- The loop ends when the reachable states fit in a finite list `l`.  The
triple (states of `l` not yet explored, frontier nodes whose state is
explored, frontier size) decreases lexicographically with every loop body. -/
theorem searchLoop_terminates (P : Problem S A) (initial_state : S) (goal_states : List S)
    (l : List S) (hl : ∀ s, Reachable P initial_state s → s ∈ l) :
    ∀ (a b c : Nat) (st : LoopState S A), Inv P initial_state goal_states st →
      l.length - st.explored.length = a →
      List.countP (fun f => decide (f.state ∈ st.explored)) st.frontier.container = b →
      st.frontier.container.length = c →
      ∃ fuel r, searchLoop P goal_states fuel st = Run.done r := by
  intro a
  induction a using Nat.strong_induction_on with
  | _ a iha =>
  intro b
  induction b using Nat.strong_induction_on with
  | _ b ihb =>
  intro c
  induction c using Nat.strong_induction_on with
  | _ c ihc =>
  intro st hinv ha hb hc
  cases hstep : searchStep P goal_states st with
  | exit b' nodes => exact ⟨0, _, searchLoop_exit P goal_states 0 st b' nodes hstep⟩
  | fault => exact absurd hstep (searchStep_ne_fault P goal_states st)
  | iterate st' =>
    have hinv' := Inv_step P initial_state goal_states st st' hinv hstep
    obtain ⟨x, rest, f', hxr, -, -, hf', -, hfr, hex⟩ :=
      searchStep_continue P goal_states st st' hstep
    have hperm : st'.frontier.container.Perm
        (keptSuccessors x.state (expand P x.state st.nodes.length) st.explored ++ rest) := by
      rw [hfr, ← hf']
      exact Frontier_container_foldl_add_perm _ _
    have hkeptE : List.countP (fun f => decide (f.state ∈ st.explored))
        (keptSuccessors x.state (expand P x.state st.nodes.length) st.explored) = 0 := by
      rw [List.countP_eq_zero]
      intro k hk
      simpa using keptSuccessors_not_explored _ _ _ k hk
    have hrec : ∃ fuel r, searchLoop P goal_states fuel st' = Run.done r := by
      by_cases hk : (keptSuccessors x.state (expand P x.state st.nodes.length)
          st.explored).isEmpty = true
      · have hnil := List.isEmpty_iff.mp hk
        rw [if_pos hk] at hex
        rw [hnil, List.nil_append] at hperm
        have hlen : st'.frontier.container.length < c := by
          rw [hperm.length_eq, ← hc, hxr]
          simp
        have hcnt : List.countP (fun f => decide (f.state ∈ st'.explored))
            st'.frontier.container ≤ b := by
          rw [hex, hperm.countP_eq, ← hb, hxr, List.countP_cons]
          omega
        rcases Nat.lt_or_eq_of_le hcnt with hlt | heq
        · exact ihb _ hlt _ st' hinv' (by rw [hex]; exact ha) rfl rfl
        · exact ihc _ hlen st' hinv' (by rw [hex]; exact ha) heq rfl
      · rw [if_neg hk] at hex
        by_cases hx : x.state ∈ st.explored
        · rw [List.insert_of_mem hx] at hex
          have hcnt : List.countP (fun f => decide (f.state ∈ st'.explored))
              st'.frontier.container < b := by
            rw [hex, hperm.countP_eq, List.countP_append, hkeptE, ← hb, hxr,
              List.countP_cons]
            simp [hx]
          exact ihb _ hcnt _ st' hinv' (by rw [hex]; exact ha) rfl rfl
        · rw [List.insert_of_not_mem hx] at hex
          have hsub : st'.explored ⊆ l := fun s hs =>
            hl s (Inv_explored_reachable P initial_state goal_states st' hinv' s hs)
          have hle : st'.explored.length ≤ l.length :=
            (List.subperm_of_subset hinv'.explored_nodup hsub).length_le
          have hlen : st'.explored.length = st.explored.length + 1 := by
            rw [hex]
            simp
          exact iha _ (by omega) _ _ st' hinv' rfl rfl rfl
    obtain ⟨fuel, r, hr⟩ := hrec
    exact ⟨fuel + 1, r, by rw [searchLoop_continue P goal_states fuel st st' hstep]; exact hr⟩

/-- On a Problem with finitely many reachable states `search` returns: from
some budget on, every run ends with one and the same result. -/
theorem search_terminates (P : Problem S A) (initial_state : S) (goal_states : List S)
    (frontier : Frontier (Node S A)) (hfr : frontier.container = [])
    (hfin : ∃ l : List S, ∀ s, Reachable P initial_state s → s ∈ l) (m : Members S A) :
    ∃ N b m', ∀ fuel, N ≤ fuel →
      search P initial_state goal_states frontier fuel m = Run.done (b, m') := by
  obtain ⟨l, hl⟩ := hfin
  obtain ⟨N, r, hr⟩ := searchLoop_terminates P initial_state goal_states l hl _ _ _
    (searchInit P initial_state frontier)
    (Inv_init P initial_state goal_states frontier hfr) rfl rfl rfl
  obtain ⟨b, nodes⟩ := r
  refine ⟨N, b, ⟨b, nodes⟩, fun fuel hle => ?_⟩
  rw [search_done_iff]
  exact ⟨nodes, searchLoop_mono P goal_states N _ _ hr fuel hle, rfl⟩

/-! ## Soundness and completeness of the search -/

omit [DecidableEq S] in
/-- A list that holds the start state and is closed under legal actions
holds every reachable state. -/
theorem Reachable_mem_of_closed (P : Problem S A) (initial_state : S) (l : List S)
    (h0 : initial_state ∈ l) (hcl : ∀ s ∈ l, ∀ a ∈ P.actions s, P.result s a ∈ l) (s : S)
    (hs : Reachable P initial_state s) : s ∈ l := by
  obtain ⟨as, hleg, hr⟩ := hs
  subst hr
  induction as generalizing initial_state with
  | nil => exact h0
  | cons a as ih => exact ih (P.result initial_state a) (hcl _ h0 a hleg.1) hleg.2

omit [DecidableEq S] in
/-- When the frontier is empty the history holds every reachable state. -/
theorem Inv_exhausted (P : Problem S A) (initial_state : S) (goal_states : List S)
    (st : LoopState S A) (hinv : Inv P initial_state goal_states st)
    (hc : st.frontier.container = []) (s : S) (hs : Reachable P initial_state s) :
    ∃ n ∈ st.nodes, n.state = s := by
  have hroot : ∃ n ∈ st.nodes, n.state = initial_state := by
    rcases hinv.root with ⟨-, hr⟩ | hr
    · rw [hc] at hr
      simp at hr
    · exact ⟨_, List.getElem?_mem hr, rfl⟩
  obtain ⟨as, hleg, hr⟩ := hs
  subst hr
  have key : ∀ (as : List A) (s0 : S), (∃ n ∈ st.nodes, n.state = s0) → Legal P s0 as →
      ∃ n ∈ st.nodes, n.state = run P s0 as := by
    intro as
    induction as with
    | nil =>
      intro s0 h _
      exact h
    | cons a as ih =>
      intro s0 h hleg
      obtain ⟨n, hn, rfl⟩ := h
      apply ih (P.result n.state a) _ hleg.2
      rcases hinv.closed n hn a hleg.1 with h1 | ⟨f, hf, -⟩
      · exact h1
      · rw [hc] at hf
        simp at hf
  exact key as initial_state hroot hleg

/-- Whenever `search` returns from an empty initial frontier, it returns true
exactly when a goal state is reachable. -/
theorem search_done_iff_reachable (P : Problem S A) (initial_state : S)
    (goal_states : List S) (frontier : Frontier (Node S A)) (hfr : frontier.container = [])
    (fuel : Nat) (m m' : Members S A) (b : Bool)
    (h : search P initial_state goal_states frontier fuel m = Run.done (b, m')) :
    b = true ↔ ∃ g ∈ goal_states, Reachable P initial_state g := by
  cases b with
  | true =>
    obtain ⟨as, hl, hg, -, -⟩ :=
      search_true_trace P initial_state goal_states frontier hfr fuel m m' h
    simp only [true_iff]
    exact ⟨_, hg, as, hl, rfl⟩
  | false =>
    simp only [Bool.false_eq_true, false_iff]
    rintro ⟨g, hg, hreach⟩
    obtain ⟨nodes, hloop, -⟩ :=
      (search_done_iff P initial_state goal_states frontier fuel m m' false).mp h
    obtain ⟨st, hinv, hstep⟩ := searchLoop_done P goal_states
      (Inv P initial_state goal_states)
      (fun st st' => Inv_step P initial_state goal_states st st') fuel _ false nodes
      (Inv_init P initial_state goal_states frontier hfr) hloop
    obtain ⟨hc, -⟩ := searchStep_exit_false P goal_states st nodes hstep
    obtain ⟨n, hn, rfl⟩ := Inv_exhausted P initial_state goal_states st hinv hc g hreach
    exact hinv.nongoal n hn hg

omit [DecidableEq S] in
theorem SimpleCyclesProblem_finite (initial_state : Int)
    (h : initial_state ∈ ([1, 2, 3, 4, 5, 6, 7, 8, 9, 10, 11] : List Int)) :
    ∃ l : List Int, ∀ s, Reachable SimpleCyclesProblem initial_state s → s ∈ l :=
  ⟨[1, 2, 3, 4, 5, 6, 7, 8, 9, 10, 11],
    Reachable_mem_of_closed SimpleCyclesProblem initial_state _ h (by decide)⟩

/-! ## Breadth-first search examines the states in layers -/

omit [DecidableEq S] in
theorem Inv_parent_le (P : Problem S A) (initial_state : S) (goal_states : List S)
    (st : LoopState S A) (hinv : Inv P initial_state goal_states st) (n : Node S A)
    (hn : n ∈ st.nodes ++ st.frontier.container) : n.parent_index ≤ st.nodes.length := by
  rcases List.mem_append.mp hn with hn | hn
  · obtain ⟨i, hi⟩ := List.mem_iff_getElem?.mp hn
    rcases Nat.eq_zero_or_pos i with h0 | hpos
    · subst h0
      rcases hinv.root with ⟨hnil, -⟩ | hr
      · rw [hnil] at hi
        simp at hi
      · rw [hr] at hi
        cases hi
        exact Nat.zero_le _
    · obtain ⟨hlt, -⟩ := hinv.hist i n hpos hi
      have : i < st.nodes.length := by
        rcases List.getElem?_eq_some_iff.mp hi with ⟨h, -⟩
        exact h
      omega
  · by_cases hne : st.nodes = []
    · rcases hinv.root with ⟨-, hc⟩ | hr
      · rw [hc] at hn
        simp only [List.mem_singleton] at hn
        subst hn
        exact Nat.zero_le _
      · rw [hne] at hr
        simp at hr
    · obtain ⟨p, hp, -, -⟩ := hinv.front hne n hn
      rcases List.getElem?_eq_some_iff.mp hp with ⟨h, -⟩
      exact Nat.le_of_lt h

theorem BInv_init (P : Problem S A) (initial_state : S) :
    BInv P (searchInit P initial_state (Frontier.BreadthFirstFrontier [])) := by
  refine ⟨⟨_, rfl⟩, ?_, ?_⟩
  · simp [searchInit, Frontier.add, Frontier.container]
  · intro i n a hn
    simp [searchInit] at hn

theorem BInv_step (P : Problem S A) (initial_state : S) (goal_states : List S)
    (st st' : LoopState S A) (hinv : Inv P initial_state goal_states st) (hb : BInv P st)
    (h : searchStep P goal_states st = Step.iterate st') : BInv P st' := by
  obtain ⟨x, rest, f', hxr, -, hpop, -, hnodes, hfr, -⟩ :=
    searchStep_continue P goal_states st st' h
  obtain ⟨c, hc⟩ := hb.bfs
  have hcx : c = x :: rest := by
    rw [hc] at hxr
    exact hxr
  subst hcx
  have hf' : f' = Frontier.BreadthFirstFrontier rest := by
    rw [hc] at hpop
    simp only [Frontier.pop, Option.some.injEq] at hpop
    exact hpop.symm
  subst hf'
  rw [Frontier_container_foldl_add_bfs] at hfr
  have hcont : st'.frontier.container =
      rest ++ keptSuccessors x.state (expand P x.state st.nodes.length) st.explored := by
    rw [hfr]
    rfl
  have hkept : ∀ k ∈ keptSuccessors x.state (expand P x.state st.nodes.length) st.explored,
      ∃ a ∈ P.actions x.state, k = ⟨P.result x.state a, st.nodes.length, a⟩ := by
    intro k hk
    exact (mem_expand P _ _ k).mp ((keptSuccessors_sublist _ _ _).subset hk)
  have hlast : (st.nodes ++ [x])[st.nodes.length]? = some x := by simp
  have hok : HistOK P initial_state (st.nodes ++ [x]) :=
    Inv_histOK_snoc P initial_state goal_states st hinv x rest hxr
  refine ⟨⟨_, hfr⟩, ?_, ?_⟩
  · have heq : st'.nodes ++ st'.frontier.container =
        (st.nodes ++ st.frontier.container) ++
          keptSuccessors x.state (expand P x.state st.nodes.length) st.explored := by
      rw [hnodes, hcont, hxr]
      simp
    rw [heq, List.map_append, List.pairwise_append]
    refine ⟨hb.sorted, ?_, ?_⟩
    · rw [List.pairwise_map]
      apply List.Pairwise.imp_of_mem _ (List.pairwise_of_forall (fun _ _ => trivial))
      intro k1 k2 hk1 hk2 _
      obtain ⟨a1, -, rfl⟩ := hkept k1 hk1
      obtain ⟨a2, -, rfl⟩ := hkept k2 hk2
      exact Nat.le_refl _
    · intro p hp q hq
      obtain ⟨n, hn, rfl⟩ := List.mem_map.mp hp
      obtain ⟨k, hk, rfl⟩ := List.mem_map.mp hq
      obtain ⟨a, -, rfl⟩ := hkept k hk
      exact Inv_parent_le P initial_state goal_states st hinv n hn
  · intro i n a hn ha
    rw [hnodes] at hn
    by_cases hlt : i < st.nodes.length
    · rw [List.getElem?_append_left hlt] at hn
      rcases hb.near i n a hn ha with ⟨j, n', hj, hs, hor⟩ | ⟨f, hf, hs, hp⟩
      · left
        refine ⟨j, n', ?_, hs, hor⟩
        rw [hnodes]
        have hjl : j < st.nodes.length := by
          rcases List.getElem?_eq_some_iff.mp hj with ⟨h1, -⟩
          exact h1
        rw [List.getElem?_append_left hjl]
        exact hj
      · rw [hxr] at hf
        rcases List.mem_cons.mp hf with rfl | hf
        · left
          exact ⟨st.nodes.length, f, by rw [hnodes]; exact hlast, hs, Or.inr hp⟩
        · right
          exact ⟨f, by rw [hcont]; exact List.mem_append_left _ hf, hs, hp⟩
    · have hlen : i < (st.nodes ++ [x]).length := by
        rcases List.getElem?_eq_some_iff.mp hn with ⟨h1, -⟩
        exact h1
      simp only [List.length_append, List.length_singleton] at hlen
      have hieq : i = st.nodes.length := by omega
      subst hieq
      rw [hlast] at hn
      have hnx : n = x := (Option.some.inj hn).symm
      subst hnx
      have hs : (⟨P.result n.state a, st.nodes.length, a⟩ : Node S A) ∈
          expand P n.state st.nodes.length := (mem_expand P _ _ _).mpr ⟨a, ha, rfl⟩
      rcases keptSuccessors_or_explored n.state _ st.explored _ hs with h1 | h1 | h1
      · right
        exact ⟨_, by rw [hcont]; exact List.mem_append_right _ h1, rfl, rfl⟩
      · left
        rcases hinv.explored_sub _ h1 with h2 | ⟨n', hn', h2⟩
        · exact ⟨0, rootNode P initial_state, by rw [hnodes]; exact hok.root, h2.symm,
            Or.inl (Nat.zero_le _)⟩
        · obtain ⟨j, hj⟩ := List.mem_iff_getElem?.mp hn'
          have hjl : j < st.nodes.length := by
            rcases List.getElem?_eq_some_iff.mp hj with ⟨h3, -⟩
            exact h3
          refine ⟨j, n', ?_, h2, Or.inl (Nat.le_of_lt hjl)⟩
          rw [hnodes, List.getElem?_append_left hjl]
          exact hj
      · left
        exact ⟨st.nodes.length, n, by rw [hnodes]; exact hlast, h1.symm,
          Or.inl (Nat.le_refl _)⟩

omit [DecidableEq S] in
theorem Trace_unique (nodes : List (Node S A)) (i : Nat) (ss ss' : List S) (as as' : List A)
    (h : Trace nodes i ss as) (h' : Trace nodes i ss' as') : ss = ss' ∧ as = as' := by
  induction h generalizing ss' as' with
  | root n hn =>
    cases h' with
    | root n' hn' =>
      rw [hn] at hn'
      cases hn'
      exact ⟨rfl, rfl⟩
    | child _ n' ss'' as'' hpos _ _ => exact absurd hpos (Nat.lt_irrefl 0)
  | child i n ss as hpos hn _ ih =>
    cases h' with
    | root n' hn' => exact absurd hpos (Nat.lt_irrefl 0)
    | child _ n' ss'' as'' _ hn' ht' =>
      rw [hn] at hn'
      cases hn'
      obtain ⟨rfl, rfl⟩ := ih _ _ ht'
      exact ⟨rfl, rfl⟩

omit [DecidableEq S] in
/-- When parent indices never decrease along the history, the number of
parent links from an entry to entry 0 never decreases either. -/
theorem Trace_depth_mono (nodes : List (Node S A))
    (hsorted : (nodes.map Node.parent_index).Pairwise (· ≤ ·)) (j : Nat) (ssj : List S)
    (asj : List A) (hj : Trace nodes j ssj asj) :
    ∀ (i : Nat) (ssi : List S) (asi : List A), i ≤ j → Trace nodes i ssi asi →
      asi.length ≤ asj.length := by
  induction hj with
  | root n hn =>
    intro i ssi asi hle hi
    have hi0 : i = 0 := Nat.le_zero.mp hle
    subst hi0
    cases hi with
    | root n' hn' => exact Nat.le_refl _
    | child _ n' ss'' as'' hpos _ _ => exact absurd hpos (Nat.lt_irrefl 0)
  | child j n ss as hpos hn _ ih =>
    intro i ssi asi hle hi
    cases hi with
    | root n' hn' => simp
    | child _ n' ss'' as'' hposi hn' ht' =>
      have hpar : n'.parent_index ≤ n.parent_index := by
        rcases Nat.lt_or_eq_of_le hle with hlt | heq
        · have hil : i < nodes.length := by
            rcases List.getElem?_eq_some_iff.mp hn' with ⟨h1, -⟩
            exact h1
          have hjl : j < nodes.length := by
            rcases List.getElem?_eq_some_iff.mp hn with ⟨h1, -⟩
            exact h1
          have hp := List.pairwise_iff_getElem.mp hsorted i j (by simpa using hil)
            (by simpa using hjl) hlt
          have e1 : nodes[i] = n' := by
            rcases List.getElem?_eq_some_iff.mp hn' with ⟨_, h2⟩
            exact h2
          have e2 : nodes[j] = n := by
            rcases List.getElem?_eq_some_iff.mp hn with ⟨_, h2⟩
            exact h2
          simpa [e1, e2] using hp
        · subst heq
          rw [hn] at hn'
          cases hn'
          exact Nat.le_refl _
      have := ih _ _ _ hpar ht'
      simp only [List.length_append, List.length_singleton]
      omega

omit [DecidableEq S] in
theorem Trace_inv (nodes : List (Node S A)) (i : Nat) (ss : List S) (as : List A)
    (h : Trace nodes i ss as) :
    (i = 0 ∧ as = []) ∨
      (0 < i ∧ ∃ n ssp asp, nodes[i]? = some n ∧ Trace nodes n.parent_index ssp asp ∧
        ss = ssp ++ [n.state] ∧ as = asp ++ [n.action]) := by
  cases h with
  | root n hn => exact Or.inl ⟨rfl, rfl⟩
  | child _ n ssp asp hpos hn ht => exact Or.inr ⟨hpos, n, ssp, asp, hn, ht, rfl, rfl⟩

omit [DecidableEq S] in
/-- In a breadth-first search, when the node `g` at the head of the queue
lies `asg.length` parent links from the start node, every state reached by
a shorter legal action sequence is the state of an entry already in the
history. -/
theorem bfs_layers_complete (P : Problem S A) (initial_state : S) (goal_states : List S)
    (st : LoopState S A) (hinv : Inv P initial_state goal_states st) (hb : BInv P st)
    (g : Node S A) (rest : List (Node S A)) (hxr : st.frontier.container = g :: rest)
    (ss : List S) (asg : List A) (ht : Trace (st.nodes ++ [g]) st.nodes.length ss asg) :
    ∀ as : List A, Legal P initial_state as → as.length < asg.length →
      ∃ j n ssj asj, st.nodes[j]? = some n ∧ n.state = run P initial_state as ∧
        Trace (st.nodes ++ [g]) j ssj asj ∧ asj.length ≤ as.length := by
  have hok : HistOK P initial_state (st.nodes ++ [g]) :=
    Inv_histOK_snoc P initial_state goal_states st hinv g rest hxr
  have hsplit : (st.nodes ++ st.frontier.container).map Node.parent_index =
      (st.nodes ++ [g]).map Node.parent_index ++ rest.map Node.parent_index := by
    rw [hxr]
    simp
  have hsortedH : ((st.nodes ++ [g]).map Node.parent_index).Pairwise (· ≤ ·) := by
    have := hb.sorted
    rw [hsplit, List.pairwise_append] at this
    exact this.1
  have hlast : (st.nodes ++ [g])[st.nodes.length]? = some g := by simp
  have hghead : ∀ f ∈ st.frontier.container, g.parent_index ≤ f.parent_index := by
    intro f hf
    rw [hxr] at hf
    rcases List.mem_cons.mp hf with rfl | hf
    · exact Nat.le_refl _
    · have := hb.sorted
      rw [hxr, List.map_append, List.pairwise_append] at this
      have h2 := this.2.1
      rw [List.map_cons, List.pairwise_cons] at h2
      exact h2.1 _ (List.mem_map_of_mem _ hf)
  intro as
  induction as using List.reverseRecOn with
  | nil =>
    intro _ hlt
    rcases Trace_inv _ _ _ _ ht with ⟨-, h0⟩ | ⟨hpos, -⟩
    · rw [h0] at hlt
      simp at hlt
    · have hroot : st.nodes[0]? = some (rootNode P initial_state) := by
        have := hok.root
        rw [List.getElem?_append_left hpos] at this
        exact this
      exact ⟨0, rootNode P initial_state, _, _, hroot, rfl, Trace.root _ hok.root,
        Nat.le_refl _⟩
  | append_singleton as a ih =>
    intro hleg hlt
    rw [Legal_append] at hleg
    obtain ⟨hleg1, hleg2⟩ := hleg
    have ha : a ∈ P.actions (run P initial_state as) := hleg2.1
    simp only [List.length_append, List.length_singleton] at hlt
    obtain ⟨j, n, ssj, asj, hj, hs, htj, hlej⟩ := ih hleg1 (by omega)
    have hrun : run P initial_state (as ++ [a]) = P.result n.state a := by
      rw [run_append, hs]
      rfl
    rw [← hs] at ha
    rcases hb.near j n a hj ha with ⟨j2, n2, hj2, hs2, hor⟩ | ⟨f, hf, -, hp⟩
    · have hj2l : j2 < st.nodes.length := by
        rcases List.getElem?_eq_some_iff.mp hj2 with ⟨h1, -⟩
        exact h1
      have hj2H : (st.nodes ++ [g])[j2]? = some n2 := by
        rw [List.getElem?_append_left hj2l]
        exact hj2
      obtain ⟨ss2, as2, ht2⟩ := Trace_exists P initial_state (st.nodes ++ [g]) hok j2
        (by simp; omega)
      refine ⟨j2, n2, ss2, as2, hj2, by rw [hrun]; exact hs2, ht2, ?_⟩
      simp only [List.length_append, List.length_singleton]
      rcases hor with hle | hpar
      · have := Trace_depth_mono (st.nodes ++ [g]) hsortedH j ssj asj htj j2 ss2 as2 hle ht2
        omega
      · rcases Trace_inv _ _ _ _ ht2 with ⟨-, h0⟩ | ⟨-, n3, ssp, asp, hn3, htp, -, has2⟩
        · rw [h0]
          simp
        · rw [hj2H] at hn3
          have hn32 : n2 = n3 := Option.some.inj hn3
          subst hn32
          rw [hpar] at htp
          obtain ⟨-, hasp⟩ := Trace_unique _ _ _ _ _ _ htp htj
          rw [has2, hasp]
          simp only [List.length_append, List.length_singleton]
          omega
    · exfalso
      have hgj : g.parent_index ≤ j := by
        rw [← hp]
        exact hghead f hf
      rcases Trace_inv _ _ _ _ ht with ⟨-, h0⟩ | ⟨-, n3, ssp, asp, hn3, htp, -, hasg⟩
      · rw [h0] at hlt
        simp at hlt
      · rw [hlast] at hn3
        have hn3g : g = n3 := Option.some.inj hn3
        subst hn3g
        have := Trace_depth_mono (st.nodes ++ [g]) hsortedH j ssj asj htj _ ssp asp hgj htp
        rw [hasg] at hlt
        simp only [List.length_append, List.length_singleton] at hlt
        omega

/-- The two entry points call `search` with an empty frontier. -/
theorem entry_points_search (P : Problem S A) (initial_state : S) (goal_states : List S)
    (fuel : Nat) (m : Members S A) (r : Run (Bool × Members S A))
    (h : searchDepthFirst P initial_state goal_states fuel m = r ∨
      searchBreadthFirst P initial_state goal_states fuel m = r) :
    ∃ frontier : Frontier (Node S A), frontier.container = [] ∧
      search P initial_state goal_states frontier fuel m = r := by
  rcases h with h | h
  · exact ⟨Frontier.DepthFirstFrontier [], rfl, h⟩
  · exact ⟨Frontier.BreadthFirstFrontier [], rfl, h⟩

omit [DecidableEq S] in
theorem SimpleProblem_no_start_state (s : Int) :
    SimpleProblem.start_state ∉ SimpleProblem.actions s := by
  simp only [SimpleProblem]
  split
  · simp
  · split <;> simp

end Lemmas

/-! ## Properties of the search engine -/

section SearchClaims

variable {S A : Type} [DecidableEq S]

/-- C4: for a Problem with finitely many states reachable from
`initial_state`, `searchDepthFirst` and `searchBreadthFirst` each return, and
return true if and only if some member of `goal_states` is reachable from
`initial_state` by zero or more legal actions; under any loop budget a
returned false means that no goal state is reachable. -/
theorem search_true_iff_goal_reachable (P : Problem S A) (initial_state : S)
    (goal_states : List S)
    (hfin : ∃ l : List S, ∀ s, Reachable P initial_state s → s ∈ l) (m : Members S A) :
    (∃ N b m', (∀ fuel, N ≤ fuel →
        searchDepthFirst P initial_state goal_states fuel m = Run.done (b, m')) ∧
      (b = true ↔ ∃ g ∈ goal_states, Reachable P initial_state g)) ∧
    (∃ N b m', (∀ fuel, N ≤ fuel →
        searchBreadthFirst P initial_state goal_states fuel m = Run.done (b, m')) ∧
      (b = true ↔ ∃ g ∈ goal_states, Reachable P initial_state g)) ∧
    (∀ fuel b m', (searchDepthFirst P initial_state goal_states fuel m = Run.done (b, m') ∨
        searchBreadthFirst P initial_state goal_states fuel m = Run.done (b, m')) →
      (b = true ↔ ∃ g ∈ goal_states, Reachable P initial_state g)) := by
  refine ⟨?_, ?_, ?_⟩
  · obtain ⟨N, b, m', hN⟩ := search_terminates P initial_state goal_states
      (Frontier.DepthFirstFrontier []) rfl hfin m
    exact ⟨N, b, m', hN, search_done_iff_reachable P initial_state goal_states
      (Frontier.DepthFirstFrontier []) rfl N m m' b (hN N (Nat.le_refl N))⟩
  · obtain ⟨N, b, m', hN⟩ := search_terminates P initial_state goal_states
      (Frontier.BreadthFirstFrontier []) rfl hfin m
    exact ⟨N, b, m', hN, search_done_iff_reachable P initial_state goal_states
      (Frontier.BreadthFirstFrontier []) rfl N m m' b (hN N (Nat.le_refl N))⟩
  · intro fuel b m' h
    rcases h with h | h
    · exact search_done_iff_reachable P initial_state goal_states
        (Frontier.DepthFirstFrontier []) rfl fuel m m' b h
    · exact search_done_iff_reachable P initial_state goal_states
        (Frontier.BreadthFirstFrontier []) rfl fuel m m' b h

/-- Instance of C4 on the cyclic grid of 11 states: start 9, goals
`{1, 6}`. -/
theorem search_true_iff_goal_reachable_witness :
    (∃ l : List Int, ∀ s, Reachable SimpleCyclesProblem 9 s → s ∈ l) ∧
    ((∃ N b m', (∀ fuel, N ≤ fuel →
        searchDepthFirst SimpleCyclesProblem 9 [1, 6] fuel Members.fresh =
          Run.done (b, m')) ∧
      (b = true ↔ ∃ g ∈ ([1, 6] : List Int), Reachable SimpleCyclesProblem 9 g)) ∧
    (∃ N b m', (∀ fuel, N ≤ fuel →
        searchBreadthFirst SimpleCyclesProblem 9 [1, 6] fuel Members.fresh =
          Run.done (b, m')) ∧
      (b = true ↔ ∃ g ∈ ([1, 6] : List Int), Reachable SimpleCyclesProblem 9 g)) ∧
    (∀ fuel b m',
      (searchDepthFirst SimpleCyclesProblem 9 [1, 6] fuel Members.fresh = Run.done (b, m') ∨
        searchBreadthFirst SimpleCyclesProblem 9 [1, 6] fuel Members.fresh =
          Run.done (b, m')) →
      (b = true ↔ ∃ g ∈ ([1, 6] : List Int), Reachable SimpleCyclesProblem 9 g))) :=
  ⟨SimpleCyclesProblem_finite 9 (by decide),
  search_true_iff_goal_reachable SimpleCyclesProblem 9 [1, 6]
    (SimpleCyclesProblem_finite 9 (by decide)) Members.fresh⟩

/-- C5: for a Problem with finitely many states reachable from
`initial_state` (cycles allowed) and every goal set, the loop of `search`
ends under either frontier ordering: some number of iterations is enough, and
every larger budget gives the same result. -/
theorem search_loop_ends_on_finite_space (P : Problem S A) (initial_state : S)
    (goal_states : List S)
    (hfin : ∃ l : List S, ∀ s, Reachable P initial_state s → s ∈ l) (m : Members S A) :
    (∃ N b m', ∀ fuel, N ≤ fuel →
        searchDepthFirst P initial_state goal_states fuel m = Run.done (b, m')) ∧
    (∃ N b m', ∀ fuel, N ≤ fuel →
        searchBreadthFirst P initial_state goal_states fuel m = Run.done (b, m')) :=
  ⟨search_terminates P initial_state goal_states (Frontier.DepthFirstFrontier []) rfl hfin m,
    search_terminates P initial_state goal_states (Frontier.BreadthFirstFrontier []) rfl
      hfin m⟩

/-- Instance of C5 on the cyclic grid of 11 states: start 9 with no goal. -/
theorem search_loop_ends_on_finite_space_witness :
    (∃ l : List Int, ∀ s, Reachable SimpleCyclesProblem 9 s → s ∈ l) ∧
    ((∃ N b m', ∀ fuel, N ≤ fuel →
        searchDepthFirst SimpleCyclesProblem 9 [] fuel Members.fresh = Run.done (b, m')) ∧
    (∃ N b m', ∀ fuel, N ≤ fuel →
        searchBreadthFirst SimpleCyclesProblem 9 [] fuel Members.fresh =
          Run.done (b, m'))) :=
  ⟨SimpleCyclesProblem_finite 9 (by decide),
  search_loop_ends_on_finite_space SimpleCyclesProblem 9 []
    (SimpleCyclesProblem_finite 9 (by decide)) Members.fresh⟩

/-- C6: when `searchBreadthFirst` returns true, the returned solution is a
minimum-action-count solution.  `path()` is the replay from `initial_state`
of a legal action sequence `sol` that ends in a state of `goal_states`, with
`sol.length = path().length - 1`; `solution()` returns `sol` when
`start_state` is no real action; and no sequence of legal actions leading
from `initial_state` to a state in `goal_states` has fewer actions than
`path().length - 1`. -/
theorem breadth_first_path_is_shortest [DecidableEq A] (P : Problem S A)
    (initial_state : S) (goal_states : List S) (fuel : Nat) (m m' : Members S A)
    (h : searchBreadthFirst P initial_state goal_states fuel m = Run.done (true, m')) :
    ∃ sol pth, (∀ k, m'.nodes.length ≤ k → path m' k = Run.done pth) ∧
      Legal P initial_state sol ∧ run P initial_state sol ∈ goal_states ∧
      pth = replay P initial_state sol ∧ pth.getLast? = some (run P initial_state sol) ∧
      sol.length = pth.length - 1 ∧ 0 < pth.length ∧
      ((∀ s, P.start_state ∉ P.actions s) →
        ∀ k, m'.nodes.length ≤ k → solution P m' k = Run.done sol) ∧
      ∀ as, Legal P initial_state as → run P initial_state as ∈ goal_states →
        pth.length - 1 ≤ as.length := by
  unfold searchBreadthFirst at h
  obtain ⟨nodes, hloop, hm⟩ := (search_done_iff P initial_state goal_states _ fuel m m'
    true).mp h
  obtain ⟨st, ⟨hinv, hb⟩, hstep⟩ := searchLoop_done P goal_states
    (fun st => Inv P initial_state goal_states st ∧ BInv P st)
    (fun st st' hJ hs => ⟨Inv_step P initial_state goal_states st st' hJ.1 hs,
      BInv_step P initial_state goal_states st st' hJ.1 hJ.2 hs⟩) fuel _ true nodes
    ⟨Inv_init P initial_state goal_states (Frontier.BreadthFirstFrontier []) rfl,
      BInv_init P initial_state⟩ hloop
  obtain ⟨g, rest, hxr, hg, hnodes⟩ := searchStep_exit_true P goal_states st nodes hstep
  have hok : HistOK P initial_state (st.nodes ++ [g]) :=
    Inv_histOK_snoc P initial_state goal_states st hinv g rest hxr
  obtain ⟨ss, asg, ht⟩ := Trace_exists P initial_state (st.nodes ++ [g]) hok st.nodes.length
    (by simp)
  obtain ⟨n, hn, hss, hleg, hrun⟩ := Trace_spec P initial_state _ hok _ ss asg ht
  have hng : n = g := by
    have hlast : (st.nodes ++ [g])[st.nodes.length]? = some g := by simp
    rw [hlast] at hn
    exact (Option.some.inj hn).symm
  subst hng
  have hle := Trace_length_le P initial_state _ hok _ ss asg ht
  subst hm
  subst hnodes
  refine ⟨asg, ss, ?_, hleg, by rw [hrun]; exact hg, hss, ?_, ?_, ?_, ?_, ?_⟩
  · intro k hk
    simp only [List.length_append, List.length_singleton] at hk
    unfold path
    simp only [Bool.not_true, Bool.false_eq_true, if_false, List.length_append,
      List.length_singleton, Nat.add_sub_cancel]
    rw [Trace_pathWalk _ _ _ _ ht k [] (by omega)]
    simp
  · rw [hss]
    exact replay_getLast P initial_state asg
  · rw [hss, replay_length, Nat.add_sub_cancel]
  · rw [hss, replay_length]
    exact Nat.succ_pos _
  · intro hact k hk
    simp only [List.length_append, List.length_singleton] at hk
    obtain ⟨h0, h1⟩ := HistOK_action_ne P initial_state _ hok hact
    unfold solution
    simp only [Bool.not_true, Bool.false_eq_true, if_false, List.length_append,
      List.length_singleton, Nat.add_sub_cancel]
    rw [Trace_solutionWalk P.start_state _ h0 h1 _ _ _ ht k [] (by omega)]
    simp
  · intro as hleg' hgoal
    rw [hss, replay_length, Nat.add_sub_cancel]
    by_contra hlt
    obtain ⟨j, n', -, -, hj, hs, -, -⟩ := bfs_layers_complete P initial_state goal_states st
      hinv hb n rest hxr ss asg ht as hleg' (by omega)
    exact hinv.nongoal n' (List.getElem?_mem hj) (by rw [hs]; exact hgoal)

/-- Instance of C6 on the cyclic grid of 11 states: breadth-first from 9
with goals `{1, 6}` examines eight nodes and returns the path 9-8-4-1. -/
theorem breadth_first_path_is_shortest_witness :
    searchBreadthFirst SimpleCyclesProblem 9 [1, 6] 7 Members.fresh =
      Run.done (true, (⟨true, [⟨9, 0, TestActions.start_state⟩, ⟨8, 0, TestActions.left⟩,
        ⟨10, 0, TestActions.right⟩, ⟨11, 1, TestActions.down⟩, ⟨4, 1, TestActions.up⟩,
        ⟨5, 2, TestActions.up⟩, ⟨7, 3, TestActions.right⟩, ⟨1, 4, TestActions.up⟩]⟩ :
          Members Int TestActions)) ∧
    (∃ sol pth, (∀ k, (⟨true, [⟨9, 0, TestActions.start_state⟩, ⟨8, 0, TestActions.left⟩,
        ⟨10, 0, TestActions.right⟩, ⟨11, 1, TestActions.down⟩, ⟨4, 1, TestActions.up⟩,
        ⟨5, 2, TestActions.up⟩, ⟨7, 3, TestActions.right⟩, ⟨1, 4, TestActions.up⟩]⟩ :
          Members Int TestActions).nodes.length ≤ k → path (⟨true, [⟨9, 0, TestActions.start_state⟩, ⟨8, 0, TestActions.left⟩,
        ⟨10, 0, TestActions.right⟩, ⟨11, 1, TestActions.down⟩, ⟨4, 1, TestActions.up⟩,
        ⟨5, 2, TestActions.up⟩, ⟨7, 3, TestActions.right⟩, ⟨1, 4, TestActions.up⟩]⟩ :
          Members Int TestActions) k = Run.done pth) ∧
      Legal SimpleCyclesProblem 9 sol ∧
      run SimpleCyclesProblem 9 sol ∈ ([1, 6] : List Int) ∧
      pth = replay SimpleCyclesProblem 9 sol ∧
      pth.getLast? = some (run SimpleCyclesProblem 9 sol) ∧
      sol.length = pth.length - 1 ∧ 0 < pth.length ∧
      ((∀ s, SimpleCyclesProblem.start_state ∉ SimpleCyclesProblem.actions s) →
        ∀ k, (⟨true, [⟨9, 0, TestActions.start_state⟩, ⟨8, 0, TestActions.left⟩,
        ⟨10, 0, TestActions.right⟩, ⟨11, 1, TestActions.down⟩, ⟨4, 1, TestActions.up⟩,
        ⟨5, 2, TestActions.up⟩, ⟨7, 3, TestActions.right⟩, ⟨1, 4, TestActions.up⟩]⟩ :
          Members Int TestActions).nodes.length ≤ k → solution SimpleCyclesProblem (⟨true, [⟨9, 0, TestActions.start_state⟩, ⟨8, 0, TestActions.left⟩,
        ⟨10, 0, TestActions.right⟩, ⟨11, 1, TestActions.down⟩, ⟨4, 1, TestActions.up⟩,
        ⟨5, 2, TestActions.up⟩, ⟨7, 3, TestActions.right⟩, ⟨1, 4, TestActions.up⟩]⟩ :
          Members Int TestActions) k = Run.done sol) ∧
      ∀ as, Legal SimpleCyclesProblem 9 as →
        run SimpleCyclesProblem 9 as ∈ ([1, 6] : List Int) →
        pth.length - 1 ≤ as.length) :=
  ⟨by decide,
    breadth_first_path_is_shortest SimpleCyclesProblem 9 [1, 6] 7 Members.fresh (⟨true, [⟨9, 0, TestActions.start_state⟩, ⟨8, 0, TestActions.left⟩,
        ⟨10, 0, TestActions.right⟩, ⟨11, 1, TestActions.down⟩, ⟨4, 1, TestActions.up⟩,
        ⟨5, 2, TestActions.up⟩, ⟨7, 3, TestActions.right⟩, ⟨1, 4, TestActions.up⟩]⟩ :
          Members Int TestActions)
      (by decide)⟩

/-- C7 fails on the source: in the search of `ExhaustiveSearchTest`
(depth-first from 9 on the cyclic grid, no goal) the sixth loop body adds a
second node carrying state 8 to the frontier while the first one is still
there, and 8 is not in the explored set. -/
theorem exhaustive_search_adds_state_twice :
    (loopStateAfter SimpleCyclesProblem [] 6
        (searchInit SimpleCyclesProblem 9 (Frontier.DepthFirstFrontier []))).map
      (fun st => (st.frontier, st.explored)) =
      some (Frontier.DepthFirstFrontier [⟨8, 5, TestActions.left⟩, ⟨3, 2, TestActions.up⟩,
        ⟨8, 0, TestActions.left⟩], [11, 7, 6, 5, 10, 9]) := by
  decide

end SearchClaims

section Claims

variable {S A : Type} [DecidableEq S] [DecidableEq A]

/-- C1: when `searchDepthFirst` or `searchBreadthFirst` returns true, `path()`
returns a non-empty sequence whose first element is `initial_state` and whose
last element is a member of `goal_states`. -/
theorem path_starts_at_initial_ends_in_goal (P : Problem S A) (initial_state : S)
    (goal_states : List S) (fuel : Nat) (m m' : Members S A)
    (h : searchDepthFirst P initial_state goal_states fuel m = Run.done (true, m') ∨
      searchBreadthFirst P initial_state goal_states fuel m = Run.done (true, m')) :
    ∃ pth, (∀ k, m'.nodes.length ≤ k → path m' k = Run.done pth) ∧ pth ≠ [] ∧
      pth.head? = some initial_state ∧ ∃ g ∈ goal_states, pth.getLast? = some g := by
  obtain ⟨frontier, hfr, hs⟩ := entry_points_search P initial_state goal_states fuel m _ h
  obtain ⟨as, -, hg, hp, -⟩ :=
    search_true_walks P initial_state goal_states frontier hfr fuel m m' hs
  refine ⟨replay P initial_state as, hp, ?_, replay_head P _ _, _, hg, replay_getLast P _ _⟩
  intro hnil
  have := replay_length P initial_state as
  rw [hnil] at this
  simp at this

/-- Instance of C1 on the chain 1-2-3-4-5: breadth-first from 5 with goals
`{1, 4}`. -/
theorem path_starts_at_initial_ends_in_goal_witness :
    searchBreadthFirst SimpleProblem 5 [1, 4] 10 Members.fresh =
      Run.done (true, (⟨true, [⟨5, 0, TestActions.start_state⟩, ⟨4, 0, TestActions.left⟩]⟩ :
        Members Int TestActions)) ∧
    (∃ pth, (∀ k, ([⟨5, 0, TestActions.start_state⟩, ⟨4, 0, TestActions.left⟩] :
        List (Node Int TestActions)).length ≤ k →
        path (⟨true, [⟨5, 0, TestActions.start_state⟩, ⟨4, 0, TestActions.left⟩]⟩ :
          Members Int TestActions) k = Run.done pth) ∧ pth ≠ [] ∧
      pth.head? = some (5 : Int) ∧ ∃ g ∈ ([1, 4] : List Int), pth.getLast? = some g) :=
  ⟨by decide,
  path_starts_at_initial_ends_in_goal SimpleProblem 5 [1, 4] 10 Members.fresh
    ⟨true, [⟨5, 0, TestActions.start_state⟩, ⟨4, 0, TestActions.left⟩]⟩ (Or.inr (by decide))⟩

/-- C2: for a Problem whose `actions` never lists `start_state`, when either
search returns true, `result(path()[i], solution()[i]) == path()[i+1]` for
every index `i` of `solution()`; replaying `solution()` from `initial_state`
visits exactly the states of `path()` and ends in a goal state. -/
theorem solution_replays_path (P : Problem S A) (initial_state : S) (goal_states : List S)
    (fuel : Nat) (m m' : Members S A) (hact : ∀ s, P.start_state ∉ P.actions s)
    (h : searchDepthFirst P initial_state goal_states fuel m = Run.done (true, m') ∨
      searchBreadthFirst P initial_state goal_states fuel m = Run.done (true, m')) :
    ∃ sol pth, (∀ k, m'.nodes.length ≤ k →
        solution P m' k = Run.done sol ∧ path m' k = Run.done pth) ∧
      (∀ i, i < sol.length → ∃ x y a, pth[i]? = some x ∧ pth[i + 1]? = some y ∧
        sol[i]? = some a ∧ P.result x a = y) ∧
      pth = replay P initial_state sol ∧ run P initial_state sol ∈ goal_states := by
  obtain ⟨frontier, hfr, hs⟩ := entry_points_search P initial_state goal_states fuel m _ h
  obtain ⟨as, hl, hg, hp, hsol⟩ :=
    search_true_walks P initial_state goal_states frontier hfr fuel m m' hs
  refine ⟨as, replay P initial_state as, fun k hk => ⟨hsol hact k hk, hp k hk⟩, ?_, rfl, hg⟩
  intro i hi
  obtain ⟨x, y, a, h1, h2, h3, -, h5⟩ := replay_getElem P initial_state as hl i hi
  exact ⟨x, y, a, h1, h2, h3, h5⟩

/-- Instance of C2 on the chain 1-2-3-4-5: depth-first from 1 with goals
`{3, 5}`. -/
theorem solution_replays_path_witness :
    (∀ s, SimpleProblem.start_state ∉ SimpleProblem.actions s) ∧
    searchDepthFirst SimpleProblem 1 [3, 5] 10 Members.fresh =
      Run.done (true, (⟨true, [⟨1, 0, TestActions.start_state⟩, ⟨2, 0, TestActions.right⟩,
        ⟨3, 1, TestActions.right⟩]⟩ : Members Int TestActions)) ∧
    (∃ sol pth, (∀ k, ([⟨1, 0, TestActions.start_state⟩, ⟨2, 0, TestActions.right⟩,
          ⟨3, 1, TestActions.right⟩] : List (Node Int TestActions)).length ≤ k →
        solution SimpleProblem (⟨true, [⟨1, 0, TestActions.start_state⟩,
          ⟨2, 0, TestActions.right⟩, ⟨3, 1, TestActions.right⟩]⟩ :
            Members Int TestActions) k = Run.done sol ∧
        path (⟨true, [⟨1, 0, TestActions.start_state⟩,
          ⟨2, 0, TestActions.right⟩, ⟨3, 1, TestActions.right⟩]⟩ :
            Members Int TestActions) k = Run.done pth) ∧
      (∀ i, i < sol.length → ∃ x y a, pth[i]? = some x ∧ pth[i + 1]? = some y ∧
        sol[i]? = some a ∧ SimpleProblem.result x a = y) ∧
      pth = replay SimpleProblem 1 sol ∧ run SimpleProblem 1 sol ∈ ([3, 5] : List Int)) :=
  ⟨SimpleProblem_no_start_state, by decide,
  solution_replays_path SimpleProblem 1 [3, 5] 10 Members.fresh
    ⟨true, [⟨1, 0, TestActions.start_state⟩, ⟨2, 0, TestActions.right⟩,
      ⟨3, 1, TestActions.right⟩]⟩ SimpleProblem_no_start_state (Or.inl (by decide))⟩

/-- C3: for a Problem whose `actions` never lists `start_state`, after either
search returns true the length of `solution()` is the length of `path()`
minus 1. -/
theorem solution_length_eq_path_length_sub_one (P : Problem S A) (initial_state : S)
    (goal_states : List S) (fuel : Nat) (m m' : Members S A)
    (hact : ∀ s, P.start_state ∉ P.actions s)
    (h : searchDepthFirst P initial_state goal_states fuel m = Run.done (true, m') ∨
      searchBreadthFirst P initial_state goal_states fuel m = Run.done (true, m')) :
    ∃ sol pth, (∀ k, m'.nodes.length ≤ k →
        solution P m' k = Run.done sol ∧ path m' k = Run.done pth) ∧
      sol.length = pth.length - 1 ∧ 0 < pth.length := by
  obtain ⟨frontier, hfr, hs⟩ := entry_points_search P initial_state goal_states fuel m _ h
  obtain ⟨as, -, -, hp, hsol⟩ :=
    search_true_walks P initial_state goal_states frontier hfr fuel m m' hs
  refine ⟨as, replay P initial_state as, fun k hk => ⟨hsol hact k hk, hp k hk⟩, ?_, ?_⟩
  · rw [replay_length]
    rfl
  · rw [replay_length]
    exact Nat.succ_pos _

/-- Instance of C3 on the chain 1-2-3-4-5: breadth-first from 3 with goals
`{1, 4}`. -/
theorem solution_length_eq_path_length_sub_one_witness :
    (∀ s, SimpleProblem.start_state ∉ SimpleProblem.actions s) ∧
    searchBreadthFirst SimpleProblem 3 [1, 4] 10 Members.fresh =
      Run.done (true, (⟨true, [⟨3, 0, TestActions.start_state⟩, ⟨4, 0, TestActions.right⟩]⟩ :
        Members Int TestActions)) ∧
    (∃ sol pth, (∀ k, ([⟨3, 0, TestActions.start_state⟩, ⟨4, 0, TestActions.right⟩] :
          List (Node Int TestActions)).length ≤ k →
        solution SimpleProblem (⟨true, [⟨3, 0, TestActions.start_state⟩,
          ⟨4, 0, TestActions.right⟩]⟩ : Members Int TestActions) k = Run.done sol ∧
        path (⟨true, [⟨3, 0, TestActions.start_state⟩,
          ⟨4, 0, TestActions.right⟩]⟩ : Members Int TestActions) k = Run.done pth) ∧
      sol.length = pth.length - 1 ∧ 0 < pth.length) :=
  ⟨SimpleProblem_no_start_state, by decide,
  solution_length_eq_path_length_sub_one SimpleProblem 3 [1, 4] 10 Members.fresh
    ⟨true, [⟨3, 0, TestActions.start_state⟩, ⟨4, 0, TestActions.right⟩]⟩
    SimpleProblem_no_start_state (Or.inr (by decide))⟩

/-- C8: `solution()` and `path()` throw exactly when the most recent `search`
did not return true.  They throw on a newly constructed object; after a
search that returned `b`, whatever the members held before it, each throws if
and only if `b` is false; and after a search from an empty frontier that
returned true both run to their end and produce a result. -/
theorem solution_path_throw_iff (P : Problem S A) (initial_state : S) (goal_states : List S)
    (frontier : Frontier (Node S A)) (fuel k : Nat) (m m' : Members S A) (b : Bool)
    (h : search P initial_state goal_states frontier fuel m = Run.done (b, m')) :
    (solution P (Members.fresh : Members S A) k = Run.thrown ∧
      path (Members.fresh : Members S A) k = Run.thrown) ∧
    (solution P m' k = Run.thrown ↔ b = false) ∧
    (path m' k = Run.thrown ↔ b = false) ∧
    (b = true → frontier.container = [] → m'.nodes.length ≤ k →
      (∃ sol, solution P m' k = Run.done sol) ∧ ∃ pth, path m' k = Run.done pth) := by
  obtain ⟨nodes, hloop, hm⟩ :=
    (search_done_iff P initial_state goal_states frontier fuel m m' b).mp h
  refine ⟨⟨rfl, rfl⟩, ?_, ?_, ?_⟩
  · subst hm
    cases b with
    | false => simp [solution]
    | true =>
      simp only [solution, Bool.not_true, Bool.false_eq_true, if_false]
      constructor
      · intro hw
        exact absurd hw (solutionWalk_ne_thrown _ _ _ _ _)
      · intro hw
        cases hw
  · subst hm
    cases b with
    | false => simp [path]
    | true =>
      simp only [path, Bool.not_true, Bool.false_eq_true, if_false]
      constructor
      · intro hw
        exact absurd hw (pathWalk_ne_thrown _ _ _ _)
      · intro hw
        cases hw
  · intro hb hfr hk
    subst hb
    obtain ⟨hsf, hok, st, x, rest, -, -, -, hnodes⟩ :=
      search_true_final P initial_state goal_states frontier hfr fuel m m' h
    obtain ⟨as, -, -, hp, -⟩ :=
      search_true_walks P initial_state goal_states frontier hfr fuel m m' h
    refine ⟨?_, _, hp k hk⟩
    have hlen : m'.nodes.length = st.nodes.length + 1 := by simp [hnodes]
    unfold solution
    simp only [hsf, Bool.not_true, Bool.false_eq_true, if_false]
    exact solutionWalk_done P initial_state m'.nodes hok _ (by omega) k (by omega) []

/-- Instance of C8 on the chain 1-2-3-4-5: on one object a breadth-first
search from 5 with goals `{1, 4}` follows a search that had left other
members behind. -/
theorem solution_path_throw_iff_witness :
    search SimpleProblem 5 [1, 4] (Frontier.BreadthFirstFrontier []) 10
        ⟨true, [⟨3, 0, TestActions.start_state⟩]⟩ =
      Run.done (true, (⟨true, [⟨5, 0, TestActions.start_state⟩, ⟨4, 0, TestActions.left⟩]⟩ :
        Members Int TestActions)) ∧
    ((solution SimpleProblem (Members.fresh : Members Int TestActions) 2 = Run.thrown ∧
      path (Members.fresh : Members Int TestActions) 2 = Run.thrown) ∧
    (solution SimpleProblem (⟨true, [⟨5, 0, TestActions.start_state⟩,
        ⟨4, 0, TestActions.left⟩]⟩ : Members Int TestActions) 2 = Run.thrown ↔
      true = false) ∧
    (path (⟨true, [⟨5, 0, TestActions.start_state⟩,
        ⟨4, 0, TestActions.left⟩]⟩ : Members Int TestActions) 2 = Run.thrown ↔
      true = false) ∧
    (true = true → (Frontier.BreadthFirstFrontier [] :
        Frontier (Node Int TestActions)).container = [] →
      (⟨true, [⟨5, 0, TestActions.start_state⟩,
        ⟨4, 0, TestActions.left⟩]⟩ : Members Int TestActions).nodes.length ≤ 2 →
      (∃ sol, solution SimpleProblem (⟨true, [⟨5, 0, TestActions.start_state⟩,
        ⟨4, 0, TestActions.left⟩]⟩ : Members Int TestActions) 2 = Run.done sol) ∧
      ∃ pth, path (⟨true, [⟨5, 0, TestActions.start_state⟩,
        ⟨4, 0, TestActions.left⟩]⟩ : Members Int TestActions) 2 = Run.done pth)) :=
  ⟨by decide,
  solution_path_throw_iff SimpleProblem 5 [1, 4] (Frontier.BreadthFirstFrontier []) 10 2
    ⟨true, [⟨3, 0, TestActions.start_state⟩]⟩
    ⟨true, [⟨5, 0, TestActions.start_state⟩, ⟨4, 0, TestActions.left⟩]⟩ true (by decide)⟩

/-- C10: a search with an empty `goal_states` never returns true: whenever
it returns it returns false, and `solution()` and `path()` then throw. -/
theorem empty_goals_never_true (P : Problem S A) (initial_state : S)
    (frontier : Frontier (Node S A)) (fuel k : Nat) (m m' : Members S A) (b : Bool)
    (h : search P initial_state [] frontier fuel m = Run.done (b, m')) :
    b = false ∧ solution P m' k = Run.thrown ∧ path m' k = Run.thrown := by
  obtain ⟨nodes, hloop, rfl⟩ := (search_done_iff P initial_state [] frontier fuel m m' b).mp h
  obtain ⟨st, -, hstep⟩ := searchLoop_done P [] (fun _ => True) (fun _ _ _ _ => trivial)
    fuel _ b nodes trivial hloop
  have hb : b = false := by
    cases b with
    | false => rfl
    | true =>
      obtain ⟨x, rest, -, hg, -⟩ := searchStep_exit_true P [] st nodes hstep
      simp at hg
  subst hb
  exact ⟨rfl, by simp [solution], by simp [path]⟩

/-- Instance of C10 on the chain 1-2-3-4-5: depth-first from 1 with no goal
examines the five states and returns false. -/
theorem empty_goals_never_true_witness :
    search SimpleProblem 1 [] (Frontier.DepthFirstFrontier []) 10 Members.fresh =
      Run.done (false, (⟨false, [⟨1, 0, TestActions.start_state⟩,
        ⟨2, 0, TestActions.right⟩, ⟨3, 1, TestActions.right⟩, ⟨4, 2, TestActions.right⟩,
        ⟨5, 3, TestActions.right⟩]⟩ : Members Int TestActions)) ∧
    (false = false ∧
      solution SimpleProblem (⟨false, [⟨1, 0, TestActions.start_state⟩,
        ⟨2, 0, TestActions.right⟩, ⟨3, 1, TestActions.right⟩, ⟨4, 2, TestActions.right⟩,
        ⟨5, 3, TestActions.right⟩]⟩ : Members Int TestActions) 7 = Run.thrown ∧
      path (⟨false, [⟨1, 0, TestActions.start_state⟩,
        ⟨2, 0, TestActions.right⟩, ⟨3, 1, TestActions.right⟩, ⟨4, 2, TestActions.right⟩,
        ⟨5, 3, TestActions.right⟩]⟩ : Members Int TestActions) 7 = Run.thrown) :=
  ⟨by decide,
  empty_goals_never_true SimpleProblem 1 (Frontier.DepthFirstFrontier []) 10 7 Members.fresh
    ⟨false, [⟨1, 0, TestActions.start_state⟩,
        ⟨2, 0, TestActions.right⟩, ⟨3, 1, TestActions.right⟩, ⟨4, 2, TestActions.right⟩,
        ⟨5, 3, TestActions.right⟩]⟩ false (by decide)⟩

end Claims

/-! ## Properties of the two frontiers -/

section FrontierLemmas

variable {N : Type}

theorem drain_dfs (c : List N) (extra : Nat) :
    drain (c.length + extra) (Frontier.DepthFirstFrontier c) = Run.done c := by
  induction c with
  | nil =>
    unfold drain
    simp [Frontier.isEmpty]
  | cons x c ih =>
    have hlen : (x :: c).length + extra = (c.length + extra) + 1 := by
      simp only [List.length_cons]
      omega
    rw [hlen]
    unfold drain
    simp [Frontier.isEmpty, Frontier.next, Frontier.pop, ih]

theorem drain_bfs (c : List N) (extra : Nat) :
    drain (c.length + extra) (Frontier.BreadthFirstFrontier c) = Run.done c := by
  induction c with
  | nil =>
    unfold drain
    simp [Frontier.isEmpty]
  | cons x c ih =>
    have hlen : (x :: c).length + extra = (c.length + extra) + 1 := by
      simp only [List.length_cons]
      omega
    rw [hlen]
    unfold drain
    simp [Frontier.isEmpty, Frontier.next, Frontier.pop, ih]

theorem Frontier_container_length_add (f : Frontier N) (x : N) :
    (f.add x).container.length = f.container.length + 1 := by
  cases f <;> simp [Frontier.add, Frontier.container]

theorem Frontier_pop_eq_none_iff (f : Frontier N) : f.pop = none ↔ f.container = [] := by
  cases f with
  | DepthFirstFrontier c => cases c <;> simp [Frontier.pop, Frontier.container]
  | BreadthFirstFrontier c => cases c <;> simp [Frontier.pop, Frontier.container]

theorem Frontier_container_length_pop (f f' : Frontier N) (h : f.pop = some f') :
    f'.container.length + 1 = f.container.length := by
  cases f with
  | DepthFirstFrontier c =>
    cases c with
    | nil => simp [Frontier.pop] at h
    | cons x c =>
      simp only [Frontier.pop, Option.some.injEq] at h
      subst h
      simp [Frontier.container]
  | BreadthFirstFrontier c =>
    cases c with
    | nil => simp [Frontier.pop] at h
    | cons x c =>
      simp only [Frontier.pop, Option.some.injEq] at h
      subst h
      simp [Frontier.container]

/-- After a valid sequence of calls the frontier holds as many nodes as it
held before, plus the adds, minus the pops. -/
theorem applyOps_length (ops : List (FrontierOp N)) (f f' : Frontier N)
    (h : applyOps f ops = some f') :
    f'.container.length + ops.countP FrontierOp.isPop =
      f.container.length + ops.countP FrontierOp.isAdd := by
  induction ops generalizing f with
  | nil =>
    simp only [applyOps, Option.some.injEq] at h
    subst h
    simp
  | cons op ops ih =>
    cases op with
    | add node =>
      simp only [applyOps] at h
      have := ih _ h
      rw [Frontier_container_length_add] at this
      simp only [List.countP_cons, FrontierOp.isPop, FrontierOp.isAdd]
      simp only [Bool.false_eq_true, if_false, if_true]
      omega
    | pop =>
      simp only [applyOps] at h
      cases hp : f.pop with
      | none => simp [hp] at h
      | some g =>
        simp only [hp] at h
        have h1 := ih _ h
        have h2 := Frontier_container_length_pop f g hp
        simp only [List.countP_cons, FrontierOp.isPop, FrontierOp.isAdd]
        simp only [Bool.false_eq_true, if_false, if_true]
        omega

/-- Whether a sequence of calls is valid depends only on the number of nodes
the frontier holds, not on its variant. -/
theorem applyOps_isSome_congr (ops : List (FrontierOp N)) (f g : Frontier N)
    (h : f.container.length = g.container.length) :
    (applyOps f ops).isSome = (applyOps g ops).isSome := by
  induction ops generalizing f g with
  | nil => simp [applyOps]
  | cons op ops ih =>
    cases op with
    | add node =>
      simp only [applyOps]
      apply ih
      rw [Frontier_container_length_add, Frontier_container_length_add, h]
    | pop =>
      simp only [applyOps]
      cases hf : f.pop with
      | none =>
        have hfc := (Frontier_pop_eq_none_iff f).mp hf
        have hgc : g.container = [] := by
          rw [hfc] at h
          exact List.length_eq_zero.mp h.symm
        rw [(Frontier_pop_eq_none_iff g).mpr hgc]
      | some f' =>
        cases hg : g.pop with
        | none =>
          have hgc := (Frontier_pop_eq_none_iff g).mp hg
          have hl := Frontier_container_length_pop f f' hf
          rw [h, hgc] at hl
          simp at hl
        | some g' =>
          apply ih
          have h1 := Frontier_container_length_pop f f' hf
          have h2 := Frontier_container_length_pop g g' hg
          omega

end FrontierLemmas

section FrontierClaims

variable {N : Type}

/-- C12: `DepthFirstFrontier` is last-in-first-out: for every contents `c` and
node `x`, after `add(x)` the call `next()` returns `x` and a following `pop()`
restores exactly the contents `c`; adding `x1..xn` to an empty frontier and
draining it with `next()`/`pop()` yields `xn..x1`. -/
theorem depth_first_frontier_is_lifo (c xs : List N) (x : N) (extra : Nat) :
    ((Frontier.DepthFirstFrontier c).add x).next = some x ∧
      ((Frontier.DepthFirstFrontier c).add x).pop = some (Frontier.DepthFirstFrontier c) ∧
      drain (xs.length + extra) (xs.foldl Frontier.add (Frontier.DepthFirstFrontier [])) =
        Run.done xs.reverse := by
  refine ⟨rfl, rfl, ?_⟩
  rw [Frontier_container_foldl_add_dfs, List.append_nil]
  have h := drain_dfs xs.reverse extra
  rw [List.length_reverse] at h
  exact h

/-- C13: `BreadthFirstFrontier` is first-in-first-out: on a non-empty frontier
`add(x)` does not change what `next()` returns, and adding `x1..xn` to an
empty frontier and then draining it with `next()`/`pop()` yields `x1..xn` in
the order in which they were added. -/
theorem breadth_first_frontier_is_fifo (c xs : List N) (x : N) (extra : Nat)
    (hne : (Frontier.BreadthFirstFrontier c).isEmpty = false) :
    ((Frontier.BreadthFirstFrontier c).add x).next = (Frontier.BreadthFirstFrontier c).next ∧
      (∃ y, (Frontier.BreadthFirstFrontier c).next = some y) ∧
      drain (xs.length + extra) (xs.foldl Frontier.add (Frontier.BreadthFirstFrontier [])) =
        Run.done xs := by
  cases c with
  | nil => simp [Frontier.isEmpty] at hne
  | cons y c =>
    refine ⟨rfl, ⟨y, rfl⟩, ?_⟩
    rw [Frontier_container_foldl_add_bfs, List.nil_append]
    exact drain_bfs xs extra

/-- Instance of C13 on the nodes of `BreadthFirstFrontierTest`: a queue
holding `SimpleStruct{1}` keeps it at the front when `SimpleStruct{2}` is
added. -/
theorem breadth_first_frontier_is_fifo_witness :
    (Frontier.BreadthFirstFrontier [(⟨1⟩ : SimpleStruct)]).isEmpty = false ∧
    (((Frontier.BreadthFirstFrontier [(⟨1⟩ : SimpleStruct)]).add ⟨2⟩).next =
        (Frontier.BreadthFirstFrontier [(⟨1⟩ : SimpleStruct)]).next ∧
      (∃ y, (Frontier.BreadthFirstFrontier [(⟨1⟩ : SimpleStruct)]).next = some y) ∧
      drain (([⟨1⟩, ⟨2⟩] : List SimpleStruct).length + 0)
          (([⟨1⟩, ⟨2⟩] : List SimpleStruct).foldl Frontier.add
            (Frontier.BreadthFirstFrontier [])) =
        Run.done [⟨1⟩, ⟨2⟩]) :=
  ⟨by decide, breadth_first_frontier_is_fifo [(⟨1⟩ : SimpleStruct)] [⟨1⟩, ⟨2⟩] ⟨2⟩ 0
    (by decide)⟩

/-- C14: for every sequence of `add` and `pop` calls on a newly constructed
frontier in which `pop` is never applied to an empty frontier, `isEmpty()` is
true exactly when the number of adds equals the number of pops; the sequence
is valid for one variant exactly when it is for the other, and the two
variants agree on `isEmpty()`. -/
theorem isEmpty_iff_adds_eq_pops (ops : List (FrontierOp N))
    (hvalid : (applyOps (Frontier.DepthFirstFrontier []) ops).isSome = true ∨
      (applyOps (Frontier.BreadthFirstFrontier []) ops).isSome = true) :
    ∃ fd fb, applyOps (Frontier.DepthFirstFrontier []) ops = some fd ∧
      applyOps (Frontier.BreadthFirstFrontier []) ops = some fb ∧
      (fd.isEmpty = true ↔ ops.countP FrontierOp.isAdd = ops.countP FrontierOp.isPop) ∧
      (fb.isEmpty = true ↔ ops.countP FrontierOp.isAdd = ops.countP FrontierOp.isPop) ∧
      fd.isEmpty = fb.isEmpty := by
  have hcongr := applyOps_isSome_congr ops (Frontier.DepthFirstFrontier ([] : List N))
    (Frontier.BreadthFirstFrontier []) rfl
  have hboth : (applyOps (Frontier.DepthFirstFrontier []) ops).isSome = true ∧
      (applyOps (Frontier.BreadthFirstFrontier []) ops).isSome = true := by
    rcases hvalid with h | h
    · exact ⟨h, by rw [← hcongr]; exact h⟩
    · exact ⟨by rw [hcongr]; exact h, h⟩
  obtain ⟨fd, hd⟩ := Option.isSome_iff_exists.mp hboth.1
  obtain ⟨fb, hb⟩ := Option.isSome_iff_exists.mp hboth.2
  have ld := applyOps_length ops _ fd hd
  have lb := applyOps_length ops _ fb hb
  have zd : (Frontier.DepthFirstFrontier ([] : List N)).container.length = 0 := rfl
  have zb : (Frontier.BreadthFirstFrontier ([] : List N)).container.length = 0 := rfl
  rw [zd] at ld
  rw [zb] at lb
  have ed : fd.isEmpty = true ↔
      ops.countP FrontierOp.isAdd = ops.countP FrontierOp.isPop := by
    rw [Frontier_isEmpty_iff, ← List.length_eq_zero]
    omega
  have eb : fb.isEmpty = true ↔
      ops.countP FrontierOp.isAdd = ops.countP FrontierOp.isPop := by
    rw [Frontier_isEmpty_iff, ← List.length_eq_zero]
    omega
  refine ⟨fd, fb, hd, hb, ed, eb, ?_⟩
  rw [Bool.eq_iff_iff, ed, eb]

/-- Instance of C14 on the calls of `frontierTestsHelper1` and
`frontierTestsHelper2`: two adds followed by two pops. -/
theorem isEmpty_iff_adds_eq_pops_witness :
    ((applyOps (Frontier.DepthFirstFrontier [])
        [FrontierOp.add (⟨1⟩ : SimpleStruct), FrontierOp.add ⟨2⟩, FrontierOp.pop,
          FrontierOp.pop]).isSome = true ∨
      (applyOps (Frontier.BreadthFirstFrontier [])
        [FrontierOp.add (⟨1⟩ : SimpleStruct), FrontierOp.add ⟨2⟩, FrontierOp.pop,
          FrontierOp.pop]).isSome = true) ∧
    (∃ fd fb, applyOps (Frontier.DepthFirstFrontier [])
        [FrontierOp.add (⟨1⟩ : SimpleStruct), FrontierOp.add ⟨2⟩, FrontierOp.pop,
          FrontierOp.pop] = some fd ∧
      applyOps (Frontier.BreadthFirstFrontier [])
        [FrontierOp.add (⟨1⟩ : SimpleStruct), FrontierOp.add ⟨2⟩, FrontierOp.pop,
          FrontierOp.pop] = some fb ∧
      (fd.isEmpty = true ↔
        ([FrontierOp.add (⟨1⟩ : SimpleStruct), FrontierOp.add ⟨2⟩, FrontierOp.pop,
          FrontierOp.pop].countP FrontierOp.isAdd =
        [FrontierOp.add (⟨1⟩ : SimpleStruct), FrontierOp.add ⟨2⟩, FrontierOp.pop,
          FrontierOp.pop].countP FrontierOp.isPop)) ∧
      (fb.isEmpty = true ↔
        ([FrontierOp.add (⟨1⟩ : SimpleStruct), FrontierOp.add ⟨2⟩, FrontierOp.pop,
          FrontierOp.pop].countP FrontierOp.isAdd =
        [FrontierOp.add (⟨1⟩ : SimpleStruct), FrontierOp.add ⟨2⟩, FrontierOp.pop,
          FrontierOp.pop].countP FrontierOp.isPop)) ∧
      fd.isEmpty = fb.isEmpty) :=
  ⟨Or.inl (by decide),
    isEmpty_iff_adds_eq_pops
      [FrontierOp.add (⟨1⟩ : SimpleStruct), FrontierOp.add ⟨2⟩, FrontierOp.pop,
        FrontierOp.pop] (Or.inl (by decide))⟩

/-- C16 as stated fails on the source: on an empty frontier of either variant
`next()` and `pop()` execute no `throw`; no error is raised. -/
theorem empty_frontier_raises_no_error :
    (Frontier.DepthFirstFrontier ([] : List SimpleStruct)).nextRun ≠ Run.thrown ∧
      (Frontier.DepthFirstFrontier ([] : List SimpleStruct)).popRun ≠ Run.thrown ∧
      (Frontier.BreadthFirstFrontier ([] : List SimpleStruct)).nextRun ≠ Run.thrown ∧
      (Frontier.BreadthFirstFrontier ([] : List SimpleStruct)).popRun ≠ Run.thrown := by
  decide

/-- C16, amended: on an empty frontier of either variant `next()` and `pop()`
raise no error and have no defined result; they are the undefined calls
`top()`/`front()`/`pop()` of an empty container.  On a non-empty frontier
both are defined. -/
theorem empty_frontier_next_pop_undefined (f : Frontier N) (hempty : f.isEmpty = true) :
    f.nextRun = Run.fault ∧ f.popRun = Run.fault ∧ f.next = none ∧ f.pop = none := by
  have hc := (Frontier_isEmpty_iff f).mp hempty
  cases f with
  | DepthFirstFrontier c =>
    simp only [Frontier.container] at hc
    subst hc
    exact ⟨rfl, rfl, rfl, rfl⟩
  | BreadthFirstFrontier c =>
    simp only [Frontier.container] at hc
    subst hc
    exact ⟨rfl, rfl, rfl, rfl⟩

/-- Instance of amended C16 on a newly constructed `DepthFirstFrontier`. -/
theorem empty_frontier_next_pop_undefined_witness :
    (Frontier.DepthFirstFrontier ([] : List SimpleStruct)).isEmpty = true ∧
    ((Frontier.DepthFirstFrontier ([] : List SimpleStruct)).nextRun = Run.fault ∧
      (Frontier.DepthFirstFrontier ([] : List SimpleStruct)).popRun = Run.fault ∧
      (Frontier.DepthFirstFrontier ([] : List SimpleStruct)).next = none ∧
      (Frontier.DepthFirstFrontier ([] : List SimpleStruct)).pop = none) :=
  ⟨by decide,
    empty_frontier_next_pop_undefined (Frontier.DepthFirstFrontier ([] : List SimpleStruct))
      (by decide)⟩

end FrontierClaims

/-! ## Further properties of the search engine -/

section MoreLemmas

variable {S A : Type} [DecidableEq S]

theorem searchLoop_ne_fault (P : Problem S A) (goal_states : List S) (fuel : Nat)
    (st : LoopState S A) : searchLoop P goal_states fuel st ≠ Run.fault := by
  induction fuel generalizing st with
  | zero =>
    cases hstep : searchStep P goal_states st with
    | exit b nodes =>
      rw [searchLoop_exit P goal_states _ st b nodes hstep]
      simp
    | iterate st' =>
      unfold searchLoop
      simp [hstep]
    | fault => exact absurd hstep (searchStep_ne_fault P goal_states st)
  | succ fuel ih =>
    cases hstep : searchStep P goal_states st with
    | exit b nodes =>
      rw [searchLoop_exit P goal_states _ st b nodes hstep]
      simp
    | iterate st' =>
      rw [searchLoop_continue P goal_states fuel st st' hstep]
      exact ih st'
    | fault => exact absurd hstep (searchStep_ne_fault P goal_states st)

/-- A search that returns within `fuel` iterations returns the same under any
larger budget. -/
theorem search_mono (P : Problem S A) (initial_state : S) (goal_states : List S)
    (frontier : Frontier (Node S A)) (fuel : Nat) (m : Members S A)
    (r : Bool × Members S A)
    (h : search P initial_state goal_states frontier fuel m = Run.done r) (fuel' : Nat)
    (hle : fuel ≤ fuel') :
    search P initial_state goal_states frontier fuel' m = Run.done r := by
  obtain ⟨b, m'⟩ := r
  rw [search_done_iff] at h ⊢
  obtain ⟨nodes, hloop, hm⟩ := h
  exact ⟨nodes, searchLoop_mono P goal_states fuel _ _ hloop fuel' hle, hm⟩

omit [DecidableEq S] in
theorem pathWalk_mono (nodes : List (Node S A)) (fuel index : Nat) (the_path r : List S)
    (h : pathWalk nodes fuel index the_path = Run.done r) (fuel' : Nat) (hle : fuel ≤ fuel') :
    pathWalk nodes fuel' index the_path = Run.done r := by
  induction fuel generalizing index the_path fuel' with
  | zero =>
    unfold pathWalk at h ⊢
    by_cases hpos : index > 0
    · simp [hpos] at h
    · simp only [hpos, if_false] at h ⊢
      exact h
  | succ fuel ih =>
    obtain ⟨fuel'', rfl⟩ : ∃ fuel'', fuel' = fuel'' + 1 := ⟨fuel' - 1, by omega⟩
    unfold pathWalk at h ⊢
    by_cases hpos : index > 0
    · simp only [hpos, if_true] at h ⊢
      cases hn : nodes[index]? with
      | none => simp [hn] at h
      | some n =>
        simp only [hn] at h ⊢
        exact ih _ _ h fuel'' (by omega)
    · simp only [hpos, if_false] at h ⊢
      exact h

omit [DecidableEq S] in
theorem solutionWalk_mono [DecidableEq A] (start_state : A) (nodes : List (Node S A))
    (fuel index : Nat) (the_solution r : List A)
    (h : solutionWalk start_state nodes fuel index the_solution = Run.done r) (fuel' : Nat)
    (hle : fuel ≤ fuel') :
    solutionWalk start_state nodes fuel' index the_solution = Run.done r := by
  induction fuel generalizing index the_solution fuel' with
  | zero =>
    unfold solutionWalk at h ⊢
    cases hn : nodes[index]? with
    | none => simp [hn] at h
    | some n =>
      simp only [hn] at h ⊢
      by_cases ha : n.action ≠ start_state
      · rw [if_pos ha] at h
        simp at h
      · rw [if_neg ha] at h ⊢
        exact h
  | succ fuel ih =>
    obtain ⟨fuel'', rfl⟩ : ∃ fuel'', fuel' = fuel'' + 1 := ⟨fuel' - 1, by omega⟩
    unfold solutionWalk at h ⊢
    cases hn : nodes[index]? with
    | none => simp [hn] at h
    | some n =>
      simp only [hn] at h ⊢
      by_cases ha : n.action ≠ start_state
      · rw [if_pos ha] at h ⊢
        exact ih _ _ h fuel'' (by omega)
      · rw [if_neg ha] at h ⊢
        exact h

omit [DecidableEq S] in
theorem path_mono (m : Members S A) (fuel : Nat) (r : List S)
    (h : path m fuel = Run.done r) (fuel' : Nat) (hle : fuel ≤ fuel') :
    path m fuel' = Run.done r := by
  unfold path at h ⊢
  split at h
  · simp at h
  · rename_i hsf
    simp only [hsf, if_false]
    exact pathWalk_mono _ _ _ _ _ h fuel' hle

omit [DecidableEq S] in
theorem solution_mono [DecidableEq A] (P : Problem S A) (m : Members S A) (fuel : Nat)
    (r : List A) (h : solution P m fuel = Run.done r) (fuel' : Nat) (hle : fuel ≤ fuel') :
    solution P m fuel' = Run.done r := by
  unfold solution at h ⊢
  split at h
  · simp at h
  · rename_i hsf
    simp only [hsf, if_false]
    exact solutionWalk_mono _ _ _ _ _ _ h fuel' hle

end MoreLemmas

section MoreClaims

variable {S A : Type} [DecidableEq S]

/-- C11: the outcome of a search does not depend on earlier searches on the
same object: for every prior value `m` of the members `solution_found` and
`nodes`, `search` on a new frontier returns the same boolean and leaves the
same members, hence the same `solution()` and `path()`, as the same call on a
newly constructed object. -/
theorem search_ignores_prior_members (P : Problem S A) (initial_state : S)
    (goal_states : List S) (frontier : Frontier (Node S A)) (fuel : Nat) (m : Members S A) :
    search P initial_state goal_states frontier fuel m =
        search P initial_state goal_states frontier fuel Members.fresh ∧
      searchDepthFirst P initial_state goal_states fuel m =
        searchDepthFirst P initial_state goal_states fuel Members.fresh ∧
      searchBreadthFirst P initial_state goal_states fuel m =
        searchBreadthFirst P initial_state goal_states fuel Members.fresh := by
  have key : ∀ fr : Frontier (Node S A), search P initial_state goal_states fr fuel m =
      search P initial_state goal_states fr fuel Members.fresh := by
    intro fr
    unfold search
    rfl
  exact ⟨key frontier, key _, key _⟩

/-- C15: in every execution of `search`, for every Problem and every frontier,
`next()` and `pop()` are called on a non-empty frontier only: no loop body
and no run of `search` or of its two entry points ends in the undefined call
on an empty container. -/
theorem search_never_reads_empty_frontier (P : Problem S A) (initial_state : S)
    (goal_states : List S) (frontier : Frontier (Node S A)) (fuel : Nat) (m : Members S A)
    (st : LoopState S A) :
    searchStep P goal_states st ≠ Step.fault ∧
      search P initial_state goal_states frontier fuel m ≠ Run.fault ∧
      searchDepthFirst P initial_state goal_states fuel m ≠ Run.fault ∧
      searchBreadthFirst P initial_state goal_states fuel m ≠ Run.fault := by
  have key : ∀ fr : Frontier (Node S A),
      search P initial_state goal_states fr fuel m ≠ Run.fault := by
    intro fr hfault
    unfold search at hfault
    have hst : ({ searchInit P initial_state fr with
        nodes := ({ m with nodes := [], solution_found := false } : Members S A).nodes } :
          LoopState S A) = searchInit P initial_state fr := rfl
    simp only [hst] at hfault
    cases hloop : searchLoop P goal_states fuel (searchInit P initial_state fr) with
    | done r => simp [hloop] at hfault
    | thrown => simp [hloop] at hfault
    | outOfFuel => simp [hloop] at hfault
    | fault => exact searchLoop_ne_fault P goal_states fuel _ hloop
  exact ⟨searchStep_ne_fault P goal_states st, key frontier, key _, key _⟩

/-- C20: whenever either search returns false, the states occurring in the
expansion history are exactly the states reachable from `initial_state` by
zero or more legal actions. -/
theorem failed_search_history_is_reachable_set (P : Problem S A) (initial_state : S)
    (goal_states : List S) (fuel : Nat) (m m' : Members S A)
    (h : searchDepthFirst P initial_state goal_states fuel m = Run.done (false, m') ∨
      searchBreadthFirst P initial_state goal_states fuel m = Run.done (false, m')) (s : S) :
    (∃ n ∈ m'.nodes, n.state = s) ↔ Reachable P initial_state s := by
  obtain ⟨frontier, hfr, hs⟩ := entry_points_search P initial_state goal_states fuel m _ h
  obtain ⟨nodes, hloop, hm⟩ :=
    (search_done_iff P initial_state goal_states frontier fuel m m' false).mp hs
  obtain ⟨st, hinv, hstep⟩ := searchLoop_done P goal_states
    (Inv P initial_state goal_states)
    (fun st st' => Inv_step P initial_state goal_states st st') fuel _ false nodes
    (Inv_init P initial_state goal_states frontier hfr) hloop
  obtain ⟨hc, hnodes⟩ := searchStep_exit_false P goal_states st nodes hstep
  subst hm
  subst hnodes
  constructor
  · rintro ⟨n, hn, rfl⟩
    exact hinv.reach_nodes n hn
  · intro hreach
    exact Inv_exhausted P initial_state goal_states st hinv hc s hreach

/-- Instance of C20 on the search of `ExhaustiveSearchTest`: depth-first from
9 on the cyclic grid with no goal; state 7 is in the history and
reachable. -/
theorem failed_search_history_is_reachable_set_witness :
    searchDepthFirst SimpleCyclesProblem 9 [] 13 Members.fresh =
      Run.done (false, (⟨false, [⟨9, 0, TestActions.start_state⟩, ⟨10, 0, TestActions.right⟩,
        ⟨5, 1, TestActions.up⟩, ⟨6, 2, TestActions.right⟩, ⟨7, 3, TestActions.right⟩,
        ⟨11, 4, TestActions.down⟩, ⟨8, 5, TestActions.left⟩, ⟨4, 6, TestActions.up⟩,
        ⟨1, 7, TestActions.up⟩, ⟨2, 8, TestActions.right⟩, ⟨3, 9, TestActions.right⟩,
        ⟨3, 2, TestActions.up⟩, ⟨8, 0, TestActions.left⟩]⟩ : Members Int TestActions)) ∧
    ((∃ n ∈ (⟨false, [⟨9, 0, TestActions.start_state⟩, ⟨10, 0, TestActions.right⟩,
        ⟨5, 1, TestActions.up⟩, ⟨6, 2, TestActions.right⟩, ⟨7, 3, TestActions.right⟩,
        ⟨11, 4, TestActions.down⟩, ⟨8, 5, TestActions.left⟩, ⟨4, 6, TestActions.up⟩,
        ⟨1, 7, TestActions.up⟩, ⟨2, 8, TestActions.right⟩, ⟨3, 9, TestActions.right⟩,
        ⟨3, 2, TestActions.up⟩, ⟨8, 0, TestActions.left⟩]⟩ : Members Int TestActions).nodes, n.state = 7) ↔
      Reachable SimpleCyclesProblem 9 7) :=
  ⟨by decide,
    failed_search_history_is_reachable_set SimpleCyclesProblem 9 [] 13 Members.fresh
      ⟨false, [⟨9, 0, TestActions.start_state⟩, ⟨10, 0, TestActions.right⟩,
        ⟨5, 1, TestActions.up⟩, ⟨6, 2, TestActions.right⟩, ⟨7, 3, TestActions.right⟩,
        ⟨11, 4, TestActions.down⟩, ⟨8, 5, TestActions.left⟩, ⟨4, 6, TestActions.up⟩,
        ⟨1, 7, TestActions.up⟩, ⟨2, 8, TestActions.right⟩, ⟨3, 9, TestActions.right⟩,
        ⟨3, 2, TestActions.up⟩, ⟨8, 0, TestActions.left⟩]⟩ (Or.inl (by decide)) 7⟩

/-- C19 fails on the source: in the search of `ExhaustiveSearchTest`
(depth-first from 9 on the cyclic grid, no goal) the history has 13 entries
for 11 states; states 3 and 8 are examined twice. -/
theorem exhaustive_search_examines_state_twice :
    searchDepthFirst SimpleCyclesProblem 9 [] 13 Members.fresh =
      Run.done (false, (⟨false, [⟨9, 0, TestActions.start_state⟩, ⟨10, 0, TestActions.right⟩,
        ⟨5, 1, TestActions.up⟩, ⟨6, 2, TestActions.right⟩, ⟨7, 3, TestActions.right⟩,
        ⟨11, 4, TestActions.down⟩, ⟨8, 5, TestActions.left⟩, ⟨4, 6, TestActions.up⟩,
        ⟨1, 7, TestActions.up⟩, ⟨2, 8, TestActions.right⟩, ⟨3, 9, TestActions.right⟩,
        ⟨3, 2, TestActions.up⟩, ⟨8, 0, TestActions.left⟩]⟩ : Members Int TestActions)) ∧
    ¬ (([⟨9, 0, TestActions.start_state⟩, ⟨10, 0, TestActions.right⟩,
        ⟨5, 1, TestActions.up⟩, ⟨6, 2, TestActions.right⟩, ⟨7, 3, TestActions.right⟩,
        ⟨11, 4, TestActions.down⟩, ⟨8, 5, TestActions.left⟩, ⟨4, 6, TestActions.up⟩,
        ⟨1, 7, TestActions.up⟩, ⟨2, 8, TestActions.right⟩, ⟨3, 9, TestActions.right⟩,
        ⟨3, 2, TestActions.up⟩, ⟨8, 0, TestActions.left⟩] : List (Node Int TestActions)).map Node.state).Nodup := by
  decide

end MoreClaims

section ScenarioClaims

/-- C17: on the cyclic grid of 11 states, `searchDepthFirst` from state 9 with
goals `{1, 6}` returns true, with `path() == [9, 10, 5, 6]` and
`solution() == [right, up, right]`; three loop iterations are enough. -/
theorem cycles_depth_first_from_9 (fuel k : Nat) :
    searchDepthFirst SimpleCyclesProblem 9 [1, 6] (fuel + 3) Members.fresh =
      Run.done (true, (⟨true, [⟨9, 0, TestActions.start_state⟩, ⟨10, 0, TestActions.right⟩,
        ⟨5, 1, TestActions.up⟩, ⟨6, 2, TestActions.right⟩]⟩ : Members Int TestActions)) ∧
    path (⟨true, [⟨9, 0, TestActions.start_state⟩, ⟨10, 0, TestActions.right⟩,
        ⟨5, 1, TestActions.up⟩, ⟨6, 2, TestActions.right⟩]⟩ : Members Int TestActions) (k + 3) = Run.done [9, 10, 5, 6] ∧
    solution SimpleCyclesProblem (⟨true, [⟨9, 0, TestActions.start_state⟩, ⟨10, 0, TestActions.right⟩,
        ⟨5, 1, TestActions.up⟩, ⟨6, 2, TestActions.right⟩]⟩ : Members Int TestActions) (k + 3) =
      Run.done [TestActions.right, TestActions.up, TestActions.right] := by
  refine ⟨?_, ?_, ?_⟩
  · exact search_mono SimpleCyclesProblem 9 [1, 6] (Frontier.DepthFirstFrontier []) 3
      Members.fresh _ (by decide) (fuel + 3) (Nat.le_add_left 3 fuel)
  · exact path_mono _ 3 _ (by decide) (k + 3) (Nat.le_add_left 3 k)
  · exact solution_mono SimpleCyclesProblem _ 3 _ (by decide) (k + 3) (Nat.le_add_left 3 k)

/-- C18: on the chain 1-2-3-4-5, `searchBreadthFirst` from state 5 with goals
`{1, 4}` returns true, with `path() == [5, 4]` and `solution() == [left]`;
one loop iteration is enough. -/
theorem chain_breadth_first_from_5 (fuel k : Nat) :
    searchBreadthFirst SimpleProblem 5 [1, 4] (fuel + 1) Members.fresh =
      Run.done (true, (⟨true, [⟨5, 0, TestActions.start_state⟩, ⟨4, 0, TestActions.left⟩]⟩ :
        Members Int TestActions)) ∧
    path (⟨true, [⟨5, 0, TestActions.start_state⟩, ⟨4, 0, TestActions.left⟩]⟩ :
        Members Int TestActions) (k + 1) = Run.done [5, 4] ∧
    solution SimpleProblem (⟨true, [⟨5, 0, TestActions.start_state⟩, ⟨4, 0, TestActions.left⟩]⟩ :
        Members Int TestActions) (k + 1) = Run.done [TestActions.left] := by
  refine ⟨?_, ?_, ?_⟩
  · exact search_mono SimpleProblem 5 [1, 4] (Frontier.BreadthFirstFrontier []) 1
      Members.fresh _ (by decide) (fuel + 1) (Nat.le_add_left 1 fuel)
  · exact path_mono _ 1 _ (by decide) (k + 1) (Nat.le_add_left 1 k)
  · exact solution_mono SimpleProblem _ 1 _ (by decide) (k + 1) (Nat.le_add_left 1 k)

end ScenarioClaims

/-! ## Safety of the backward walks and legality of the solution -/

section WalkLemmas

variable {S A : Type}

theorem pathWalk_fault_mono (nodes : List (Node S A)) (fuel index : Nat) (the_path : List S)
    (h : pathWalk nodes fuel index the_path = Run.fault) (fuel' : Nat) (hle : fuel ≤ fuel') :
    pathWalk nodes fuel' index the_path = Run.fault := by
  induction fuel generalizing index the_path fuel' with
  | zero =>
    unfold pathWalk at h ⊢
    by_cases hpos : index > 0
    · simp [hpos] at h
    · simp only [hpos, if_false] at h ⊢
      exact h
  | succ fuel ih =>
    obtain ⟨fuel'', rfl⟩ : ∃ fuel'', fuel' = fuel'' + 1 := ⟨fuel' - 1, by omega⟩
    unfold pathWalk at h ⊢
    by_cases hpos : index > 0
    · simp only [hpos, if_true] at h ⊢
      cases hn : nodes[index]? with
      | none => rfl
      | some n =>
        simp only [hn] at h ⊢
        exact ih _ _ h fuel'' (by omega)
    · simp only [hpos, if_false] at h ⊢
      exact h

theorem solutionWalk_fault_mono [DecidableEq A] (start_state : A) (nodes : List (Node S A))
    (fuel index : Nat) (the_solution : List A)
    (h : solutionWalk start_state nodes fuel index the_solution = Run.fault) (fuel' : Nat)
    (hle : fuel ≤ fuel') :
    solutionWalk start_state nodes fuel' index the_solution = Run.fault := by
  induction fuel generalizing index the_solution fuel' with
  | zero =>
    unfold solutionWalk at h ⊢
    cases hn : nodes[index]? with
    | none => rfl
    | some n =>
      simp only [hn] at h ⊢
      by_cases ha : n.action ≠ start_state
      · rw [if_pos ha] at h
        simp at h
      · rw [if_neg ha] at h ⊢
        exact h
  | succ fuel ih =>
    obtain ⟨fuel'', rfl⟩ : ∃ fuel'', fuel' = fuel'' + 1 := ⟨fuel' - 1, by omega⟩
    unfold solutionWalk at h ⊢
    cases hn : nodes[index]? with
    | none => rfl
    | some n =>
      simp only [hn] at h ⊢
      by_cases ha : n.action ≠ start_state
      · rw [if_pos ha] at h ⊢
        exact ih _ _ h fuel'' (by omega)
      · rw [if_neg ha] at h ⊢
        exact h

end WalkLemmas

section WalkClaims

variable {S A : Type} [DecidableEq S] [DecidableEq A]

/-- C24: for a Problem whose `actions` never lists `start_state`, after
either search returns true every action of `solution()` is legal where it is
applied: `solution()[i]` is an element of `actions(path()[i])` for every
index `i` of `solution()`. -/
theorem solution_actions_are_legal (P : Problem S A) (initial_state : S)
    (goal_states : List S) (fuel : Nat) (m m' : Members S A)
    (hact : ∀ s, P.start_state ∉ P.actions s)
    (h : searchDepthFirst P initial_state goal_states fuel m = Run.done (true, m') ∨
      searchBreadthFirst P initial_state goal_states fuel m = Run.done (true, m')) :
    ∃ sol pth, (∀ k, m'.nodes.length ≤ k →
        solution P m' k = Run.done sol ∧ path m' k = Run.done pth) ∧
      ∀ i, i < sol.length → ∃ x a, pth[i]? = some x ∧ sol[i]? = some a ∧
        a ∈ P.actions x := by
  obtain ⟨frontier, hfr, hs⟩ := entry_points_search P initial_state goal_states fuel m _ h
  obtain ⟨as, hl, -, hp, hsol⟩ :=
    search_true_walks P initial_state goal_states frontier hfr fuel m m' hs
  refine ⟨as, replay P initial_state as, fun k hk => ⟨hsol hact k hk, hp k hk⟩, ?_⟩
  intro i hi
  obtain ⟨x, -, a, h1, -, h3, h4, -⟩ := replay_getElem P initial_state as hl i hi
  exact ⟨x, a, h1, h3, h4⟩

/-- Instance of C24 on the chain 1-2-3-4-5: depth-first from 1 with goals
`{3, 5}`. -/
theorem solution_actions_are_legal_witness :
    (∀ s, SimpleProblem.start_state ∉ SimpleProblem.actions s) ∧
    searchDepthFirst SimpleProblem 1 [3, 5] 10 Members.fresh =
      Run.done (true, (⟨true, [⟨1, 0, TestActions.start_state⟩, ⟨2, 0, TestActions.right⟩,
        ⟨3, 1, TestActions.right⟩]⟩ : Members Int TestActions)) ∧
    (∃ sol pth, (∀ k, (⟨true, [⟨1, 0, TestActions.start_state⟩, ⟨2, 0, TestActions.right⟩,
        ⟨3, 1, TestActions.right⟩]⟩ : Members Int TestActions).nodes.length ≤ k →
        solution SimpleProblem (⟨true, [⟨1, 0, TestActions.start_state⟩, ⟨2, 0, TestActions.right⟩,
        ⟨3, 1, TestActions.right⟩]⟩ : Members Int TestActions) k = Run.done sol ∧ path (⟨true, [⟨1, 0, TestActions.start_state⟩, ⟨2, 0, TestActions.right⟩,
        ⟨3, 1, TestActions.right⟩]⟩ : Members Int TestActions) k = Run.done pth) ∧
      ∀ i, i < sol.length → ∃ x a, pth[i]? = some x ∧ sol[i]? = some a ∧
        a ∈ SimpleProblem.actions x) :=
  ⟨SimpleProblem_no_start_state, by decide,
    solution_actions_are_legal SimpleProblem 1 [3, 5] 10 Members.fresh (⟨true, [⟨1, 0, TestActions.start_state⟩, ⟨2, 0, TestActions.right⟩,
        ⟨3, 1, TestActions.right⟩]⟩ : Members Int TestActions)
      SimpleProblem_no_start_state (Or.inl (by decide))⟩

/-- C26: after either search returned true, for every Problem, the backward
walks of `solution()` and `path()` read the history inside `[0, nodes.size())`
only and end within `nodes.size()` iterations: entry 0 carries `start_state`,
every later entry has a strictly smaller `parent_index`, both walks produce
a result under a budget of `nodes.size()` iterations, and under no budget do
they read outside the history. -/
theorem backward_walks_are_safe (P : Problem S A) (initial_state : S)
    (goal_states : List S) (fuel : Nat) (m m' : Members S A)
    (h : searchDepthFirst P initial_state goal_states fuel m = Run.done (true, m') ∨
      searchBreadthFirst P initial_state goal_states fuel m = Run.done (true, m')) :
    (∃ sol, solution P m' m'.nodes.length = Run.done sol) ∧
    (∃ pth, path m' m'.nodes.length = Run.done pth) ∧
    (∀ k, solution P m' k ≠ Run.fault ∧ path m' k ≠ Run.fault) ∧
    (∀ n, m'.nodes[0]? = some n → n.action = P.start_state) ∧
    (∀ i n, 0 < i → m'.nodes[i]? = some n → n.parent_index < i) := by
  obtain ⟨frontier, hfr, hs⟩ := entry_points_search P initial_state goal_states fuel m _ h
  obtain ⟨hsf, hok, st, x, rest, -, -, -, hnodes⟩ :=
    search_true_final P initial_state goal_states frontier hfr fuel m m' hs
  obtain ⟨as, -, -, hp, -⟩ :=
    search_true_walks P initial_state goal_states frontier hfr fuel m m' hs
  have hlen : m'.nodes.length = st.nodes.length + 1 := by simp [hnodes]
  have hsol : ∃ sol, solution P m' m'.nodes.length = Run.done sol := by
    unfold solution
    simp only [hsf, Bool.not_true, Bool.false_eq_true, if_false]
    exact solutionWalk_done P initial_state m'.nodes hok _ (by omega) _ (by omega) []
  have hpth := hp m'.nodes.length (Nat.le_refl _)
  refine ⟨hsol, ⟨_, hpth⟩, ?_, ?_, ?_⟩
  · intro k
    obtain ⟨sol, hsol⟩ := hsol
    constructor
    · intro hf
      rcases Nat.le_total k m'.nodes.length with hle | hle
      · unfold solution at hf hsol
        simp only [hsf, Bool.not_true, Bool.false_eq_true, if_false] at hf hsol
        rw [solutionWalk_fault_mono _ _ _ _ _ hf _ hle] at hsol
        simp at hsol
      · rw [solution_mono P m' _ sol hsol k hle] at hf
        simp at hf
    · intro hf
      rcases Nat.le_total k m'.nodes.length with hle | hle
      · unfold path at hf hpth
        simp only [hsf, Bool.not_true, Bool.false_eq_true, if_false] at hf hpth
        rw [pathWalk_fault_mono _ _ _ _ hf _ hle] at hpth
        simp at hpth
      · rw [hp k hle] at hf
        simp at hf
  · intro n hn
    rw [hok.root] at hn
    cases hn
    rfl
  · intro i n hi hn
    exact (hok.hist i n hi hn).1

/-- Instance of C26 on the chain 1-2-3-4-5: depth-first from 1 with goals
`{3, 5}`. -/
theorem backward_walks_are_safe_witness :
    searchDepthFirst SimpleProblem 1 [3, 5] 10 Members.fresh =
      Run.done (true, (⟨true, [⟨1, 0, TestActions.start_state⟩, ⟨2, 0, TestActions.right⟩,
        ⟨3, 1, TestActions.right⟩]⟩ : Members Int TestActions)) ∧
    ((∃ sol, solution SimpleProblem (⟨true, [⟨1, 0, TestActions.start_state⟩, ⟨2, 0, TestActions.right⟩,
        ⟨3, 1, TestActions.right⟩]⟩ : Members Int TestActions) (⟨true, [⟨1, 0, TestActions.start_state⟩, ⟨2, 0, TestActions.right⟩,
        ⟨3, 1, TestActions.right⟩]⟩ : Members Int TestActions).nodes.length = Run.done sol) ∧
    (∃ pth, path (⟨true, [⟨1, 0, TestActions.start_state⟩, ⟨2, 0, TestActions.right⟩,
        ⟨3, 1, TestActions.right⟩]⟩ : Members Int TestActions) (⟨true, [⟨1, 0, TestActions.start_state⟩, ⟨2, 0, TestActions.right⟩,
        ⟨3, 1, TestActions.right⟩]⟩ : Members Int TestActions).nodes.length = Run.done pth) ∧
    (∀ k, solution SimpleProblem (⟨true, [⟨1, 0, TestActions.start_state⟩, ⟨2, 0, TestActions.right⟩,
        ⟨3, 1, TestActions.right⟩]⟩ : Members Int TestActions) k ≠ Run.fault ∧ path (⟨true, [⟨1, 0, TestActions.start_state⟩, ⟨2, 0, TestActions.right⟩,
        ⟨3, 1, TestActions.right⟩]⟩ : Members Int TestActions) k ≠ Run.fault) ∧
    (∀ n, (⟨true, [⟨1, 0, TestActions.start_state⟩, ⟨2, 0, TestActions.right⟩,
        ⟨3, 1, TestActions.right⟩]⟩ : Members Int TestActions).nodes[0]? = some n → n.action = SimpleProblem.start_state) ∧
    (∀ i n, 0 < i → (⟨true, [⟨1, 0, TestActions.start_state⟩, ⟨2, 0, TestActions.right⟩,
        ⟨3, 1, TestActions.right⟩]⟩ : Members Int TestActions).nodes[i]? = some n → n.parent_index < i)) :=
  ⟨by decide,
    backward_walks_are_safe SimpleProblem 1 [3, 5] 10 Members.fresh (⟨true, [⟨1, 0, TestActions.start_state⟩, ⟨2, 0, TestActions.right⟩,
        ⟨3, 1, TestActions.right⟩]⟩ : Members Int TestActions) (Or.inl (by decide))⟩

end WalkClaims

/-! ## The shape of the expansion history -/

section HistoryLemmas

variable {S A : Type} [DecidableEq S]

/-- A property of the loop state that every completed loop body preserves
holds after any number of loop bodies. -/
theorem loopStateAfter_preserves (P : Problem S A) (goal_states : List S)
    (J : LoopState S A → Prop)
    (hJ : ∀ st st', J st → searchStep P goal_states st = Step.iterate st' → J st')
    (n : Nat) (st st' : LoopState S A) (h0 : J st)
    (h : loopStateAfter P goal_states n st = some st') : J st' := by
  induction n generalizing st with
  | zero =>
    simp only [loopStateAfter, Option.some.injEq] at h
    subst h
    exact h0
  | succ n ih =>
    unfold loopStateAfter at h
    cases hstep : searchStep P goal_states st with
    | exit b nodes => simp [hstep] at h
    | fault => simp [hstep] at h
    | iterate mid =>
      simp only [hstep] at h
      exact ih mid (hJ st mid h0 hstep) h

theorem loopStateAfter_length (P : Problem S A) (goal_states : List S) (n : Nat)
    (st st' : LoopState S A) (h : loopStateAfter P goal_states n st = some st') :
    st'.nodes.length = st.nodes.length + n := by
  induction n generalizing st with
  | zero =>
    simp only [loopStateAfter, Option.some.injEq] at h
    subst h
    rfl
  | succ n ih =>
    unfold loopStateAfter at h
    cases hstep : searchStep P goal_states st with
    | exit b nodes => simp [hstep] at h
    | fault => simp [hstep] at h
    | iterate mid =>
      simp only [hstep] at h
      obtain ⟨x, rest, f', -, -, -, -, hnodes, -, -⟩ :=
        searchStep_continue P goal_states st mid hstep
      rw [ih mid h, hnodes]
      simp only [List.length_append, List.length_singleton]
      omega

omit [DecidableEq S] in
/-- The history of a loop state is empty or well formed. -/
theorem Inv_histOK (P : Problem S A) (initial_state : S) (goal_states : List S)
    (st : LoopState S A) (hinv : Inv P initial_state goal_states st) :
    st.nodes = [] ∨ HistOK P initial_state st.nodes := by
  rcases hinv.root with ⟨hnil, -⟩ | hr
  · exact Or.inl hnil
  · exact Or.inr ⟨hr, hinv.hist⟩

omit [DecidableEq S] in
/-- What a history that is empty or well formed says entry by entry. -/
theorem HistOK_links (P : Problem S A) (initial_state : S) (nodes : List (Node S A))
    (h : nodes = [] ∨ HistOK P initial_state nodes) :
    (∀ n0, nodes[0]? = some n0 → n0 = rootNode P initial_state) ∧
      ∀ i n, 1 ≤ i → nodes[i]? = some n → 0 ≤ n.parent_index ∧ n.parent_index < i := by
  rcases h with hnil | hok
  · subst hnil
    constructor
    · intro n0 hn
      simp at hn
    · intro i n _ hn
      simp at hn
  · constructor
    · intro n0 hn
      rw [hok.root] at hn
      exact (Option.some.inj hn).symm
    · intro i n hi hn
      exact ⟨Nat.zero_le _, (hok.hist i n hi hn).1⟩

/-- The history that `search` leaves behind when it returns is empty or well
formed. -/
theorem search_done_histOK (P : Problem S A) (initial_state : S) (goal_states : List S)
    (frontier : Frontier (Node S A)) (hfr : frontier.container = []) (fuel : Nat)
    (m m' : Members S A) (b : Bool)
    (h : search P initial_state goal_states frontier fuel m = Run.done (b, m')) :
    m'.nodes = [] ∨ HistOK P initial_state m'.nodes := by
  cases b with
  | true =>
    exact Or.inr (search_true_final P initial_state goal_states frontier hfr fuel m m' h).2.1
  | false =>
    obtain ⟨nodes, hloop, hm⟩ :=
      (search_done_iff P initial_state goal_states frontier fuel m m' false).mp h
    obtain ⟨st, hinv, hstep⟩ := searchLoop_done P goal_states
      (Inv P initial_state goal_states)
      (fun st st' => Inv_step P initial_state goal_states st st') fuel _ false nodes
      (Inv_init P initial_state goal_states frontier hfr) hloop
    obtain ⟨-, hnodes⟩ := searchStep_exit_false P goal_states st nodes hstep
    subst hm
    subst hnodes
    exact Inv_histOK P initial_state goal_states st hinv

/-- One completed loop body on a `BreadthFirstFrontier`: the front node moves
to the history and the added successors are appended to the queue. -/
theorem searchStep_bfs (P : Problem S A) (goal_states : List S) (st st' : LoopState S A)
    (c : List (Node S A)) (hc : st.frontier = Frontier.BreadthFirstFrontier c)
    (h : searchStep P goal_states st = Step.iterate st') :
    ∃ x rest, c = x :: rest ∧ x.state ∉ goal_states ∧ st'.nodes = st.nodes ++ [x] ∧
      st'.frontier = Frontier.BreadthFirstFrontier
        (rest ++ keptSuccessors x.state (expand P x.state st.nodes.length) st.explored) ∧
      st'.explored = (if (keptSuccessors x.state (expand P x.state st.nodes.length)
        st.explored).isEmpty then st.explored else List.insert x.state st.explored) := by
  obtain ⟨x, rest, f', hxr, hg, hpop, -, hnodes, hfr, hex⟩ :=
    searchStep_continue P goal_states st st' h
  have hcx : c = x :: rest := by
    rw [hc] at hxr
    exact hxr
  subst hcx
  have hf' : f' = Frontier.BreadthFirstFrontier rest := by
    rw [hc] at hpop
    simp only [Frontier.pop, Option.some.injEq] at hpop
    exact hpop.symm
  subst hf'
  rw [Frontier_container_foldl_add_bfs] at hfr
  exact ⟨x, rest, rfl, hg, hnodes, hfr, hex⟩

/-- One completed loop body on a `DepthFirstFrontier`: the top node moves to
the history and the added successors are pushed, the last added on top. -/
theorem searchStep_dfs (P : Problem S A) (goal_states : List S) (st st' : LoopState S A)
    (c : List (Node S A)) (hc : st.frontier = Frontier.DepthFirstFrontier c)
    (h : searchStep P goal_states st = Step.iterate st') :
    ∃ x rest, c = x :: rest ∧ x.state ∉ goal_states ∧ st'.nodes = st.nodes ++ [x] ∧
      st'.frontier = Frontier.DepthFirstFrontier
        ((keptSuccessors x.state (expand P x.state st.nodes.length) st.explored).reverse ++
          rest) ∧
      st'.explored = (if (keptSuccessors x.state (expand P x.state st.nodes.length)
        st.explored).isEmpty then st.explored else List.insert x.state st.explored) := by
  obtain ⟨x, rest, f', hxr, hg, hpop, -, hnodes, hfr, hex⟩ :=
    searchStep_continue P goal_states st st' h
  have hcx : c = x :: rest := by
    rw [hc] at hxr
    exact hxr
  subst hcx
  have hf' : f' = Frontier.DepthFirstFrontier rest := by
    rw [hc] at hpop
    simp only [Frontier.pop, Option.some.injEq] at hpop
    exact hpop.symm
  subst hf'
  rw [Frontier_container_foldl_add_dfs] at hfr
  exact ⟨x, rest, rfl, hg, hnodes, hfr, hex⟩

omit [DecidableEq S] in
/-- In a history that is empty or well formed and whose parent indices never
decrease, every entry has a depth and depths never decrease. -/
theorem depth_nondecreasing_of_sorted (P : Problem S A) (initial_state : S)
    (nodes : List (Node S A)) (h : nodes = [] ∨ HistOK P initial_state nodes)
    (hsorted : (nodes.map Node.parent_index).Pairwise (· ≤ ·)) :
    (∀ i, i < nodes.length → ∃ d, HasDepth nodes i d) ∧
      ∀ i j di dj, i ≤ j → HasDepth nodes i di → HasDepth nodes j dj → di ≤ dj := by
  constructor
  · intro i hi
    rcases h with hnil | hok
    · rw [hnil] at hi
      simp at hi
    · obtain ⟨ss, as, ht⟩ := Trace_exists P initial_state nodes hok i hi
      exact ⟨as.length, ss, as, ht, rfl⟩
  · rintro i j di dj hij ⟨ssi, asi, hti, rfl⟩ ⟨ssj, asj, htj, rfl⟩
    exact Trace_depth_mono nodes hsorted j ssj asj htj i ssi asi hij hti

omit [DecidableEq S] in
theorem BInv_nodes_sorted (P : Problem S A) (st : LoopState S A) (hb : BInv P st) :
    (st.nodes.map Node.parent_index).Pairwise (· ≤ ·) := by
  have := hb.sorted
  rw [List.map_append, List.pairwise_append] at this
  exact this.1

omit [DecidableEq S] in
theorem BInv_nodes_snoc_sorted (P : Problem S A) (st : LoopState S A) (hb : BInv P st)
    (g : Node S A) (rest : List (Node S A)) (hxr : st.frontier.container = g :: rest) :
    ((st.nodes ++ [g]).map Node.parent_index).Pairwise (· ≤ ·) := by
  have hsplit : (st.nodes ++ st.frontier.container).map Node.parent_index =
      (st.nodes ++ [g]).map Node.parent_index ++ rest.map Node.parent_index := by
    rw [hxr]
    simp
  have := hb.sorted
  rw [hsplit, List.pairwise_append] at this
  exact this.1

omit [DecidableEq S] in
theorem Frontier_next_eq_head {N : Type} (f : Frontier N) : f.next = f.container.head? := by
  cases f <;> rfl

/-- The successor added last by the `for` loop of `search` is followed, in
the order of `successors`, only by successors whose state is in the explored
set once `current_state` has been inserted. -/
theorem keptSuccessors_getLast (current_state : S) (succs : List (Node S A)) (e : List S)
    (k : Node S A) (hk : (keptSuccessors current_state succs e).getLast? = some k) :
    ∃ pre post, succs = pre ++ k :: post ∧
      ∀ t ∈ post, t.state ∈ List.insert current_state e := by
  induction succs generalizing e with
  | nil => simp [keptSuccessors] at hk
  | cons s rest ih =>
    by_cases h : s.state ∈ e
    · have hkept : keptSuccessors current_state (s :: rest) e =
          keptSuccessors current_state rest e := by
        simp [keptSuccessors, h]
      rw [hkept] at hk
      obtain ⟨pre, post, hsplit, hpost⟩ := ih e hk
      exact ⟨s :: pre, post, by rw [hsplit]; rfl, hpost⟩
    · have hkept : keptSuccessors current_state (s :: rest) e =
          s :: keptSuccessors current_state rest (List.insert current_state e) := by
        simp [keptSuccessors, h]
      rw [hkept] at hk
      have hidem : List.insert current_state (List.insert current_state e) =
          List.insert current_state e :=
        List.insert_of_mem (List.mem_insert_self _ _)
      cases hl : keptSuccessors current_state rest (List.insert current_state e) with
      | nil =>
        rw [hl] at hk
        simp only [List.getLast?_singleton, Option.some.injEq] at hk
        subst hk
        refine ⟨[], rest, rfl, ?_⟩
        intro t ht
        rcases keptSuccessors_or_explored current_state rest
          (List.insert current_state e) t ht with h1 | h1 | h1
        · rw [hl] at h1
          simp at h1
        · exact h1
        · rw [h1]
          exact List.mem_insert_self _ _
      | cons y ys =>
        rw [hl, List.getLast?_cons_cons] at hk
        rw [← hl] at hk
        obtain ⟨pre, post, hsplit, hpost⟩ := ih (List.insert current_state e) hk
        rw [hidem] at hpost
        exact ⟨s :: pre, post, by rw [hsplit]; rfl, hpost⟩

end HistoryLemmas

section HistoryClaims

variable {S A : Type} [DecidableEq S]

/-- C21: at every point during and after a `search` started on a new
frontier, entry 0 of the expansion history, when present, is
`{initial_state, 0, start_state}`, and every entry at an index `i >= 1` has
`0 <= parent_index < i`. -/
theorem history_parents_point_back (P : Problem S A) (initial_state : S)
    (goal_states : List S) (frontier : Frontier (Node S A))
    (hfr : frontier.container = []) :
    (∀ n st, loopStateAfter P goal_states n (searchInit P initial_state frontier) = some st →
      (∀ n0, st.nodes[0]? = some n0 → n0 = rootNode P initial_state) ∧
        ∀ i e, 1 ≤ i → st.nodes[i]? = some e → 0 ≤ e.parent_index ∧ e.parent_index < i) ∧
    (∀ fuel m b m',
      search P initial_state goal_states frontier fuel m = Run.done (b, m') →
      (∀ n0, m'.nodes[0]? = some n0 → n0 = rootNode P initial_state) ∧
        ∀ i e, 1 ≤ i → m'.nodes[i]? = some e → 0 ≤ e.parent_index ∧ e.parent_index < i) := by
  constructor
  · intro n st hst
    have hinv : Inv P initial_state goal_states st :=
      loopStateAfter_preserves P goal_states (Inv P initial_state goal_states)
        (fun st st' => Inv_step P initial_state goal_states st st') n _ st
        (Inv_init P initial_state goal_states frontier hfr) hst
    exact HistOK_links P initial_state st.nodes
      (Inv_histOK P initial_state goal_states st hinv)
  · intro fuel m b m' h
    exact HistOK_links P initial_state m'.nodes
      (search_done_histOK P initial_state goal_states frontier hfr fuel m m' b h)

/-- Instance of C21 on the cyclic grid of 11 states: depth-first from 9 with
no goal. -/
theorem history_parents_point_back_witness :
    (Frontier.DepthFirstFrontier ([] : List (Node Int TestActions))).container = [] ∧
    ((∀ n st, loopStateAfter SimpleCyclesProblem [] n
        (searchInit SimpleCyclesProblem 9 (Frontier.DepthFirstFrontier [])) = some st →
      (∀ n0, st.nodes[0]? = some n0 → n0 = rootNode SimpleCyclesProblem 9) ∧
        ∀ i e, 1 ≤ i → st.nodes[i]? = some e → 0 ≤ e.parent_index ∧ e.parent_index < i) ∧
    (∀ fuel m b m',
      search SimpleCyclesProblem 9 [] (Frontier.DepthFirstFrontier []) fuel m =
        Run.done (b, m') →
      (∀ n0, m'.nodes[0]? = some n0 → n0 = rootNode SimpleCyclesProblem 9) ∧
        ∀ i e, 1 ≤ i → m'.nodes[i]? = some e →
          0 ≤ e.parent_index ∧ e.parent_index < i)) :=
  ⟨rfl, history_parents_point_back SimpleCyclesProblem 9 [] (Frontier.DepthFirstFrontier [])
    rfl⟩

/-- C23: in `searchBreadthFirst`, for every Problem, the depth of a history
entry (the number of parent links followed from it to reach index 0) is
defined for every entry and never decreases along the expansion history, in
the history left on return and in the history after any number of loop
bodies. -/
theorem breadth_first_depth_nondecreasing (P : Problem S A) (initial_state : S)
    (goal_states : List S) (fuel : Nat) (m m' : Members S A) (b : Bool)
    (h : searchBreadthFirst P initial_state goal_states fuel m = Run.done (b, m')) :
    ((∀ i, i < m'.nodes.length → ∃ d, HasDepth m'.nodes i d) ∧
      ∀ i j di dj, i ≤ j → HasDepth m'.nodes i di → HasDepth m'.nodes j dj → di ≤ dj) ∧
    (∀ n st, loopStateAfter P goal_states n
        (searchInit P initial_state (Frontier.BreadthFirstFrontier [])) = some st →
      (∀ i, i < st.nodes.length → ∃ d, HasDepth st.nodes i d) ∧
        ∀ i j di dj, i ≤ j → HasDepth st.nodes i di → HasDepth st.nodes j dj → di ≤ dj) := by
  have hstepJ : ∀ st st' : LoopState S A,
      (Inv P initial_state goal_states st ∧ BInv P st) →
      searchStep P goal_states st = Step.iterate st' →
      (Inv P initial_state goal_states st' ∧ BInv P st') := fun st st' hJ hs =>
    ⟨Inv_step P initial_state goal_states st st' hJ.1 hs,
      BInv_step P initial_state goal_states st st' hJ.1 hJ.2 hs⟩
  have hinit : Inv P initial_state goal_states
      (searchInit P initial_state (Frontier.BreadthFirstFrontier [])) ∧
      BInv P (searchInit P initial_state (Frontier.BreadthFirstFrontier [])) :=
    ⟨Inv_init P initial_state goal_states (Frontier.BreadthFirstFrontier []) rfl,
      BInv_init P initial_state⟩
  constructor
  · unfold searchBreadthFirst at h
    obtain ⟨nodes, hloop, hm⟩ := (search_done_iff P initial_state goal_states _ fuel m m'
      b).mp h
    obtain ⟨st, ⟨hinv, hb⟩, hstep⟩ := searchLoop_done P goal_states
      (fun st => Inv P initial_state goal_states st ∧ BInv P st) hstepJ fuel _ b nodes
      hinit hloop
    subst hm
    cases b with
    | true =>
      obtain ⟨g, rest, hxr, -, hnodes⟩ := searchStep_exit_true P goal_states st nodes hstep
      subst hnodes
      exact depth_nondecreasing_of_sorted P initial_state _
        (Or.inr (Inv_histOK_snoc P initial_state goal_states st hinv g rest hxr))
        (BInv_nodes_snoc_sorted P st hb g rest hxr)
    | false =>
      obtain ⟨-, hnodes⟩ := searchStep_exit_false P goal_states st nodes hstep
      subst hnodes
      exact depth_nondecreasing_of_sorted P initial_state _
        (Inv_histOK P initial_state goal_states st hinv) (BInv_nodes_sorted P st hb)
  · intro n st hst
    obtain ⟨hinv, hb⟩ := loopStateAfter_preserves P goal_states
      (fun st => Inv P initial_state goal_states st ∧ BInv P st) hstepJ n _ st hinit hst
    exact depth_nondecreasing_of_sorted P initial_state _
      (Inv_histOK P initial_state goal_states st hinv) (BInv_nodes_sorted P st hb)

/-- Instance of C23 on the cyclic grid of 11 states: breadth-first from 9
with goals `{1, 6}`; the eight entries have depths 0,1,1,2,2,2,3,3. -/
theorem breadth_first_depth_nondecreasing_witness :
    searchBreadthFirst SimpleCyclesProblem 9 [1, 6] 7 Members.fresh =
      Run.done (true, (⟨true, [⟨9, 0, TestActions.start_state⟩, ⟨8, 0, TestActions.left⟩,
        ⟨10, 0, TestActions.right⟩, ⟨11, 1, TestActions.down⟩, ⟨4, 1, TestActions.up⟩,
        ⟨5, 2, TestActions.up⟩, ⟨7, 3, TestActions.right⟩, ⟨1, 4, TestActions.up⟩]⟩ :
          Members Int TestActions)) ∧
    (((∀ i, i < (⟨true, [⟨9, 0, TestActions.start_state⟩, ⟨8, 0, TestActions.left⟩,
        ⟨10, 0, TestActions.right⟩, ⟨11, 1, TestActions.down⟩, ⟨4, 1, TestActions.up⟩,
        ⟨5, 2, TestActions.up⟩, ⟨7, 3, TestActions.right⟩, ⟨1, 4, TestActions.up⟩]⟩ :
          Members Int TestActions).nodes.length → ∃ d, HasDepth (⟨true, [⟨9, 0, TestActions.start_state⟩, ⟨8, 0, TestActions.left⟩,
        ⟨10, 0, TestActions.right⟩, ⟨11, 1, TestActions.down⟩, ⟨4, 1, TestActions.up⟩,
        ⟨5, 2, TestActions.up⟩, ⟨7, 3, TestActions.right⟩, ⟨1, 4, TestActions.up⟩]⟩ :
          Members Int TestActions).nodes i d) ∧
      ∀ i j di dj, i ≤ j → HasDepth (⟨true, [⟨9, 0, TestActions.start_state⟩, ⟨8, 0, TestActions.left⟩,
        ⟨10, 0, TestActions.right⟩, ⟨11, 1, TestActions.down⟩, ⟨4, 1, TestActions.up⟩,
        ⟨5, 2, TestActions.up⟩, ⟨7, 3, TestActions.right⟩, ⟨1, 4, TestActions.up⟩]⟩ :
          Members Int TestActions).nodes i di → HasDepth (⟨true, [⟨9, 0, TestActions.start_state⟩, ⟨8, 0, TestActions.left⟩,
        ⟨10, 0, TestActions.right⟩, ⟨11, 1, TestActions.down⟩, ⟨4, 1, TestActions.up⟩,
        ⟨5, 2, TestActions.up⟩, ⟨7, 3, TestActions.right⟩, ⟨1, 4, TestActions.up⟩]⟩ :
          Members Int TestActions).nodes j dj → di ≤ dj) ∧
    (∀ n st, loopStateAfter SimpleCyclesProblem [1, 6] n
        (searchInit SimpleCyclesProblem 9 (Frontier.BreadthFirstFrontier [])) = some st →
      (∀ i, i < st.nodes.length → ∃ d, HasDepth st.nodes i d) ∧
        ∀ i j di dj, i ≤ j → HasDepth st.nodes i di → HasDepth st.nodes j dj →
          di ≤ dj)) :=
  ⟨by decide,
    breadth_first_depth_nondecreasing SimpleCyclesProblem 9 [1, 6] 7 Members.fresh (⟨true, [⟨9, 0, TestActions.start_state⟩, ⟨8, 0, TestActions.left⟩,
        ⟨10, 0, TestActions.right⟩, ⟨11, 1, TestActions.down⟩, ⟨4, 1, TestActions.up⟩,
        ⟨5, 2, TestActions.up⟩, ⟨7, 3, TestActions.right⟩, ⟨1, 4, TestActions.up⟩]⟩ :
          Members Int TestActions) true
      (by decide)⟩

/-- C22: in `searchDepthFirst`, when the loop body that expands the non-goal
node at history index `n` adds at least one successor, the node taken next
(history index `n + 1`) is the successor added last, the one for the last
action in `actions()` order whose result state was not in the explored set,
and its `parent_index` is `n`; when it adds none, the node taken next is the
top of the remaining stack, the most recently added node still pending.  On
the cyclic grid from state 8 with goals `{3}` the states are examined in
the order 8,9,10,5,6,7,11,3 and `path() == [8, 9, 10, 5, 3]`. -/
theorem depth_first_next_entry (P : Problem S A) (initial_state : S) (goal_states : List S)
    (n : Nat) (st0 st1 : LoopState S A)
    (h0 : loopStateAfter P goal_states n
      (searchInit P initial_state (Frontier.DepthFirstFrontier [])) = some st0)
    (hstep : searchStep P goal_states st0 = Step.iterate st1) (fuel k : Nat) :
    (∃ x rest, st0.frontier = Frontier.DepthFirstFrontier (x :: rest) ∧
      st1.nodes[n]? = some x ∧ st1.nodes.length = n + 1 ∧ x.state ∉ goal_states ∧
      (∀ kl, (keptSuccessors x.state (expand P x.state n) st0.explored).getLast? = some kl →
        st1.frontier.next = some kl ∧ kl.parent_index = n ∧ kl.state ∉ st0.explored ∧
        ∃ pre post, expand P x.state n = pre ++ kl :: post ∧
          ∀ t ∈ post, t.state ∈ List.insert x.state st0.explored) ∧
      (keptSuccessors x.state (expand P x.state n) st0.explored = [] →
        st1.frontier.next = rest.head?) ∧
      (∀ nxt, st1.frontier.next = some nxt →
        (∀ st2, searchStep P goal_states st1 = Step.iterate st2 →
          st2.nodes[n + 1]? = some nxt) ∧
        (∀ nodes, searchStep P goal_states st1 = Step.exit true nodes →
          nodes[n + 1]? = some nxt))) ∧
    (searchDepthFirst SimpleCyclesProblem 8 [3] (fuel + 7) Members.fresh =
        Run.done (true, (⟨true, [⟨8, 0, TestActions.start_state⟩, ⟨9, 0, TestActions.right⟩,
        ⟨10, 1, TestActions.right⟩, ⟨5, 2, TestActions.up⟩, ⟨6, 3, TestActions.right⟩,
        ⟨7, 4, TestActions.right⟩, ⟨11, 5, TestActions.down⟩, ⟨3, 3, TestActions.up⟩]⟩ :
          Members Int TestActions)) ∧
      (⟨true, [⟨8, 0, TestActions.start_state⟩, ⟨9, 0, TestActions.right⟩,
        ⟨10, 1, TestActions.right⟩, ⟨5, 2, TestActions.up⟩, ⟨6, 3, TestActions.right⟩,
        ⟨7, 4, TestActions.right⟩, ⟨11, 5, TestActions.down⟩, ⟨3, 3, TestActions.up⟩]⟩ :
          Members Int TestActions).nodes.map Node.state = [8, 9, 10, 5, 6, 7, 11, 3] ∧
      path (⟨true, [⟨8, 0, TestActions.start_state⟩, ⟨9, 0, TestActions.right⟩,
        ⟨10, 1, TestActions.right⟩, ⟨5, 2, TestActions.up⟩, ⟨6, 3, TestActions.right⟩,
        ⟨7, 4, TestActions.right⟩, ⟨11, 5, TestActions.down⟩, ⟨3, 3, TestActions.up⟩]⟩ :
          Members Int TestActions) (k + 4) = Run.done [8, 9, 10, 5, 3]) := by
  constructor
  · have hdfs : ∃ c, st0.frontier = Frontier.DepthFirstFrontier c :=
      loopStateAfter_preserves P goal_states
        (fun st => ∃ c, st.frontier = Frontier.DepthFirstFrontier c)
        (fun st st' hJ hs => by
          obtain ⟨c, hc⟩ := hJ
          obtain ⟨x, rest, -, -, -, hfr, -⟩ := searchStep_dfs P goal_states st st' c hc hs
          exact ⟨_, hfr⟩)
        n _ st0 ⟨_, rfl⟩ h0
    have hlen0 : st0.nodes.length = n := by
      have := loopStateAfter_length P goal_states n _ st0 h0
      simpa [searchInit] using this
    obtain ⟨c, hc⟩ := hdfs
    obtain ⟨x, rest, hcx, hg, hnodes, hfr, -⟩ := searchStep_dfs P goal_states st0 st1 c hc hstep
    subst hcx
    rw [hlen0] at hfr
    have hlen1 : st1.nodes.length = n + 1 := by
      rw [hnodes]
      simp [hlen0]
    refine ⟨x, rest, hc, ?_, hlen1, hg, ?_, ?_, ?_⟩
    · rw [hnodes, ← hlen0]
      simp
    · intro kl hkl
      have hmem : kl ∈ keptSuccessors x.state (expand P x.state n) st0.explored :=
        List.mem_of_getLast?_eq_some hkl
      obtain ⟨a, -, hka⟩ := (mem_expand P _ _ kl).mp
        ((keptSuccessors_sublist _ _ _).subset hmem)
      refine ⟨?_, by rw [hka], keptSuccessors_not_explored _ _ _ kl hmem,
        keptSuccessors_getLast _ _ _ kl hkl⟩
      rw [Frontier_next_eq_head, hfr]
      simp only [Frontier.container, List.head?_append, List.head?_reverse, hkl]
      rfl
    · intro hnil
      rw [Frontier_next_eq_head, hfr, hnil]
      rfl
    · intro nxt hnxt
      rw [Frontier_next_eq_head] at hnxt
      constructor
      · intro st2 hs2
        obtain ⟨y, rest', f', hyr, -, -, -, hnodes2, -, -⟩ :=
          searchStep_continue P goal_states st1 st2 hs2
        rw [hyr] at hnxt
        simp only [List.head?_cons, Option.some.injEq] at hnxt
        subst hnxt
        rw [hnodes2, ← hlen1]
        simp
      · intro nodes hs2
        obtain ⟨y, rest', hyr, -, hnodes2⟩ := searchStep_exit_true P goal_states st1 nodes hs2
        rw [hyr] at hnxt
        simp only [List.head?_cons, Option.some.injEq] at hnxt
        subst hnxt
        rw [hnodes2, ← hlen1]
        simp
  · refine ⟨?_, by decide, ?_⟩
    · exact search_mono SimpleCyclesProblem 8 [3] (Frontier.DepthFirstFrontier []) 7
        Members.fresh _ (by decide) (fuel + 7) (Nat.le_add_left 7 fuel)
    · exact path_mono _ 4 _ (by decide) (k + 4) (Nat.le_add_left 4 k)

/-- Instance of C22 on the cyclic grid of 11 states, depth-first from 8 with
goals `{3}`: the first loop body expands state 8 and adds 11, 4 and 9 in
this order; state 9, added last, is on top of the stack. -/
theorem depth_first_next_entry_witness :
    loopStateAfter SimpleCyclesProblem [3] 0 (searchInit SimpleCyclesProblem 8 (Frontier.DepthFirstFrontier [])) = some (searchInit SimpleCyclesProblem 8 (Frontier.DepthFirstFrontier [])) ∧
    searchStep SimpleCyclesProblem [3] (searchInit SimpleCyclesProblem 8 (Frontier.DepthFirstFrontier [])) = Step.iterate (⟨[⟨8, 0, TestActions.start_state⟩], [8],
        Frontier.DepthFirstFrontier [⟨9, 0, TestActions.right⟩, ⟨4, 0, TestActions.up⟩,
          ⟨11, 0, TestActions.down⟩]⟩ : LoopState Int TestActions) ∧
    ((∃ x rest, (searchInit SimpleCyclesProblem 8 (Frontier.DepthFirstFrontier [])).frontier = Frontier.DepthFirstFrontier (x :: rest) ∧
      (⟨[⟨8, 0, TestActions.start_state⟩], [8],
        Frontier.DepthFirstFrontier [⟨9, 0, TestActions.right⟩, ⟨4, 0, TestActions.up⟩,
          ⟨11, 0, TestActions.down⟩]⟩ : LoopState Int TestActions).nodes[0]? = some x ∧ (⟨[⟨8, 0, TestActions.start_state⟩], [8],
        Frontier.DepthFirstFrontier [⟨9, 0, TestActions.right⟩, ⟨4, 0, TestActions.up⟩,
          ⟨11, 0, TestActions.down⟩]⟩ : LoopState Int TestActions).nodes.length = 0 + 1 ∧ x.state ∉ ([3] : List Int) ∧
      (∀ kl, (keptSuccessors x.state (expand SimpleCyclesProblem x.state 0)
          (searchInit SimpleCyclesProblem 8 (Frontier.DepthFirstFrontier [])).explored).getLast? = some kl →
        (⟨[⟨8, 0, TestActions.start_state⟩], [8],
        Frontier.DepthFirstFrontier [⟨9, 0, TestActions.right⟩, ⟨4, 0, TestActions.up⟩,
          ⟨11, 0, TestActions.down⟩]⟩ : LoopState Int TestActions).frontier.next = some kl ∧ kl.parent_index = 0 ∧ kl.state ∉ (searchInit SimpleCyclesProblem 8 (Frontier.DepthFirstFrontier [])).explored ∧
        ∃ pre post, expand SimpleCyclesProblem x.state 0 = pre ++ kl :: post ∧
          ∀ t ∈ post, t.state ∈ List.insert x.state (searchInit SimpleCyclesProblem 8 (Frontier.DepthFirstFrontier [])).explored) ∧
      (keptSuccessors x.state (expand SimpleCyclesProblem x.state 0) (searchInit SimpleCyclesProblem 8 (Frontier.DepthFirstFrontier [])).explored = [] →
        (⟨[⟨8, 0, TestActions.start_state⟩], [8],
        Frontier.DepthFirstFrontier [⟨9, 0, TestActions.right⟩, ⟨4, 0, TestActions.up⟩,
          ⟨11, 0, TestActions.down⟩]⟩ : LoopState Int TestActions).frontier.next = rest.head?) ∧
      (∀ nxt, (⟨[⟨8, 0, TestActions.start_state⟩], [8],
        Frontier.DepthFirstFrontier [⟨9, 0, TestActions.right⟩, ⟨4, 0, TestActions.up⟩,
          ⟨11, 0, TestActions.down⟩]⟩ : LoopState Int TestActions).frontier.next = some nxt →
        (∀ st2, searchStep SimpleCyclesProblem [3] (⟨[⟨8, 0, TestActions.start_state⟩], [8],
        Frontier.DepthFirstFrontier [⟨9, 0, TestActions.right⟩, ⟨4, 0, TestActions.up⟩,
          ⟨11, 0, TestActions.down⟩]⟩ : LoopState Int TestActions) = Step.iterate st2 →
          st2.nodes[0 + 1]? = some nxt) ∧
        (∀ nodes, searchStep SimpleCyclesProblem [3] (⟨[⟨8, 0, TestActions.start_state⟩], [8],
        Frontier.DepthFirstFrontier [⟨9, 0, TestActions.right⟩, ⟨4, 0, TestActions.up⟩,
          ⟨11, 0, TestActions.down⟩]⟩ : LoopState Int TestActions) = Step.exit true nodes →
          nodes[0 + 1]? = some nxt))) ∧
    (searchDepthFirst SimpleCyclesProblem 8 [3] (0 + 7) Members.fresh =
        Run.done (true, (⟨true, [⟨8, 0, TestActions.start_state⟩, ⟨9, 0, TestActions.right⟩,
        ⟨10, 1, TestActions.right⟩, ⟨5, 2, TestActions.up⟩, ⟨6, 3, TestActions.right⟩,
        ⟨7, 4, TestActions.right⟩, ⟨11, 5, TestActions.down⟩, ⟨3, 3, TestActions.up⟩]⟩ :
          Members Int TestActions)) ∧
      (⟨true, [⟨8, 0, TestActions.start_state⟩, ⟨9, 0, TestActions.right⟩,
        ⟨10, 1, TestActions.right⟩, ⟨5, 2, TestActions.up⟩, ⟨6, 3, TestActions.right⟩,
        ⟨7, 4, TestActions.right⟩, ⟨11, 5, TestActions.down⟩, ⟨3, 3, TestActions.up⟩]⟩ :
          Members Int TestActions).nodes.map Node.state = [8, 9, 10, 5, 6, 7, 11, 3] ∧
      path (⟨true, [⟨8, 0, TestActions.start_state⟩, ⟨9, 0, TestActions.right⟩,
        ⟨10, 1, TestActions.right⟩, ⟨5, 2, TestActions.up⟩, ⟨6, 3, TestActions.right⟩,
        ⟨7, 4, TestActions.right⟩, ⟨11, 5, TestActions.down⟩, ⟨3, 3, TestActions.up⟩]⟩ :
          Members Int TestActions) (0 + 4) = Run.done [8, 9, 10, 5, 3])) :=
  ⟨rfl, by rfl,
    depth_first_next_entry SimpleCyclesProblem 8 [3] 0 (searchInit SimpleCyclesProblem 8 (Frontier.DepthFirstFrontier [])) (⟨[⟨8, 0, TestActions.start_state⟩], [8],
        Frontier.DepthFirstFrontier [⟨9, 0, TestActions.right⟩, ⟨4, 0, TestActions.up⟩,
          ⟨11, 0, TestActions.down⟩]⟩ : LoopState Int TestActions) rfl (by rfl) 0 0⟩

end HistoryClaims

/-! ## The returned path visits no state twice -/

section SimplePathLemmas

variable {S A : Type} [DecidableEq S]

omit [DecidableEq S] in
theorem Revisit_append (nodes more : List (Node S A)) (i : Nat) (hi : i < nodes.length) :
    Revisit (nodes ++ more) i ↔ Revisit nodes i := by
  constructor
  · rintro ⟨j, n, n', hj, h1, h2, h3⟩
    rw [List.getElem?_append_left (by omega)] at h1
    rw [List.getElem?_append_left hi] at h2
    exact ⟨j, n, n', hj, h1, h2, h3⟩
  · rintro ⟨j, n, n', hj, h1, h2, h3⟩
    refine ⟨j, n, n', hj, ?_, ?_, h3⟩
    · rw [List.getElem?_append_left (by omega)]
      exact h1
    · rw [List.getElem?_append_left hi]
      exact h2

omit [DecidableEq S] in
/-- Appending a node keeps the history closed under revisits when the node
carries an examined state whenever its parent carries an already examined
one. -/
theorem RevisitClosed_snoc (nodes : List (Node S A)) (x : Node S A)
    (hcl : RevisitClosed nodes)
    (hpar : ∀ j n, 0 < j → nodes[j]? = some n → n.parent_index < j)
    (hx : nodes ≠ [] → x.parent_index < nodes.length)
    (htwin : nodes ≠ [] → Revisit nodes x.parent_index → ∃ n ∈ nodes, n.state = x.state) :
    RevisitClosed (nodes ++ [x]) := by
  intro j n hj hn hrev
  by_cases hlt : j < nodes.length
  · rw [List.getElem?_append_left hlt] at hn
    have hp := hpar j n hj hn
    rw [Revisit_append nodes [x] _ (by omega)] at hrev
    rw [Revisit_append nodes [x] _ hlt]
    exact hcl j n hj hn hrev
  · have hlen : j < (nodes ++ [x]).length := by
      rcases List.getElem?_eq_some_iff.mp hn with ⟨h1, -⟩
      exact h1
    simp only [List.length_append, List.length_singleton] at hlen
    have hjeq : j = nodes.length := by omega
    subst hjeq
    have hne : nodes ≠ [] := by
      intro hnil
      rw [hnil] at hj
      simp at hj
    have hnx : n = x := by
      have : (nodes ++ [x])[nodes.length]? = some x := by simp
      rw [this] at hn
      exact (Option.some.inj hn).symm
    subst hnx
    rw [Revisit_append nodes [n] _ (hx hne)] at hrev
    obtain ⟨t, ht, hts⟩ := htwin hne hrev
    obtain ⟨i, hi⟩ := List.mem_iff_getElem?.mp ht
    have hil : i < nodes.length := by
      rcases List.getElem?_eq_some_iff.mp hi with ⟨h1, -⟩
      exact h1
    refine ⟨i, t, n, hil, ?_, hn, hts.symm⟩
    rw [List.getElem?_append_left hil]
    exact hi

/-- Among the successors that the `for` loop adds, only the first can carry
the state of the node being expanded. -/
theorem keptSuccessors_pairwise (current_state : S) (succs : List (Node S A)) (e : List S) :
    (keptSuccessors current_state succs e).Pairwise (fun _ a => a.state ≠ current_state) := by
  induction succs generalizing e with
  | nil => simp [keptSuccessors]
  | cons s rest ih =>
    by_cases h : s.state ∈ e
    · have hkept : keptSuccessors current_state (s :: rest) e =
          keptSuccessors current_state rest e := by
        simp [keptSuccessors, h]
      rw [hkept]
      exact ih e
    · have hkept : keptSuccessors current_state (s :: rest) e =
          s :: keptSuccessors current_state rest (List.insert current_state e) := by
        simp [keptSuccessors, h]
      rw [hkept, List.pairwise_cons]
      refine ⟨?_, ih _⟩
      intro a ha heq
      have := keptSuccessors_not_explored current_state rest _ a ha
      rw [heq] at this
      exact this (List.mem_insert_self _ _)

omit [DecidableEq S] in
/-- Every state met by the walk from entry `i` is the state of an entry not
later than `i`. -/
theorem Trace_states (P : Problem S A) (initial_state : S) (nodes : List (Node S A))
    (hok : HistOK P initial_state nodes) (i : Nat) (ss : List S) (as : List A)
    (ht : Trace nodes i ss as) :
    ∀ s ∈ ss, ∃ j n, j ≤ i ∧ nodes[j]? = some n ∧ n.state = s := by
  induction ht with
  | root n hn =>
    intro s hs
    simp only [List.mem_singleton] at hs
    exact ⟨0, n, Nat.le_refl _, hn, hs.symm⟩
  | child i n ss as hpos hn _ ih =>
    intro s hs
    rcases List.mem_append.mp hs with hs | hs
    · obtain ⟨j, n', hj, hn', hst⟩ := ih s hs
      have := (hok.hist i n hpos hn).1
      exact ⟨j, n', by omega, hn', hst⟩
    · simp only [List.mem_singleton] at hs
      exact ⟨i, n, Nat.le_refl _, hn, hs.symm⟩

omit [DecidableEq S] in
/-- In a history closed under revisits, the walk from an entry that carries
a state not examined before meets no state twice. -/
theorem Trace_nodup (P : Problem S A) (initial_state : S) (nodes : List (Node S A))
    (hok : HistOK P initial_state nodes) (hcl : RevisitClosed nodes) (i : Nat)
    (ss : List S) (as : List A) (ht : Trace nodes i ss as) (hnr : ¬ Revisit nodes i) :
    ss.Nodup := by
  induction ht with
  | root n hn => simp
  | child i n ss as hpos hn htp ih =>
    have hpar := (hok.hist i n hpos hn).1
    have hnrp : ¬ Revisit nodes n.parent_index := fun hr => hnr (hcl i n hpos hn hr)
    rw [List.nodup_append]
    refine ⟨ih hnrp, by simp, ?_⟩
    intro s hs1 hs2
    simp only [List.mem_singleton] at hs2
    subst hs2
    obtain ⟨j, n', hj, hn', hst⟩ :=
      Trace_states P initial_state nodes hok _ ss as htp n.state hs1
    exact hnr ⟨j, n', n, by omega, hn', hn, hst.symm⟩

theorem DInv_init (P : Problem S A) (initial_state : S) :
    DInv P (searchInit P initial_state (Frontier.DepthFirstFrontier [])) := by
  refine ⟨⟨_, rfl⟩, ?_, ?_, ?_, ?_, ?_⟩
  · simp [searchInit, Frontier.add, Frontier.container]
  · intro f _ n hn
    simp [searchInit] at hn
  · intro i y a hy
    simp [searchInit] at hy
  · rintro f - ⟨j, n, n', -, h1, -, -⟩
    simp [searchInit] at h1
  · intro j n _ hn
    simp [searchInit] at hn

theorem DInv_step (P : Problem S A) (initial_state : S) (goal_states : List S)
    (st st' : LoopState S A) (hinv : Inv P initial_state goal_states st) (hd : DInv P st)
    (h : searchStep P goal_states st = Step.iterate st') : DInv P st' := by
  obtain ⟨c, hc⟩ := hd.dfs
  obtain ⟨x, rest, hcx, -, hnodes, hfr, hex⟩ := searchStep_dfs P goal_states st st' c hc h
  subst hcx
  have hcont : st.frontier.container = x :: rest := by
    rw [hc]
    rfl
  have hcont' : st'.frontier.container =
      (keptSuccessors x.state (expand P x.state st.nodes.length) st.explored).reverse ++
        rest := by
    rw [hfr]
    rfl
  have hkept : ∀ k ∈ keptSuccessors x.state (expand P x.state st.nodes.length) st.explored,
      ∃ a ∈ P.actions x.state, k = ⟨P.result x.state a, st.nodes.length, a⟩ := by
    intro k hk
    exact (mem_expand P _ _ k).mp ((keptSuccessors_sublist _ _ _).subset hk)
  have hkne : ∀ k ∈ keptSuccessors x.state (expand P x.state st.nodes.length) st.explored,
      k.state ∉ st.explored := fun k hk => keptSuccessors_not_explored _ _ _ k hk
  have hlast : (st.nodes ++ [x])[st.nodes.length]? = some x := by simp
  have hxmem : x ∈ st.frontier.container := by
    rw [hcont]
    exact List.mem_cons_self _ _
  have hrestmem : ∀ f ∈ rest, f ∈ st.frontier.container := by
    intro f hf
    rw [hcont]
    exact List.mem_cons_of_mem _ hf
  have hpar : ∀ f ∈ st.frontier.container, st.nodes ≠ [] →
      f.parent_index < st.nodes.length := by
    intro f hf hne
    obtain ⟨p, hp, -, -⟩ := hinv.front hne f hf
    rcases List.getElem?_eq_some_iff.mp hp with ⟨h1, -⟩
    exact h1
  have hrestpar : ∀ f ∈ rest, f.parent_index < st.nodes.length := by
    intro f hf
    by_cases hne : st.nodes = []
    · rcases hinv.root with ⟨-, hroot⟩ | hr
      · rw [hcont] at hroot
        simp only [List.cons.injEq] at hroot
        rw [hroot.2] at hf
        simp at hf
      · rw [hne] at hr
        simp at hr
    · exact hpar f (hrestmem f hf) hne
  have hold : ∀ f ∈ rest, ∀ n, (st.nodes ++ [x])[f.parent_index]? = some n →
      st.nodes[f.parent_index]? = some n := by
    intro f hf n hn
    rw [List.getElem?_append_left (hrestpar f hf)] at hn
    exact hn
  have hE : ∀ s ∈ st.explored, s ∈ st'.explored := by
    intro s hs
    rw [hex]
    split
    · exact hs
    · exact List.mem_insert_of_mem hs
  have hxE : ∀ k ∈ keptSuccessors x.state (expand P x.state st.nodes.length) st.explored,
      x.state ∈ st'.explored := by
    intro k hk
    rw [hex]
    have hne : (keptSuccessors x.state (expand P x.state st.nodes.length)
        st.explored).isEmpty = false := by
      cases hl : keptSuccessors x.state (expand P x.state st.nodes.length) st.explored with
      | nil =>
        rw [hl] at hk
        simp at hk
      | cons y ys => rfl
    rw [hne]
    exact List.mem_insert_self _ _
  have hbelow := hd.below
  rw [hcont, List.pairwise_cons] at hbelow
  refine ⟨⟨_, hfr⟩, ?_, ?_, ?_, ?_, ?_⟩
  · rw [hcont', hnodes, List.pairwise_append]
    refine ⟨?_, ?_, ?_⟩
    · rw [List.pairwise_reverse]
      apply List.Pairwise.imp_of_mem _
        (keptSuccessors_pairwise x.state (expand P x.state st.nodes.length) st.explored)
      intro a b ha _ hb n hn
      obtain ⟨act, -, hka⟩ := hkept a ha
      rw [hka] at hn
      rw [hlast] at hn
      rw [← Option.some.inj hn]
      exact fun heq => hb heq.symm
    · apply List.Pairwise.imp_of_mem _ hbelow.2
      intro a b _ hb hR n hn
      exact hR n (hold b hb n hn)
    · intro a ha b hb n hn heq
      have hn' := hold b hb n hn
      have h1 := hd.parent_explored b (hrestmem b hb) n hn'
      rw [heq] at h1
      exact hkne a (List.mem_reverse.mp ha) h1
  · intro f hf n hn
    rw [hcont'] at hf
    rw [hnodes] at hn
    rcases List.mem_append.mp hf with hf | hf
    · have hfk := List.mem_reverse.mp hf
      obtain ⟨act, -, hka⟩ := hkept f hfk
      rw [hka] at hn
      rw [hlast] at hn
      rw [← Option.some.inj hn]
      exact hxE f hfk
    · exact hE _ (hd.parent_explored f (hrestmem f hf) n (hold f hf n hn))
  · intro i y a hy ha
    rw [hnodes] at hy
    by_cases hlt : i < st.nodes.length
    · rw [List.getElem?_append_left hlt] at hy
      rcases hd.near i y a hy ha with h1 | ⟨c, hcm, hcs⟩ | ⟨c, hcm, hcp, hcs⟩
      · exact Or.inl (hE _ h1)
      · exact Or.inr (Or.inl ⟨c, by rw [hnodes]; exact List.mem_append_left _ hcm, hcs⟩)
      · rw [hcont] at hcm
        rcases List.mem_cons.mp hcm with rfl | hcm
        · exact Or.inr (Or.inl ⟨c, by rw [hnodes]; simp, hcs⟩)
        · exact Or.inr (Or.inr ⟨c, by rw [hcont']; exact List.mem_append_right _ hcm,
            hcp, hcs⟩)
    · have hlen : i < (st.nodes ++ [x]).length := by
        rcases List.getElem?_eq_some_iff.mp hy with ⟨h1, -⟩
        exact h1
      simp only [List.length_append, List.length_singleton] at hlen
      have hieq : i = st.nodes.length := by omega
      subst hieq
      rw [hlast] at hy
      have hyx : y = x := (Option.some.inj hy).symm
      subst hyx
      have hs : (⟨P.result y.state a, st.nodes.length, a⟩ : Node S A) ∈
          expand P y.state st.nodes.length := (mem_expand P _ _ _).mpr ⟨a, ha, rfl⟩
      rcases keptSuccessors_or_explored y.state _ st.explored _ hs with h1 | h1 | h1
      · have hmem : (⟨P.result y.state a, st.nodes.length, a⟩ : Node S A) ∈
            st'.frontier.container := by
          rw [hcont']
          exact List.mem_append_left _ (List.mem_reverse.mpr h1)
        exact Or.inr (Or.inr ⟨_, hmem, rfl, rfl⟩)
      · exact Or.inl (hE _ h1)
      · exact Or.inr (Or.inl ⟨y, by rw [hnodes]; simp, h1.symm⟩)
  · intro f hf hrev
    rw [hcont'] at hf
    rw [hnodes] at hrev ⊢
    rcases List.mem_append.mp hf with hf | hf
    · have hfk := List.mem_reverse.mp hf
      obtain ⟨act, hact, hka⟩ := hkept f hfk
      have hfp : f.parent_index = st.nodes.length := by rw [hka]
      have hfs : f.state = P.result x.state act := by rw [hka]
      rw [hfp] at hrev
      obtain ⟨j, y, n', hj, h1, h2, h3⟩ := hrev
      rw [hlast] at h2
      have hn'x : n' = x := (Option.some.inj h2).symm
      subst hn'x
      rw [List.getElem?_append_left hj] at h1
      rw [h3] at hact hfs
      rcases hd.near j y act h1 hact with h4 | ⟨c, hcm, hcs⟩ | ⟨c, hcm, hcp, hcs⟩
      · rw [← hfs] at h4
        exact absurd h4 (hkne f hfk)
      · exact ⟨c, List.mem_append_left _ hcm, by rw [hcs, hfs]⟩
      · rw [hcont] at hcm
        rcases List.mem_cons.mp hcm with rfl | hcm
        · exact ⟨c, by simp, by rw [hcs, hfs]⟩
        · exfalso
          have := hbelow.1 c hcm y (by rw [hcp]; exact h1)
          exact this h3.symm
    · have hp := hrestpar f hf
      rw [Revisit_append st.nodes [x] _ hp] at hrev
      obtain ⟨n, hn, hns⟩ := hd.twin f (hrestmem f hf) hrev
      exact ⟨n, List.mem_append_left _ hn, hns⟩
  · rw [hnodes]
    apply RevisitClosed_snoc st.nodes x hd.closed
    · intro j n hj hn
      exact (hinv.hist j n hj hn).1
    · intro hne
      exact hpar x hxmem hne
    · intro _ hrev
      exact hd.twin x hxmem hrev

omit [DecidableEq S] in
/-- In a breadth-first search the node at the front of the queue carries an
examined state whenever its parent carries an already examined one. -/
theorem RInv_head_twin (P : Problem S A) (st : LoopState S A) (hb : BInv P st)
    (hr : RInv st) (x : Node S A) (rest : List (Node S A))
    (hcont : st.frontier.container = x :: rest) (hrev : Revisit st.nodes x.parent_index) :
    ∃ n ∈ st.nodes, n.state = x.state := by
  have hxmem : x ∈ st.frontier.container := by
    rw [hcont]
    exact List.mem_cons_self _ _
  rcases hr.twin x hxmem hrev with h1 | ⟨t, ht, -, htp⟩
  · exact h1
  · exfalso
    have hs := hb.sorted
    rw [hcont, List.map_append, List.pairwise_append] at hs
    have h2 := hs.2.1
    rw [List.map_cons, List.pairwise_cons] at h2
    rw [hcont] at ht
    rcases List.mem_cons.mp ht with rfl | ht
    · exact Nat.lt_irrefl _ htp
    · have := h2.1 _ (List.mem_map_of_mem _ ht)
      omega

theorem RInv_init (P : Problem S A) (initial_state : S) :
    RInv (searchInit P initial_state (Frontier.BreadthFirstFrontier [])) := by
  constructor
  · rintro f - ⟨j, n, n', -, h1, -, -⟩
    simp [searchInit] at h1
  · intro j n _ hn
    simp [searchInit] at hn

theorem RInv_step (P : Problem S A) (initial_state : S) (goal_states : List S)
    (st st' : LoopState S A) (hinv : Inv P initial_state goal_states st) (hb : BInv P st)
    (hr : RInv st) (h : searchStep P goal_states st = Step.iterate st') : RInv st' := by
  obtain ⟨c, hc⟩ := hb.bfs
  obtain ⟨x, rest, hcx, -, hnodes, hfr, -⟩ := searchStep_bfs P goal_states st st' c hc h
  subst hcx
  have hcont : st.frontier.container = x :: rest := by
    rw [hc]
    rfl
  have hcont' : st'.frontier.container =
      rest ++ keptSuccessors x.state (expand P x.state st.nodes.length) st.explored := by
    rw [hfr]
    rfl
  have hkept : ∀ k ∈ keptSuccessors x.state (expand P x.state st.nodes.length) st.explored,
      ∃ a ∈ P.actions x.state, k = ⟨P.result x.state a, st.nodes.length, a⟩ := by
    intro k hk
    exact (mem_expand P _ _ k).mp ((keptSuccessors_sublist _ _ _).subset hk)
  have hlast : (st.nodes ++ [x])[st.nodes.length]? = some x := by simp
  have hxmem : x ∈ st.frontier.container := by
    rw [hcont]
    exact List.mem_cons_self _ _
  have hrestmem : ∀ f ∈ rest, f ∈ st.frontier.container := by
    intro f hf
    rw [hcont]
    exact List.mem_cons_of_mem _ hf
  have hpar : ∀ f ∈ st.frontier.container, st.nodes ≠ [] →
      f.parent_index < st.nodes.length := by
    intro f hf hne
    obtain ⟨p, hp, -, -⟩ := hinv.front hne f hf
    rcases List.getElem?_eq_some_iff.mp hp with ⟨h1, -⟩
    exact h1
  have hrestpar : ∀ f ∈ rest, f.parent_index < st.nodes.length := by
    intro f hf
    by_cases hne : st.nodes = []
    · rcases hinv.root with ⟨-, hroot⟩ | hr0
      · rw [hcont] at hroot
        simp only [List.cons.injEq] at hroot
        rw [hroot.2] at hf
        simp at hf
      · rw [hne] at hr0
        simp at hr0
    · exact hpar f (hrestmem f hf) hne
  constructor
  · intro f hf hrev
    rw [hcont'] at hf
    rw [hnodes] at hrev
    rcases List.mem_append.mp hf with hf | hf
    · rw [Revisit_append st.nodes [x] _ (hrestpar f hf)] at hrev
      rcases hr.twin f (hrestmem f hf) hrev with ⟨n, hn, hns⟩ | ⟨t, ht, hts, htp⟩
      · exact Or.inl ⟨n, by rw [hnodes]; exact List.mem_append_left _ hn, hns⟩
      · rw [hcont] at ht
        rcases List.mem_cons.mp ht with rfl | ht
        · exact Or.inl ⟨t, by rw [hnodes]; simp, hts⟩
        · exact Or.inr ⟨t, by rw [hcont']; exact List.mem_append_left _ ht, hts, htp⟩
    · obtain ⟨act, hact, hka⟩ := hkept f hf
      have hfp : f.parent_index = st.nodes.length := by rw [hka]
      have hfs : f.state = P.result x.state act := by rw [hka]
      rw [hfp] at hrev
      obtain ⟨j, y, n', hj, h1, h2, h3⟩ := hrev
      rw [hlast] at h2
      have hn'x : n' = x := (Option.some.inj h2).symm
      subst hn'x
      rw [List.getElem?_append_left hj] at h1
      rw [h3] at hact hfs
      rcases hb.near j y act h1 hact with ⟨j2, n2, hj2, hs2, -⟩ | ⟨t, ht, hts, htp⟩
      · have hmem : n2 ∈ st'.nodes := by
          rw [hnodes]
          exact List.mem_append_left _ (List.getElem?_mem hj2)
        exact Or.inl ⟨n2, hmem, by rw [hs2, hfs]⟩
      · rw [hcont] at ht
        rcases List.mem_cons.mp ht with rfl | ht
        · exact Or.inl ⟨t, by rw [hnodes]; simp, by rw [hts, hfs]⟩
        · refine Or.inr ⟨t, ?_, by rw [hts, hfs], ?_⟩
          · rw [hcont']
            exact List.mem_append_left _ ht
          · rw [htp, hfp]
            exact hj
  · rw [hnodes]
    apply RevisitClosed_snoc st.nodes x hr.closed
    · intro j n hj hn
      exact (hinv.hist j n hj hn).1
    · intro hne
      exact hpar x hxmem hne
    · intro _ hrev
      exact RInv_head_twin P st hb hr x rest hcont hrev

omit [DecidableEq S] in
/-- When the node `g` taken from the frontier is a goal and the history is
closed under revisits, the walk of `path()` from `g` meets no state twice,
and all the states it meets are reachable. -/
theorem simple_path_core (P : Problem S A) (initial_state : S) (goal_states : List S)
    (st : LoopState S A) (hinv : Inv P initial_state goal_states st) (g : Node S A)
    (rest : List (Node S A)) (hxr : st.frontier.container = g :: rest)
    (hg : g.state ∈ goal_states) (hcl : RevisitClosed st.nodes)
    (htwin : Revisit st.nodes g.parent_index → ∃ n ∈ st.nodes, n.state = g.state) :
    ∃ pth, (∀ k, (st.nodes ++ [g]).length ≤ k →
        path (⟨true, st.nodes ++ [g]⟩ : Members S A) k = Run.done pth) ∧
      pth.Nodup ∧ ∀ s ∈ pth, Reachable P initial_state s := by
  have hok : HistOK P initial_state (st.nodes ++ [g]) :=
    Inv_histOK_snoc P initial_state goal_states st hinv g rest hxr
  have hgmem : g ∈ st.frontier.container := by
    rw [hxr]
    exact List.mem_cons_self _ _
  have hlast : (st.nodes ++ [g])[st.nodes.length]? = some g := by simp
  have hclH : RevisitClosed (st.nodes ++ [g]) := by
    apply RevisitClosed_snoc st.nodes g hcl
    · intro j n hj hn
      exact (hinv.hist j n hj hn).1
    · intro hne
      obtain ⟨p, hp, -, -⟩ := hinv.front hne g hgmem
      rcases List.getElem?_eq_some_iff.mp hp with ⟨h1, -⟩
      exact h1
    · intro _ hrev
      exact htwin hrev
  have hnr : ¬ Revisit (st.nodes ++ [g]) st.nodes.length := by
    rintro ⟨j, n, n', hj, h1, h2, h3⟩
    rw [hlast] at h2
    have hn'g : n' = g := (Option.some.inj h2).symm
    subst hn'g
    rw [List.getElem?_append_left hj] at h1
    apply hinv.nongoal n (List.getElem?_mem h1)
    rw [← h3]
    exact hg
  obtain ⟨ss, as, ht⟩ := Trace_exists P initial_state (st.nodes ++ [g]) hok st.nodes.length
    (by simp)
  have hle := Trace_length_le P initial_state _ hok _ ss as ht
  refine ⟨ss, ?_, Trace_nodup P initial_state _ hok hclH _ ss as ht hnr, ?_⟩
  · intro k hk
    simp only [List.length_append, List.length_singleton] at hk
    unfold path
    simp only [Bool.not_true, Bool.false_eq_true, if_false, List.length_append,
      List.length_singleton, Nat.add_sub_cancel]
    rw [Trace_pathWalk _ _ _ _ ht k [] (by omega)]
    simp
  · intro s hs
    obtain ⟨j, n, -, hn, hns⟩ := Trace_states P initial_state _ hok _ ss as ht s hs
    have hmem := List.getElem?_mem hn
    rw [← hns]
    rcases List.mem_append.mp hmem with h1 | h1
    · exact hinv.reach_nodes n h1
    · simp only [List.mem_singleton] at h1
      rw [h1]
      exact hinv.reach_front g hgmem

end SimplePathLemmas

section SimplePathClaims

variable {S A : Type} [DecidableEq S]

/-- C25: after either search returns true, `path()` contains no state twice,
so its length is at most the number of distinct states reachable from
`initial_state`: at most the length of any list that holds them all. -/
theorem path_is_simple (P : Problem S A) (initial_state : S) (goal_states : List S)
    (fuel : Nat) (m m' : Members S A)
    (h : searchDepthFirst P initial_state goal_states fuel m = Run.done (true, m') ∨
      searchBreadthFirst P initial_state goal_states fuel m = Run.done (true, m')) :
    ∃ pth, (∀ k, m'.nodes.length ≤ k → path m' k = Run.done pth) ∧ pth.Nodup ∧
      ∀ l : List S, (∀ s, Reachable P initial_state s → s ∈ l) → pth.length ≤ l.length := by
  have key : ∃ pth, (∀ k, m'.nodes.length ≤ k → path m' k = Run.done pth) ∧ pth.Nodup ∧
      ∀ s ∈ pth, Reachable P initial_state s := by
    rcases h with h | h
    · unfold searchDepthFirst at h
      obtain ⟨nodes, hloop, hm⟩ := (search_done_iff P initial_state goal_states _ fuel m m'
        true).mp h
      obtain ⟨st, ⟨hinv, hd⟩, hstep⟩ := searchLoop_done P goal_states
        (fun st => Inv P initial_state goal_states st ∧ DInv P st)
        (fun st st' hJ hs => ⟨Inv_step P initial_state goal_states st st' hJ.1 hs,
          DInv_step P initial_state goal_states st st' hJ.1 hJ.2 hs⟩) fuel _ true nodes
        ⟨Inv_init P initial_state goal_states (Frontier.DepthFirstFrontier []) rfl,
          DInv_init P initial_state⟩ hloop
      obtain ⟨g, rest, hxr, hg, hnodes⟩ := searchStep_exit_true P goal_states st nodes hstep
      subst hm
      subst hnodes
      exact simple_path_core P initial_state goal_states st hinv g rest hxr hg hd.closed
        (hd.twin g (by rw [hxr]; exact List.mem_cons_self _ _))
    · unfold searchBreadthFirst at h
      obtain ⟨nodes, hloop, hm⟩ := (search_done_iff P initial_state goal_states _ fuel m m'
        true).mp h
      obtain ⟨st, ⟨hinv, hb, hr⟩, hstep⟩ := searchLoop_done P goal_states
        (fun st => Inv P initial_state goal_states st ∧ BInv P st ∧ RInv st)
        (fun st st' hJ hs => ⟨Inv_step P initial_state goal_states st st' hJ.1 hs,
          BInv_step P initial_state goal_states st st' hJ.1 hJ.2.1 hs,
          RInv_step P initial_state goal_states st st' hJ.1 hJ.2.1 hJ.2.2 hs⟩)
        fuel _ true nodes
        ⟨Inv_init P initial_state goal_states (Frontier.BreadthFirstFrontier []) rfl,
          BInv_init P initial_state, RInv_init P initial_state⟩ hloop
      obtain ⟨g, rest, hxr, hg, hnodes⟩ := searchStep_exit_true P goal_states st nodes hstep
      subst hm
      subst hnodes
      exact simple_path_core P initial_state goal_states st hinv g rest hxr hg hr.closed
        (RInv_head_twin P st hb hr g rest hxr)
  obtain ⟨pth, hp, hnd, hreach⟩ := key
  refine ⟨pth, hp, hnd, ?_⟩
  intro l hl
  exact (List.subperm_of_subset hnd (fun s hs => hl s (hreach s hs))).length_le

/-- Instance of C25 on the cyclic grid of 11 states: depth-first from 8 with
goals `{3}`, where `path()` is 8-9-10-5-3. -/
theorem path_is_simple_witness :
    searchDepthFirst SimpleCyclesProblem 8 [3] 7 Members.fresh = Run.done (true, (⟨true, [⟨8, 0, TestActions.start_state⟩, ⟨9, 0, TestActions.right⟩,
        ⟨10, 1, TestActions.right⟩, ⟨5, 2, TestActions.up⟩, ⟨6, 3, TestActions.right⟩,
        ⟨7, 4, TestActions.right⟩, ⟨11, 5, TestActions.down⟩, ⟨3, 3, TestActions.up⟩]⟩ :
          Members Int TestActions)) ∧
    (∃ pth, (∀ k, (⟨true, [⟨8, 0, TestActions.start_state⟩, ⟨9, 0, TestActions.right⟩,
        ⟨10, 1, TestActions.right⟩, ⟨5, 2, TestActions.up⟩, ⟨6, 3, TestActions.right⟩,
        ⟨7, 4, TestActions.right⟩, ⟨11, 5, TestActions.down⟩, ⟨3, 3, TestActions.up⟩]⟩ :
          Members Int TestActions).nodes.length ≤ k → path (⟨true, [⟨8, 0, TestActions.start_state⟩, ⟨9, 0, TestActions.right⟩,
        ⟨10, 1, TestActions.right⟩, ⟨5, 2, TestActions.up⟩, ⟨6, 3, TestActions.right⟩,
        ⟨7, 4, TestActions.right⟩, ⟨11, 5, TestActions.down⟩, ⟨3, 3, TestActions.up⟩]⟩ :
          Members Int TestActions) k = Run.done pth) ∧ pth.Nodup ∧
      ∀ l : List Int, (∀ s, Reachable SimpleCyclesProblem 8 s → s ∈ l) →
        pth.length ≤ l.length) :=
  ⟨by decide,
    path_is_simple SimpleCyclesProblem 8 [3] 7 Members.fresh (⟨true, [⟨8, 0, TestActions.start_state⟩, ⟨9, 0, TestActions.right⟩,
        ⟨10, 1, TestActions.right⟩, ⟨5, 2, TestActions.up⟩, ⟨6, 3, TestActions.right⟩,
        ⟨7, 4, TestActions.right⟩, ⟨11, 5, TestActions.down⟩, ⟨3, 3, TestActions.up⟩]⟩ :
          Members Int TestActions) (Or.inl (by decide))⟩

end SimplePathClaims

end graphsearch
